import Mathlib

/-!
Skip list engine.

A shallow embedding of `skiplist_node.h` (class `skiplist_impl`, the sentinel-anchored
multi-level link structure) and of `skiplist_base.h` (class `map_base`, the search /
insert / remove operations built on it).

Objects live in a memory indexed by addresses.  Nodes and heads share the layout of
`skiplist_node_base` (the array `m_next`), followed by one more slot array: `m_tail` for a
head, `m_prev` for a node.  Keys are natural numbers compared with `<` (the default
`std::less` comparator), values are strings.  The address of a freshly created node and
the height drawn for it by `random_level()` are arguments of the inserting operations.
Loops that follow links carry a fuel argument and return `none` when it runs out.
-/

namespace isa

/-- An address; `0` is the null pointer. -/
abbrev Ptr := Nat

/-- Number of link slots of a node: `enum constants { MIN_NEXT_SIZE = 11, ... }`. -/
abbrev MIN_NEXT_SIZE : Nat := 11

/-- Highest level a node may have: `enum constants { ..., MAX_ADDITIONAL_LEVELS = 10 }`. -/
abbrev MAX_ADDITIONAL_LEVELS : Nat := 10

/-- Memory contents.  `m_next p l` is `p->m_next[l]`.  `m_tail p l` is the slot array that
follows `m_next` in the object at `p`: for a head it is `m_tail[l]`, for a node its slot `0`
is `m_prev[0]` (the source keeps `m_prev` at the same offset as the head's `m_tail`, so that
`set_prev` / `get_prev` applied to the head act on `m_tail[0]`).  `m_length` and `m_height`
are the head's counters, `released` logs the calls of `delete_node`. -/
structure Mem where
  m_next : Ptr → Nat → Ptr
  m_tail : Ptr → Nat → Ptr
  key : Ptr → Nat
  val : Ptr → String
  m_length : Ptr → Nat
  m_height : Ptr → Nat
  released : List Ptr

/-- Update of a function at one point. -/
def setf {α : Type} (f : Nat → α) (i : Nat) (v : α) : Nat → α :=
  fun j => if j = i then v else f j

/-- Update of a two-argument function at one point. -/
def setf2 (f : Nat → Nat → Nat) (p l v : Nat) : Nat → Nat → Nat :=
  fun q k => if q = p ∧ k = l then v else f q k

/-- The method `skiplist_node_base::set_next`: `m_next[level] = next`. -/
def set_next (m : Mem) (p : Ptr) (level : Nat) (next : Ptr) : Mem :=
  { m with m_next := setf2 m.m_next p level next }

/-- The method `skiplist_node_base::get_next`:
`level < MIN_NEXT_SIZE ? m_next[level] : nullptr`. -/
def get_next (m : Mem) (p : Ptr) (level : Nat) : Ptr :=
  if level < MIN_NEXT_SIZE then m.m_next p level else 0

/-- Assignment `p->m_tail[level] = t`. -/
def set_tail (m : Mem) (p : Ptr) (level : Nat) (t : Ptr) : Mem :=
  { m with m_tail := setf2 m.m_tail p level t }

/-- The method `skiplist_node::set_prev`: `m_prev[0] = prev`. -/
def set_prev (m : Mem) (p : Ptr) (prev : Ptr) : Mem :=
  set_tail m p 0 prev

/-- The method `skiplist_node::get_prev`: `m_prev[0]`. -/
def get_prev (m : Mem) (p : Ptr) : Ptr :=
  m.m_tail p 0

/-- The comparator: `map_base::less`. -/
def less (a b : Nat) : Bool := decide (a < b)

/-- The method `map_base::greater`: the comparator with swapped arguments. -/
def greater (a b : Nat) : Bool := less b a

/-- The method `map_base::equals(Key, Key)`: `!less(a, b) && !greater(a, b)`. -/
def equals (a b : Nat) : Bool := !less a b && !greater a b

/-- The method `map_base::equals(node_base const*, node_base const*)`:
`a == b || equals(_s_node_key(a), _s_node_key(b))`. -/
def equals_node (m : Mem) (a b : Ptr) : Bool :=
  a == b || equals (m.key a) (m.key b)

/-- Decrement of a `size_t` (64 bits), that is `(n + 2^64 - 1) % 2^64` for `n < 2^64`:
it wraps around at zero. -/
def size_dec (n : Nat) : Nat := if n = 0 then 18446744073709551615 else n - 1

/-- The loop of `skiplist_impl::init`: `m_next[i] = m_tail[i] = this` for `n` values of `i`. -/
def init_loop (hd : Ptr) : Nat → Nat → Mem → Mem
  | 0, _, m => m
  | n + 1, i, m => init_loop hd n (i + 1) (set_next (set_tail m hd i hd) hd i hd)

/-- The method `skiplist_impl::init`. -/
def init (m : Mem) (hd : Ptr) : Mem :=
  let m1 := init_loop hd (MAX_ADDITIONAL_LEVELS + 1) 0 m
  { m1 with m_length := setf m1.m_length hd 0, m_height := setf m1.m_height hd 0 }

/-- The inner loop of `skiplist_impl::find_node` at one level: advance `curr` while the next
node is not the head and its key is less than `key`. -/
def find_walk (m : Mem) (hd : Ptr) (key : Nat) (lvl : Nat) : Nat → Ptr → Option Ptr
  | 0, _ => none
  | fuel + 1, curr =>
    if get_next m curr lvl ≠ hd ∧ less (m.key (get_next m curr lvl)) key = true then
      find_walk m hd key lvl fuel (get_next m curr lvl)
    else some curr

/-- The outer loop of `skiplist_impl::find_node`; the first argument is `lvl + 1`, so the
loop ends (`lvl < 0`) when it is `0`. -/
def find_loop (m : Mem) (hd : Ptr) (key : Nat) (fuel : Nat) :
    Nat → Ptr → (Nat → Ptr) → Option (Ptr × (Nat → Ptr))
  | 0, curr, update => some (curr, update)
  | lvl + 1, curr, update =>
    match find_walk m hd key lvl fuel curr with
    | none => none
    | some c => find_loop m hd key fuel lvl c (setf update lvl c)

/-- The method `skiplist_impl::find_node`; returns the node found and the update array (a
local array of the caller, not initialised: modelled as all null before the search). -/
def find_node (m : Mem) (hd : Ptr) (key : Nat) (fuel : Nat) : Option (Ptr × (Nat → Ptr)) :=
  match find_loop m hd key fuel (m.m_height hd + 1) hd (fun _ => 0) with
  | none => none
  | some (curr, update) => some (m.m_next curr 0, update)

/-- The first loop of `skiplist_impl::insert_node`:
`while(lvl > list_height) { update[lvl] = this; lvl--; m_height++; }`. -/
def insert_raise (hd : Ptr) (list_height : Nat) : Nat → Mem → (Nat → Ptr) → Mem × (Nat → Ptr)
  | 0, m, update => (m, update)
  | lvl + 1, m, update =>
    if lvl + 1 > list_height then
      insert_raise hd list_height lvl
        { m with m_height := setf m.m_height hd (m.m_height hd + 1) } (setf update (lvl + 1) hd)
    else (m, update)

/-- The last loop of `skiplist_impl::insert_node`, `n` iterations starting at level `lvl`:
`new_node->set_next(lvl, update[lvl]->get_next(lvl)); update[lvl]->set_next(lvl, new_node)`. -/
def insert_links (new_node : Ptr) (update : Nat → Ptr) : Nat → Nat → Mem → Mem
  | 0, _, m => m
  | n + 1, lvl, m =>
    insert_links new_node update n (lvl + 1)
      (set_next (set_next m new_node lvl (get_next m (update lvl) lvl)) (update lvl) lvl new_node)

/-- The method `skiplist_impl::insert_node`. -/
def insert_node (m : Mem) (hd : Ptr) (new_node : Ptr) (node_height : Nat)
    (update : Nat → Ptr) : Mem :=
  let r := insert_raise hd (m.m_height hd) node_height m update
  let m0 := r.1
  let update := r.2
  let m1 := set_next m0 new_node 0 (m0.m_next (update 0) 0)
  let m2 := set_prev m1 (m1.m_next new_node 0) new_node
  let m3 := set_prev m2 new_node (update 0)
  let m4 := set_next m3 (get_prev m3 new_node) 0 new_node
  insert_links new_node update node_height 1 m4

/-- The loop of `skiplist_impl::append_node`, `n` iterations starting at level `lvl`. -/
def append_links (hd : Ptr) (new_node : Ptr) : Nat → Nat → Mem → Mem
  | 0, _, m => m
  | n + 1, lvl, m =>
    let m1 := set_next m (m.m_tail hd lvl) lvl new_node
    let m2 := set_next m1 new_node lvl hd
    append_links hd new_node n (lvl + 1) (set_tail m2 hd lvl new_node)

/-- The method `skiplist_impl::append_node`. -/
def append_node (m : Mem) (hd : Ptr) (new_node : Ptr) (height : Nat) : Mem :=
  let m1 := set_next m (m.m_tail hd 0) 0 new_node
  let m2 := set_prev m1 new_node (m1.m_tail hd 0)
  let m3 := set_next m2 new_node 0 hd
  let m4 := set_tail m3 hd 0 new_node
  let m5 := append_links hd new_node height 1 m4
  if height > m5.m_height hd then { m5 with m_height := setf m5.m_height hd height } else m5

/-- The second loop of `skiplist_impl::remove_node` and of `remove_last`:
`while(m_height > 0 && this->get_next(m_height) == npos()) m_height--`; at most `n` rounds. -/
def shrink_height (hd : Ptr) : Nat → Mem → Mem
  | 0, m => m
  | n + 1, m =>
    if m.m_height hd > 0 ∧ get_next m hd (m.m_height hd) = hd then
      shrink_height hd n { m with m_height := setf m.m_height hd (m.m_height hd - 1) }
    else m

/-- The first loop of `skiplist_impl::remove_node`:
`while(lvl <= m_height && update[lvl]->get_next(lvl) == nod)`; at most `n` rounds. -/
def remove_links (hd : Ptr) (nod : Ptr) (update : Nat → Ptr) : Nat → Nat → Mem → Mem
  | 0, _, m => m
  | n + 1, lvl, m =>
    if lvl ≤ m.m_height hd ∧ get_next m (update lvl) lvl = nod then
      remove_links hd nod update n (lvl + 1) (set_next m (update lvl) lvl (get_next m nod lvl))
    else m

/-- The method `skiplist_impl::remove_node`.  Both loops run at most `m_height` rounds. -/
def remove_node (m : Mem) (hd : Ptr) (pos : Ptr) (update : Nat → Ptr) : Mem :=
  let m1 := set_next m (get_prev m pos) 0 (m.m_next pos 0)
  let m2 := set_prev m1 (m1.m_next pos 0) (get_prev m1 pos)
  let m3 := remove_links hd pos update (m2.m_height hd) 1 m2
  shrink_height hd (m3.m_height hd) m3

/-- The loop of `skiplist_impl::remove_range`, `n` iterations starting at level `lvl`:
`update_first[lvl]->set_next(lvl, update_last[lvl]->get_next(lvl))`. -/
def range_links (update_first update_last : Nat → Ptr) : Nat → Nat → Mem → Mem
  | 0, _, m => m
  | n + 1, lvl, m =>
    range_links update_first update_last n (lvl + 1)
      (set_next m (update_first lvl) lvl (get_next m (update_last lvl) lvl))

/-- The method `skiplist_impl::remove_range`, removing `[first, last)`. -/
def remove_range (m : Mem) (hd : Ptr) (first last : Ptr)
    (update_first update_last : Nat → Ptr) : Mem :=
  let m1 := set_prev m last (get_prev m first)
  let m2 := set_next m1 (get_prev m1 first) 0 last
  range_links update_first update_last (m2.m_height hd) 1 m2

/-- The loop of `skiplist_impl::steal_nodes`, `n` iterations starting at level `i`. -/
def steal_loop (hd : Ptr) (rval : Ptr) : Nat → Nat → Mem → Mem
  | 0, _, m => m
  | n + 1, i, m =>
    let m1 := set_next m hd i (get_next m rval i)
    let m2 := set_tail m1 hd i (m1.m_tail rval i)
    let m3 := set_next m2 (m2.m_tail hd i) i hd
    steal_loop hd rval n (i + 1) m3

/-- The method `skiplist_impl::steal_nodes`. -/
def steal_nodes (m : Mem) (hd : Ptr) (rval : Ptr) : Mem :=
  let m1 := steal_loop hd rval (MAX_ADDITIONAL_LEVELS + 1) 0 m
  let m2 := set_prev m1 (m1.m_next hd 0) hd
  init m2 rval

/-- The method `map_base::create_node`: the allocator returns `new_node`, where the pair is
constructed; the link slots are left as they are. -/
def create_node (m : Mem) (new_node : Ptr) (key : Nat) (val : String) : Mem :=
  { m with key := setf m.key new_node key, val := setf m.val new_node val }

/-- The method `map_base::delete_node`. -/
def delete_node (m : Mem) (p : Ptr) : Mem :=
  { m with released := p :: m.released }

/-- The method `map_base::do_insert`; returns the node, the flag and the memory. -/
def do_insert (m : Mem) (hd : Ptr) (key : Nat) (val : String) (new_node : Ptr)
    (node_height : Nat) (fuel : Nat) : Option ((Ptr × Bool) × Mem) :=
  match find_node m hd key fuel with
  | none => none
  | some (pos, update) =>
    if pos = hd ∨ equals (m.key pos) key = false then
      let m1 := create_node m new_node key val
      let m2 := insert_node m1 hd new_node node_height update
      some ((new_node, true), m2)
    else some ((pos, false), m)

/-- The method `map_base::do_append`. -/
def do_append (m : Mem) (hd : Ptr) (key : Nat) (val : String) (new_node : Ptr)
    (node_height : Nat) : (Ptr × Bool) × Mem :=
  let m1 := create_node m new_node key val
  ((new_node, true), append_node m1 hd new_node node_height)

/-- The method `map_base::remove_node(Key const&)`; returns the count and the memory. -/
def remove_key (m : Mem) (hd : Ptr) (key : Nat) (fuel : Nat) : Option (Nat × Mem) :=
  match find_node m hd key fuel with
  | none => none
  | some (pos, update) =>
    if pos ≠ hd ∧ equals (m.key pos) key = true then
      let m1 := remove_node m hd pos update
      some (1, delete_node m1 pos)
    else some (0, m)

/-- The method `map_base::remove_node(node_base const*)`; returns the node and the memory. -/
def remove_at (m : Mem) (hd : Ptr) (node : Ptr) (fuel : Nat) : Option (Ptr × Mem) :=
  match find_node m hd (m.key node) fuel with
  | none => none
  | some (pos, update) =>
    if equals_node m node pos = true then
      let next := m.m_next pos 0
      let m1 := remove_node m hd pos update
      some (next, delete_node m1 pos)
    else some (node, m)

/-- The release loop of `map_base::remove_range` and `truncate_tail`:
`while(first != last) { next = first->m_next[0]; delete_node(first); first = next;
--m_head.m_length; }`. -/
def release_loop (hd : Ptr) (last : Ptr) : Nat → Ptr → Mem → Option (Ptr × Mem)
  | 0, _, _ => none
  | fuel + 1, first, m =>
    if first ≠ last then
      let next := m.m_next first 0
      let m1 := delete_node m first
      release_loop hd last fuel next
        { m1 with m_length := setf m1.m_length hd (size_dec (m1.m_length hd)) }
    else some (first, m)

/-- The method `map_base::remove_range`. -/
def remove_span (m : Mem) (hd : Ptr) (begin_ end_ : Ptr) (fuel : Nat) : Option (Ptr × Mem) :=
  match find_node m hd (m.key begin_) fuel with
  | none => none
  | some (first, update1) =>
    match find_node m hd (m.key end_) fuel with
    | none => none
    | some (last, update2) =>
      if (first = begin_ ∧ last = end_) ∨
          (equals_node m begin_ first = true ∧ equals_node m end_ last = true) then
        release_loop hd last fuel first (remove_range m hd first last update1 update2)
      else some (begin_, m)

/-- The method `map_base::truncate_tail`. -/
def truncate_tail (m : Mem) (hd : Ptr) (begin_ : Ptr) (fuel : Nat) : Option (Ptr × Mem) :=
  match find_node m hd (m.key begin_) fuel with
  | none => none
  | some (first, update) =>
    if equals_node m begin_ first = true then
      release_loop hd hd fuel first (remove_range m hd first hd update (m.m_tail hd))
    else some (begin_, m)

/-- Level-0 forward traversal from the head `hd`, started at `p`, until `hd` is reached
again (the loop of `clear_nodes`, of an iteration from `begin()` to `end()`). -/
def walk (m : Mem) (hd : Ptr) : Nat → Ptr → Option (List Ptr)
  | 0, _ => none
  | fuel + 1, p =>
    if p = hd then some []
    else match walk m hd fuel (m.m_next p 0) with
      | none => none
      | some ns => some (p :: ns)

/-- The nodes met by the level-0 forward traversal from the head. -/
def traverse (m : Mem) (hd : Ptr) (fuel : Nat) : Option (List Ptr) :=
  walk m hd fuel (m.m_next hd 0)

/-- The keys met by the level-0 forward traversal from the head. -/
def traverse_keys (m : Mem) (hd : Ptr) (fuel : Nat) : Option (List Nat) :=
  (traverse m hd fuel).map (List.map m.key)

/-- A memory with nothing in it. -/
def blank : Mem :=
  { m_next := fun _ _ => 0, m_tail := fun _ _ => 0, key := fun _ => 0, val := fun _ => "",
    m_length := fun _ => 0, m_height := fun _ => 0, released := [] }

/-- The empty structure whose head is at `hd`: the constructor `skiplist_impl()`. -/
def empty (hd : Ptr) : Mem := init blank hd

/-! ## Specification vocabulary -/

/-- The forward link function of level `L`. -/
def nxt (m : Mem) (L : Nat) : Ptr → Ptr := fun p => m.m_next p L

/-- The backward link function (slot `0` after `m_next`). -/
def prv (m : Mem) : Ptr → Ptr := fun p => m.m_tail p 0

/-- The chain `Seg f a ns b`: following `f` from `a` visits exactly the nodes `ns`, in
order, and then arrives at `b`. -/
def Seg (f : Ptr → Ptr) : Ptr → List Ptr → Ptr → Prop
  | a, [], b => f a = b
  | a, n :: ns, b => f a = n ∧ Seg f n ns b

/-- Strictly increasing keys along a list of nodes. -/
def KeySorted (m : Mem) (ns : List Ptr) : Prop :=
  ns.Pairwise (fun a b => m.key a < m.key b)

/-- The forward chain of level `L` from the head visits the nodes `ns`, returns to the
head, and is strictly increasing by key. -/
def Level (m : Mem) (hd : Ptr) (L : Nat) (ns : List Ptr) : Prop :=
  Seg (nxt m L) hd ns hd ∧ hd ∉ ns ∧ KeySorted m ns

/-- Chains between given nodes can be checked by following the links. -/
instance Seg.decidable (f : Ptr → Ptr) : ∀ a ns b, Decidable (Seg f a ns b)
  | a, [], b => inferInstanceAs (Decidable (f a = b))
  | a, n :: ns, b =>
    have := Seg.decidable f n ns b
    inferInstanceAs (Decidable (f a = n ∧ Seg f n ns b))

instance KeySorted.decidable (m : Mem) (ns : List Ptr) : Decidable (KeySorted m ns) :=
  inferInstanceAs (Decidable (ns.Pairwise (fun a b => m.key a < m.key b)))

instance Level.decidable (m : Mem) (hd : Ptr) (L : Nat) (ns : List Ptr) :
    Decidable (Level m hd L ns) :=
  inferInstanceAs (Decidable (Seg (nxt m L) hd ns hd ∧ hd ∉ ns ∧ KeySorted m ns))

/-- Every level `0..=height` has a forward chain from the head that is strictly increasing
by key and returns to the head; `ch L` lists the nodes of level `L`. -/
structure ChainsSorted (m : Mem) (hd : Ptr) (ch : Nat → List Ptr) : Prop where
  height_le : m.m_height hd ≤ MAX_ADDITIONAL_LEVELS
  levels : ∀ L, L ≤ m.m_height hd → Level m hd L (ch L)

/-- A well-formed structure: the chains of `ChainsSorted`, and every node of a level above
`0` is also a node of the level below. -/
structure WellFormed (m : Mem) (hd : Ptr) (ch : Nat → List Ptr) : Prop where
  height_le : m.m_height hd ≤ MAX_ADDITIONAL_LEVELS
  levels : ∀ L, L ≤ m.m_height hd → Level m hd L (ch L)
  nested : ∀ L, L < m.m_height hd → ∀ n ∈ ch (L + 1), n ∈ ch L

/-- The nodes of a chain whose key is less than `key` (a leading part of a sorted chain). -/
def below (m : Mem) (key : Nat) (ns : List Ptr) : List Ptr :=
  ns.takeWhile (fun n => less (m.key n) key)

/-- The rest of the chain: from the first node whose key is not less than `key` on. -/
def notBelow (m : Mem) (key : Nat) (ns : List Ptr) : List Ptr :=
  ns.dropWhile (fun n => less (m.key n) key)

/-- The last element of `a :: ns`. -/
def lastOr : Ptr → List Ptr → Ptr
  | a, [] => a
  | _, n :: ns => lastOr n ns

/-- The last node of a chain whose key is less than `key`, the head if there is none. -/
def lastBelow (m : Mem) (hd : Ptr) (key : Nat) (ns : List Ptr) : Ptr :=
  lastOr hd (below m key ns)

/-- The first node of a chain whose key is not less than `key`, the head if there is none. -/
def firstNotLess (m : Mem) (hd : Ptr) (key : Nat) (ns : List Ptr) : Ptr :=
  (ns.find? (fun n => !less (m.key n) key)).getD hd

/-- The first element of `ns`, or `b` when `ns` is empty. -/
def headOr (b : Ptr) : List Ptr → Ptr
  | [] => b
  | n :: _ => n

/-- A structure for which the chains are sorted and return to the head, yet the node of
level 1 (address 3, key 5) is not a node of level 0 (whose only node is 2, key 10). -/
def unnested : Mem :=
  let m := create_node (create_node (empty 1) 2 10 "") 3 5 ""
  let m := set_next (set_next m 1 0 2) 2 0 1
  let m := set_next (set_next (set_next m 1 1 3) 3 1 1) 3 0 1
  { m with m_height := setf m.m_height 1 1 }

/-- The chains of `unnested`. -/
def unnestedChains : Nat → List Ptr
  | 0 => [2]
  | 1 => [3]
  | _ => []

/-- The link function after linking `nn` in behind `u`. -/
def linkIn (f : Ptr → Ptr) (nn u : Ptr) : Ptr → Ptr :=
  setf (setf f nn (f u)) u nn

/-- The memories differ at most in `m_next`. -/
def LinksOnly (m' m : Mem) : Prop :=
  m'.m_tail = m.m_tail ∧ m'.key = m.key ∧ m'.val = m.val ∧ m'.m_length = m.m_length ∧
    m'.m_height = m.m_height ∧ m'.released = m.released

/-- The invariant of the structures built by the operations: every level `0..=10` has a
sorted chain that returns to the head, the levels are nested, the levels above `m_height`
are empty, and the backward links of level 0 mirror the forward ones (the head's slot being
`m_tail[0]`). -/
structure Inv (m : Mem) (hd : Ptr) (ch : Nat → List Ptr) : Prop where
  height_le : m.m_height hd ≤ MAX_ADDITIONAL_LEVELS
  levels : ∀ L, L ≤ MAX_ADDITIONAL_LEVELS → Level m hd L (ch L)
  nested : ∀ L, L < MAX_ADDITIONAL_LEVELS → ∀ n ∈ ch (L + 1), n ∈ ch L
  above : ∀ L, m.m_height hd < L → L ≤ MAX_ADDITIONAL_LEVELS → ch L = []
  back : Seg (prv m) hd (ch 0).reverse hd

/-- The chains after a node `nn` of height `h` has been linked in at the place of `key`. -/
def insertedChains (m : Mem) (key : Nat) (nn : Ptr) (h : Nat) (ch : Nat → List Ptr) :
    Nat → List Ptr :=
  fun L => if L ≤ h then below m key (ch L) ++ nn :: notBelow m key (ch L) else ch L

/-- A chain without the nodes whose key is in `[kb, ke)`. -/
def without (m : Mem) (kb ke : Nat) (ns : List Ptr) : List Ptr :=
  ns.filter (fun n => !(decide (kb ≤ m.key n) && decide (m.key n < ke)))

/-- The update array after the first loop of `insert_node`. -/
def raised (m : Mem) (hd : Ptr) (h : Nat) (update : Nat → Ptr) : Nat → Ptr :=
  fun L => if m.m_height hd < L ∧ L ≤ h then hd else update L

/-- The memory of a result, `blank` when there is none. -/
def memOf {α : Type} (r : Option (α × Mem)) : Mem :=
  match r with
  | some x => x.2
  | none => blank

/-- The structure with head 1 after inserting key 5 (value "a", node 10, height 1). -/
def afterFive : Mem := memOf (do_insert (empty 1) 1 5 "a" 10 1 4)

/-- The structure `afterFive` after inserting key 1 (node 11, height 0). -/
def afterFiveOne : Mem := memOf (do_insert afterFive 1 1 "" 11 0 4)

/-- The chains of `afterFive`. -/
def afterFiveChains : Nat → List Ptr
  | 0 => [10]
  | 1 => [10]
  | _ => []

/-- The chains of `afterFiveOne`. -/
def afterFiveOneChains : Nat → List Ptr
  | 0 => [11, 10]
  | 1 => [10]
  | _ => []

/-- The value of a `size_t` after `n` decrements. -/
def dec_times : Nat → Nat → Nat
  | 0, x => x
  | n + 1, x => dec_times n (size_dec x)

/-- The update array that the search for `key` fills: for every level up to the height the
last node whose key is less than `key` (the head if there is none); the entries above the
height are not written. -/
def updateOf (m : Mem) (hd : Ptr) (key : Nat) (ch : Nat → List Ptr) : Nat → Ptr :=
  fun L => if L ≤ m.m_height hd then lastBelow m hd key (ch L) else 0

/-- The computation `f`, which takes fuel, returns `x`: it does for every fuel from some
amount on. -/
def Returns {α : Type} (f : Nat → Option α) (x : α) : Prop :=
  ∃ N, ∀ fuel, N ≤ fuel → f fuel = some x

/-- The memory after the release loop has released the nodes `M`. -/
def releasedMem (m : Mem) (hd : Ptr) (M : List Ptr) : Mem :=
  { m with released := M.reverse ++ m.released,
           m_length := setf m.m_length hd (dec_times M.length (m.m_length hd)) }

/-- The nodes of the span `[kb, ke)` of a sorted level-0 chain. -/
def spanNodes (m : Mem) (kb ke : Nat) (ns : List Ptr) : List Ptr :=
  below m ke (notBelow m kb ns)

/-- The node `p` is reached from the head by following the forward links of level `L`
(the head itself is). -/
inductive Linked (m : Mem) (hd : Ptr) (L : Nat) : Ptr → Prop
  | head : Linked m hd L hd
  | next (p : Ptr) : Linked m hd L p → Linked m hd L (m.m_next p L)

/-- A live node of the structure: a node other than the head that the level-0 traversal
from the head meets. -/
def Live (m : Mem) (hd : Ptr) (n : Ptr) : Prop :=
  n ≠ hd ∧ Linked m hd 0 n

/-- The structures built from the empty structure by insertions.  The allocator gives a
new node an address that is neither the head nor a live node; `random_level()` gives it a
height of at most `MAX_ADDITIONAL_LEVELS`. -/
inductive Built (hd : Ptr) : Mem → Prop
  | empty (m0 : Mem) : Built hd (init m0 hd)
  | insert (m : Mem) (key : Nat) (val : String) (new_node node_height : Nat)
      (r : Ptr × Bool) (m' : Mem) :
      Built hd m → ¬ Linked m hd 0 new_node → node_height ≤ MAX_ADDITIONAL_LEVELS →
      Returns (do_insert m hd key val new_node node_height) (r, m') → Built hd m'

/-- The structures reached from the empty structure by insertions and by removals: by key,
by a reference to a live node, and of the span between two live nodes of which the first
is not after the second. -/
inductive Reachable (hd : Ptr) : Mem → Prop
  | empty (m0 : Mem) : Reachable hd (init m0 hd)
  | insert (m : Mem) (key : Nat) (val : String) (new_node node_height : Nat)
      (r : Ptr × Bool) (m' : Mem) :
      Reachable hd m → ¬ Linked m hd 0 new_node → node_height ≤ MAX_ADDITIONAL_LEVELS →
      Returns (do_insert m hd key val new_node node_height) (r, m') → Reachable hd m'
  | remove_key (m : Mem) (key : Nat) (count : Nat) (m' : Mem) :
      Reachable hd m → Returns (remove_key m hd key) (count, m') → Reachable hd m'
  | remove_at (m : Mem) (node : Ptr) (next : Ptr) (m' : Mem) :
      Reachable hd m → Live m hd node → Returns (remove_at m hd node) (next, m') →
      Reachable hd m'
  | remove_span (m : Mem) (begin_ end_ : Ptr) (r : Ptr) (m' : Mem) :
      Reachable hd m → Live m hd begin_ → Live m hd end_ → m.key begin_ ≤ m.key end_ →
      Returns (remove_span m hd begin_ end_) (r, m') → Reachable hd m'

/-- The structure with head 1 after inserting key 1 (node 10, height 2) and key 2 (node 11,
height 0). -/
def afterOneTwo : Mem :=
  memOf (do_insert (memOf (do_insert (empty 1) 1 1 "" 10 2 4)) 1 2 "" 11 0 4)

/-- The structure `afterOneTwo` after `remove_range(10, 11)`, which removes key 1. -/
def afterOneTwoCut : Mem := memOf (remove_span afterOneTwo 1 10 11 4)

/-- The structure with head 1 after: append key 1 (node 10, height 1), remove key 1, append
key 2 (node 11, height 0), append key 5 (node 12, height 2), append key 9 (node 13,
height 0), remove key 5, insert key 7 (node 14, height 0). -/
def afterStaleTail : Mem :=
  let s1 := (do_append (empty 1) 1 1 "" 10 1).2
  let s2 := memOf (remove_key s1 1 1 4)
  let s3 := (do_append s2 1 2 "" 11 0).2
  let s4 := (do_append s3 1 5 "" 12 2).2
  let s5 := (do_append s4 1 9 "" 13 0).2
  let s6 := memOf (remove_key s5 1 5 4)
  memOf (do_insert s6 1 7 "" 14 0 4)

/-- The loop of `map_base::random_level` (the branch compiled under `USE_C_RAND`):
`while(res < MAX_ADDITIONAL_LEVELS && rand() < RAND_MAX / 2) res++`, at most `n` rounds.
The values that the calls of `rand()` return are `rand 0`, `rand 1`, ...; the round that
starts with `res` makes call number `res`, since every earlier round made one call and
added one to `res`.  The constant `RAND_MAX` of the C library is a parameter. -/
def random_loop (RAND_MAX : Nat) (rand : Nat → Nat) : Nat → Nat → Nat
  | 0, res => res
  | n + 1, res =>
    if res < MAX_ADDITIONAL_LEVELS ∧ rand res < RAND_MAX / 2 then
      random_loop RAND_MAX rand n (res + 1)
    else res

/-- The method `map_base::random_level`; the loop ends within `MAX_ADDITIONAL_LEVELS + 1`
tests of its condition. -/
def random_level (RAND_MAX : Nat) (rand : Nat → Nat) : Nat :=
  random_loop RAND_MAX rand (MAX_ADDITIONAL_LEVELS + 1) 0

/-- The structures grown from the empty structure made in the memory `m0`, by insertions
whose node height is drawn by `random_level` and by the removals of `Reachable`. -/
inductive Grown (hd : Ptr) (RAND_MAX : Nat) (m0 : Mem) : Mem → Prop
  | empty : Grown hd RAND_MAX m0 (init m0 hd)
  | insert (m : Mem) (key : Nat) (val : String) (new_node : Nat) (rand : Nat → Nat)
      (r : Ptr × Bool) (m' : Mem) :
      Grown hd RAND_MAX m0 m → ¬ Linked m hd 0 new_node →
      Returns (do_insert m hd key val new_node (random_level RAND_MAX rand)) (r, m') →
      Grown hd RAND_MAX m0 m'
  | remove_key (m : Mem) (key : Nat) (count : Nat) (m' : Mem) :
      Grown hd RAND_MAX m0 m → Returns (remove_key m hd key) (count, m') →
      Grown hd RAND_MAX m0 m'
  | remove_at (m : Mem) (node : Ptr) (next : Ptr) (m' : Mem) :
      Grown hd RAND_MAX m0 m → Live m hd node → Returns (remove_at m hd node) (next, m') →
      Grown hd RAND_MAX m0 m'
  | remove_span (m : Mem) (begin_ end_ : Ptr) (r : Ptr) (m' : Mem) :
      Grown hd RAND_MAX m0 m → Live m hd begin_ → Live m hd end_ →
      m.key begin_ ≤ m.key end_ →
      Returns (remove_span m hd begin_ end_) (r, m') → Grown hd RAND_MAX m0 m'

/-- One element to store: the key, the value, the address that the allocator gives to its
node, and the height drawn for the node. -/
structure Item where
  key : Nat
  val : String
  node : Ptr
  height : Nat

/-- Building with `do_append` (that is `create_node`, then `append_node`) only. -/
def append_all (hd : Ptr) : List Item → Mem → Mem
  | [], m => m
  | it :: rest, m => append_all hd rest (do_append m hd it.key it.val it.node it.height).2

/-- Building with `do_insert` (that is `find_node`, `create_node`, then `insert_node`)
only. -/
def insert_all (hd : Ptr) (fuel : Nat) : List Item → Mem → Option Mem
  | [], m => some m
  | it :: rest, m =>
    match do_insert m hd it.key it.val it.node it.height fuel with
    | none => none
    | some r => insert_all hd fuel rest r.2

/-- The relation kept between a structure `mA` built by appending and a structure `mI`
built by inserting the same elements: `mI` satisfies the invariant with the chains `ch`, the
two agree on the forward links, the keys, the height and the backward links, and in `mA` the
tail pointer of every level is the last node of that level. -/
structure Tracks (mA mI : Mem) (hd : Ptr) (ch : Nat → List Ptr) : Prop where
  inv : Inv mI hd ch
  next_eq : mA.m_next = mI.m_next
  key_eq : mA.key = mI.key
  height_eq : mA.m_height hd = mI.m_height hd
  prev_eq : prv mA = prv mI
  tails : ∀ L, L ≤ MAX_ADDITIONAL_LEVELS → mA.m_tail hd L = lastOr hd (ch L)

/-- The four elements with keys 1, 2, 3, 4 at the nodes 10, 11, 12, 13, with the heights
2, 0, 1, 3. -/
def fourItems : List Item :=
  [⟨1, "a", 10, 2⟩, ⟨2, "b", 11, 0⟩, ⟨3, "c", 12, 1⟩, ⟨4, "d", 13, 3⟩]

/-- The structure `afterFiveOne` (key 1 at node 11, key 5 at node 10) after
`remove_range(10, 11)`: the end of the span is before its beginning. -/
def afterReversedSpan : Mem := memOf (remove_span afterFiveOne 1 10 11 4)

/-- The structure with head 1 after inserting key 1 (node 10, height 1) and key 2 (node 11,
height 1). -/
def afterTwoTall : Mem :=
  memOf (do_insert (memOf (do_insert (empty 1) 1 1 "" 10 1 4)) 1 2 "" 11 1 4)

/-- The structure `afterTwoTall` after `truncate_tail(11)`. -/
def afterTwoTallCut : Mem := memOf (truncate_tail afterTwoTall 1 11 4)

/-- The structure `afterFive` (key 5 at node 10, height 1) after `truncate_tail(10)`. -/
def afterFiveCut : Mem := memOf (truncate_tail afterFive 1 10 4)

/-- The structure with head 1 after inserting key 1 (node 10, height 1) and then appending
key 2 (node 11, height 1). -/
def afterInsertAppend : Mem :=
  (do_append (memOf (do_insert (empty 1) 1 1 "" 10 1 4)) 1 2 "" 11 1).2

/-- The memory `m'` has, above level `MAX_ADDITIONAL_LEVELS`, the link and tail slots of
`m`: no slot above the ceiling was written on the way from `m` to `m'`. -/
def SameAbove (m' m : Mem) : Prop :=
  ∀ p L, MAX_ADDITIONAL_LEVELS < L →
    m'.m_next p L = m.m_next p L ∧ m'.m_tail p L = m.m_tail p L

/-- The empty structure with head 1 and a node 10 with key 1 that is not in the structure.
The head has no key: the storage that `_s_node_key` reads when it is given the head is, in
the layout of the source, the slot `m_tail[1]` (a node keeps its pair right after
`m_prev[0]`, the head keeps `m_tail[1]` right after `m_tail[0]`), so the value read is
written here as the key of the head. -/
def staleAtSentinel : Mem :=
  let m := create_node (empty 1) 10 1 ""
  { m with key := setf m.key 1 (m.m_tail 1 1) }

/-- The memory `m'` has the tail slots of `m` at every level other than 0 (at level 0 the
slot is `m_prev[0]` of a node, or `m_tail[0]` of a head). -/
def SameTails (m' m : Mem) : Prop :=
  ∀ p L, L ≠ 0 → m'.m_tail p L = m.m_tail p L

/-- The structure with head 2 after `steal_nodes` from the structure `afterFive` (head 1,
key 5 at node 10, height 1); the head 2 was initialised empty before. -/
def afterFiveStolen : Mem := steal_nodes (init afterFive 2) 2 1

/-! # Theorems -/

/-! ## Elementary facts -/

theorem get_next_eq (m : Mem) (p : Ptr) {L : Nat} (h : L ≤ MAX_ADDITIONAL_LEVELS) :
    get_next m p L = m.m_next p L := by
  unfold get_next
  rw [if_pos (by simp only [MIN_NEXT_SIZE, MAX_ADDITIONAL_LEVELS] at *; omega)]

theorem less_iff (a b : Nat) : less a b = true ↔ a < b := by
  simp [less]

theorem equals_iff (a b : Nat) : equals a b = true ↔ a = b := by
  simp [equals, greater, less]
  omega

@[simp] theorem lastOr_nil (a : Ptr) : lastOr a [] = a := rfl

@[simp] theorem lastOr_cons (a n : Ptr) (ns : List Ptr) : lastOr a (n :: ns) = lastOr n ns := rfl

@[simp] theorem lastOr_append_cons (xs : List Ptr) (y : Ptr) (ys : List Ptr) :
    ∀ a, lastOr a (xs ++ y :: ys) = lastOr y ys := by
  induction xs with
  | nil => intro a; rfl
  | cons x xs ih => intro a; simpa using ih x

theorem lastOr_append (xs ys : List Ptr) (a : Ptr) :
    lastOr a (xs ++ ys) = lastOr (lastOr a xs) ys := by
  induction xs generalizing a with
  | nil => rfl
  | cons x xs ih => simpa using ih x

theorem lastOr_mem (ns : List Ptr) : ∀ a, lastOr a ns = a ∨ lastOr a ns ∈ ns := by
  induction ns with
  | nil => intro a; left; rfl
  | cons n ns ih =>
    intro a
    right
    rcases ih n with h | h
    · simp [h]
    · simp [h]

/-! ## Chains -/

theorem seg_append (f : Ptr → Ptr) (xs : List Ptr) (y : Ptr) (ys : List Ptr) :
    ∀ a b, Seg f a (xs ++ y :: ys) b ↔ Seg f a xs y ∧ Seg f y ys b := by
  induction xs with
  | nil => intro a b; simp [Seg]
  | cons x xs ih =>
    intro a b
    show (f a = x ∧ Seg f x (xs ++ y :: ys) b) ↔ (f a = x ∧ Seg f x xs y) ∧ Seg f y ys b
    rw [ih x b, and_assoc]

theorem seg_congr (f g : Ptr → Ptr) (ns : List Ptr) :
    ∀ a b, (∀ p ∈ a :: ns, g p = f p) → (Seg g a ns b ↔ Seg f a ns b) := by
  induction ns with
  | nil => intro a b h; simp [Seg, h a]
  | cons n ns ih =>
    intro a b h
    have h1 : g a = f a := h a (by simp)
    have h2 : ∀ p ∈ n :: ns, g p = f p := fun p hp => h p (List.mem_cons_of_mem _ hp)
    simp only [Seg, h1, ih n b h2]

/-- The link leaving the last node of a chain. -/
theorem seg_last (f : Ptr → Ptr) (ns : List Ptr) :
    ∀ a b, Seg f a ns b → f (lastOr a ns) = b := by
  induction ns with
  | nil => intro a b h; simpa [Seg] using h
  | cons n ns ih =>
    intro a b h
    simp only [Seg] at h
    simpa using ih n b h.2

/-- The link leaving the last node of a leading part of a chain. -/
theorem seg_split_last (f : Ptr → Ptr) (xs ys : List Ptr) (a b : Ptr)
    (h : Seg f a (xs ++ ys) b) : f (lastOr a xs) = headOr b ys := by
  cases ys with
  | nil => simpa [headOr] using seg_last f xs a b (by simpa using h)
  | cons y ys =>
    rw [seg_append] at h
    simpa [headOr] using seg_last f xs a y h.1

/-! ## The search -/

theorem find_walk_seg (m : Mem) (hd : Ptr) (key : Nat) (L : Nat)
    (hL : L ≤ MAX_ADDITIONAL_LEVELS) (ns : List Ptr) :
    ∀ (curr : Ptr) (fuel : Nat), ns.length < fuel → Seg (nxt m L) curr ns hd → hd ∉ ns →
      find_walk m hd key L fuel curr = some (lastOr curr (below m key ns)) := by
  induction ns with
  | nil =>
    intro curr fuel hf hs _
    cases fuel with
    | zero => simp at hf
    | succ fuel =>
      simp only [Seg, nxt] at hs
      simp [find_walk, get_next_eq m curr hL, hs, below]
  | cons n ns ih =>
    intro curr fuel hf hs hhd
    cases fuel with
    | zero => simp at hf
    | succ fuel =>
      simp only [Seg, nxt] at hs
      have hn : n ≠ hd := fun h => hhd (by simp [h])
      have hhd' : hd ∉ ns := fun h => hhd (List.mem_cons_of_mem _ h)
      have hf' : ns.length < fuel := by simpa using hf
      by_cases hk : less (m.key n) key = true
      · simp only [find_walk, get_next_eq m curr hL, hs.1]
        rw [if_pos ⟨hn, hk⟩, ih n fuel hf' hs.2 hhd']
        simp [below, List.takeWhile_cons, hk]
      · simp only [find_walk, get_next_eq m curr hL, hs.1]
        rw [if_neg (fun h => hk h.2)]
        simp [below, List.takeWhile_cons, hk]

theorem below_append_of_all (m : Mem) (key : Nat) (xs ys : List Ptr)
    (h : ∀ x ∈ xs, m.key x < key) : below m key (xs ++ ys) = xs ++ below m key ys := by
  induction xs with
  | nil => rfl
  | cons x xs ih =>
    have hx : less (m.key x) key = true := (less_iff _ _).2 (h x (by simp))
    have := ih (fun y hy => h y (List.mem_cons_of_mem _ hy))
    simp only [below] at this ⊢
    simp [List.takeWhile_cons, hx, this]

theorem mem_below (m : Mem) (key : Nat) (ns : List Ptr) (x : Ptr) (h : x ∈ below m key ns) :
    x ∈ ns ∧ m.key x < key := by
  refine ⟨(List.takeWhile_sublist _).subset h, ?_⟩
  have := List.mem_takeWhile_imp h
  simpa [less] using this

theorem lastBelow_cases (m : Mem) (hd : Ptr) (key : Nat) (ns : List Ptr) :
    lastBelow m hd key ns = hd ∨
      (lastBelow m hd key ns ∈ ns ∧ m.key (lastBelow m hd key ns) < key) := by
  unfold lastBelow
  rcases lastOr_mem (below m key ns) hd with h | h
  · left; exact h
  · right; exact mem_below m key ns _ h

/-- Walking a level from the head, or from one of its nodes whose key is less than `key`,
stops at the last node of the level whose key is less than `key`. -/
theorem find_walk_level (m : Mem) (hd : Ptr) (key : Nat) (L : Nat)
    (hL : L ≤ MAX_ADDITIONAL_LEVELS) (ns : List Ptr) (hlev : Level m hd L ns)
    (curr : Ptr) (hc : curr = hd ∨ (curr ∈ ns ∧ m.key curr < key))
    (fuel : Nat) (hf : ns.length < fuel) :
    find_walk m hd key L fuel curr = some (lastBelow m hd key ns) := by
  obtain ⟨hseg, hhd, hsorted⟩ := hlev
  rcases hc with rfl | ⟨hmem, hkey⟩
  · exact find_walk_seg m curr key L hL ns curr fuel hf hseg hhd
  · obtain ⟨pre, post, rfl⟩ := List.append_of_mem hmem
    rw [seg_append] at hseg
    have hpost : hd ∉ post := fun h => hhd (by simp [h])
    have hlen : post.length < fuel := by
      simp only [List.length_append, List.length_cons] at hf; omega
    rw [find_walk_seg m hd key L hL post curr fuel hlen hseg.2 hpost]
    have hpre : ∀ x ∈ pre ++ [curr], m.key x < key := by
      intro x hx
      rcases List.mem_append.1 hx with hx | hx
      · have h1 := List.pairwise_append.1 hsorted
        have := h1.2.2 x hx curr (by simp)
        omega
      · simp at hx; rw [hx]; exact hkey
    have : pre ++ curr :: post = (pre ++ [curr]) ++ post := by simp
    unfold lastBelow
    rw [this, below_append_of_all m key _ _ hpre, lastOr_append]
    simp

theorem below_append_notBelow (m : Mem) (key : Nat) (ns : List Ptr) :
    below m key ns ++ notBelow m key ns = ns := by
  simp [below, notBelow]

theorem headOr_notBelow (m : Mem) (hd : Ptr) (key : Nat) (ns : List Ptr) :
    headOr hd (notBelow m key ns) = firstNotLess m hd key ns := by
  induction ns with
  | nil => rfl
  | cons n ns ih =>
    by_cases hk : less (m.key n) key = true
    · simp only [notBelow, firstNotLess] at ih ⊢
      simp [List.dropWhile_cons, List.find?_cons, hk, ih]
    · simp only [notBelow, firstNotLess] at ih ⊢
      simp [List.dropWhile_cons, List.find?_cons, hk, headOr]

/-- The level-0 successor of the last node below `key` is the first node not below it. -/
theorem next_lastBelow (m : Mem) (hd : Ptr) (key : Nat) (L : Nat) (ns : List Ptr)
    (h : Seg (nxt m L) hd ns hd) :
    m.m_next (lastBelow m hd key ns) L = firstNotLess m hd key ns := by
  rw [← below_append_notBelow m key ns] at h
  have := seg_split_last (nxt m L) _ _ hd hd h
  rw [headOr_notBelow] at this
  exact this

theorem exists_fuel (ch : Nat → List Ptr) (h : Nat) :
    ∃ N, ∀ L, L ≤ h → (ch L).length < N := by
  induction h with
  | zero => exact ⟨(ch 0).length + 1, fun L hL => by
      have : L = 0 := by omega
      subst this; omega⟩
  | succ h ih =>
    obtain ⟨N, hN⟩ := ih
    refine ⟨N + (ch (h + 1)).length + 1, fun L hL => ?_⟩
    by_cases hl : L ≤ h
    · have := hN L hl; omega
    · have : L = h + 1 := by omega
      subst this; omega

theorem find_loop_spec (m : Mem) (hd : Ptr) (key : Nat) (ch : Nat → List Ptr)
    (hwf : WellFormed m hd ch) (fuel : Nat)
    (hfuel : ∀ L, L ≤ m.m_height hd → (ch L).length < fuel) :
    ∀ n, n ≤ m.m_height hd + 1 → ∀ curr update,
      (n = 0 ∨ curr = hd ∨ (curr ∈ ch (n - 1) ∧ m.key curr < key)) →
      ∃ update', find_loop m hd key fuel n curr update =
          some (if n = 0 then curr else lastBelow m hd key (ch 0), update') ∧
        (∀ L, L < n → update' L = lastBelow m hd key (ch L)) ∧
        (∀ L, n ≤ L → update' L = update L) := by
  intro n
  induction n with
  | zero =>
    intro _ curr update _
    exact ⟨update, by simp [find_loop], fun L hL => by omega, fun _ _ => rfl⟩
  | succ k ih =>
    intro hn curr update hc
    have hk : k ≤ m.m_height hd := by omega
    have hk10 : k ≤ MAX_ADDITIONAL_LEVELS := le_trans hk hwf.height_le
    have hc' : curr = hd ∨ (curr ∈ ch k ∧ m.key curr < key) := by
      rcases hc with h | h | h
      · omega
      · exact Or.inl h
      · exact Or.inr (by simpa using h)
    have hw := find_walk_level m hd key k hk10 (ch k) (hwf.levels k hk) curr hc' fuel (hfuel k hk)
    have hnext : k = 0 ∨ lastBelow m hd key (ch k) = hd ∨
        (lastBelow m hd key (ch k) ∈ ch (k - 1) ∧ m.key (lastBelow m hd key (ch k)) < key) := by
      rcases Nat.eq_zero_or_pos k with h0 | hpos
      · exact Or.inl h0
      · right
        rcases lastBelow_cases m hd key (ch k) with h | ⟨h1, h2⟩
        · exact Or.inl h
        · refine Or.inr ⟨?_, h2⟩
          have := hwf.nested (k - 1) (by omega) (lastBelow m hd key (ch k))
          rw [Nat.sub_add_cancel hpos] at this
          exact this h1
    obtain ⟨u, hu1, hu2, hu3⟩ := ih (by omega) (lastBelow m hd key (ch k))
      (setf update k (lastBelow m hd key (ch k))) hnext
    refine ⟨u, ?_, ?_, ?_⟩
    · simp only [find_loop, hw, hu1]
      by_cases h0 : k = 0
      · subst h0; simp
      · simp [h0]
    · intro L hL
      by_cases hLk : L < k
      · exact hu2 L hLk
      · have : L = k := by omega
        subst this
        rw [hu3 L (le_refl _)]
        simp [setf]
    · intro L hL
      rw [hu3 L (by omega)]
      have : L ≠ k := by omega
      simp [setf, this]

/-- What the search returns on a well-formed structure, given enough fuel. -/
theorem find_node_spec (m : Mem) (hd : Ptr) (key : Nat) (ch : Nat → List Ptr)
    (hwf : WellFormed m hd ch) (fuel : Nat)
    (hfuel : ∀ L, L ≤ m.m_height hd → (ch L).length < fuel) :
    ∃ update, find_node m hd key fuel = some (firstNotLess m hd key (ch 0), update) ∧
      (∀ L, L ≤ m.m_height hd → update L = lastBelow m hd key (ch L)) ∧
      (∀ L, m.m_height hd < L → update L = 0) := by
  obtain ⟨u, hu1, hu2, hu3⟩ := find_loop_spec m hd key ch hwf fuel hfuel (m.m_height hd + 1)
    (le_refl _) hd (fun _ => 0) (Or.inr (Or.inl rfl))
  refine ⟨u, ?_, fun L hL => hu2 L (by omega), fun L hL => hu3 L (by omega)⟩
  simp only [find_node, hu1]
  simp [next_lastBelow m hd key 0 (ch 0) (hwf.levels 0 (Nat.zero_le _)).1]

/-- The search returns the first node not below `key`, and the update array `updateOf`. -/
theorem find_node_returns (m : Mem) (hd : Ptr) (key : Nat) (ch : Nat → List Ptr)
    (hwf : WellFormed m hd ch) (fuel : Nat)
    (hfuel : ∀ L, L ≤ m.m_height hd → (ch L).length < fuel) :
    find_node m hd key fuel = some (firstNotLess m hd key (ch 0), updateOf m hd key ch) := by
  obtain ⟨u, hu, hu2, hu3⟩ := find_node_spec m hd key ch hwf fuel hfuel
  have : u = updateOf m hd key ch := by
    funext L
    unfold updateOf
    by_cases h : L ≤ m.m_height hd
    · rw [if_pos h]; exact hu2 L h
    · rw [if_neg h]; exact hu3 L (by omega)
  rw [hu, this]

theorem updateOf_spec (m : Mem) (hd : Ptr) (key : Nat) (ch : Nat → List Ptr) :
    ∀ L, L ≤ m.m_height hd → updateOf m hd key ch L = lastBelow m hd key (ch L) := by
  intro L hL
  unfold updateOf
  rw [if_pos hL]

theorem walk_seg (m : Mem) (hd : Ptr) (ns : List Ptr) :
    ∀ (a : Ptr) (fuel : Nat), ns.length < fuel → Seg (nxt m 0) a ns hd → hd ∉ ns →
      walk m hd fuel (m.m_next a 0) = some ns := by
  induction ns with
  | nil =>
    intro a fuel hf hs _
    cases fuel with
    | zero => simp at hf
    | succ fuel =>
      simp only [Seg, nxt] at hs
      simp [walk, hs]
  | cons n ns ih =>
    intro a fuel hf hs hhd
    cases fuel with
    | zero => simp at hf
    | succ fuel =>
      simp only [Seg, nxt] at hs
      have hn : n ≠ hd := fun h => hhd (by simp [h])
      have hhd' : hd ∉ ns := fun h => hhd (List.mem_cons_of_mem _ h)
      have hf' : ns.length < fuel := by simpa using hf
      simp [walk, hs.1, hn, ih n fuel hf' hs.2 hhd']

/-- The traversal of a level-0 chain lists its nodes. -/
theorem traverse_level (m : Mem) (hd : Ptr) (ns : List Ptr) (h : Level m hd 0 ns)
    (fuel : Nat) (hf : ns.length < fuel) : traverse m hd fuel = some ns :=
  walk_seg m hd ns hd fuel hf h.1 h.2.1

theorem firstNotLess_of_mem (m : Mem) (hd : Ptr) (ns : List Ptr) (hs : KeySorted m ns)
    (n : Ptr) (hn : n ∈ ns) : firstNotLess m hd (m.key n) ns = n := by
  induction ns with
  | nil => simp at hn
  | cons x xs ih =>
    unfold KeySorted at hs
    rw [List.pairwise_cons] at hs
    rcases List.mem_cons.1 hn with rfl | hmem
    · simp [firstNotLess, List.find?_cons, less]
    · have hx : less (m.key x) (m.key n) = true := (less_iff _ _).2 (hs.1 n hmem)
      have := ih hs.2 hmem
      unfold firstNotLess at this ⊢
      rw [List.find?_cons]
      simp only [hx, Bool.not_true]
      exact this

/-! ## Memory updates -/

@[simp] theorem setf_same {α : Type} (f : Nat → α) (i : Nat) (v : α) : setf f i v i = v := by
  simp [setf]

theorem setf_other {α : Type} (f : Nat → α) (i : Nat) (v : α) (j : Nat) (h : j ≠ i) :
    setf f i v j = f j := by
  simp [setf, h]

@[simp] theorem set_next_m_tail (m : Mem) (p l v) : (set_next m p l v).m_tail = m.m_tail := rfl
@[simp] theorem set_next_key (m : Mem) (p l v) : (set_next m p l v).key = m.key := rfl
@[simp] theorem set_next_val (m : Mem) (p l v) : (set_next m p l v).val = m.val := rfl
@[simp] theorem set_next_m_height (m : Mem) (p l v) :
    (set_next m p l v).m_height = m.m_height := rfl
@[simp] theorem set_next_m_length (m : Mem) (p l v) :
    (set_next m p l v).m_length = m.m_length := rfl
@[simp] theorem set_next_released (m : Mem) (p l v) :
    (set_next m p l v).released = m.released := rfl
@[simp] theorem set_tail_m_next (m : Mem) (p l v) : (set_tail m p l v).m_next = m.m_next := rfl
@[simp] theorem set_tail_key (m : Mem) (p l v) : (set_tail m p l v).key = m.key := rfl
@[simp] theorem set_tail_val (m : Mem) (p l v) : (set_tail m p l v).val = m.val := rfl
@[simp] theorem set_tail_m_height (m : Mem) (p l v) :
    (set_tail m p l v).m_height = m.m_height := rfl
@[simp] theorem set_tail_m_length (m : Mem) (p l v) :
    (set_tail m p l v).m_length = m.m_length := rfl
@[simp] theorem set_tail_released (m : Mem) (p l v) :
    (set_tail m p l v).released = m.released := rfl

theorem nxt_set_next (m : Mem) (p l v L : Nat) :
    nxt (set_next m p l v) L = if L = l then setf (nxt m L) p v else nxt m L := by
  funext q
  by_cases h : L = l
  · subst h
    by_cases hq : q = p <;> simp [nxt, set_next, setf2, setf, hq]
  · simp [nxt, set_next, setf2, h]

@[simp] theorem nxt_set_next_same (m : Mem) (p l v : Nat) :
    nxt (set_next m p l v) l = setf (nxt m l) p v := by
  rw [nxt_set_next, if_pos rfl]

theorem nxt_set_next_other (m : Mem) (p l v L : Nat) (h : L ≠ l) :
    nxt (set_next m p l v) L = nxt m L := by
  rw [nxt_set_next, if_neg h]

@[simp] theorem nxt_set_tail (m : Mem) (p l v L : Nat) : nxt (set_tail m p l v) L = nxt m L := rfl

@[simp] theorem nxt_set_prev (m : Mem) (p v L : Nat) : nxt (set_prev m p v) L = nxt m L := rfl

@[simp] theorem prv_set_next (m : Mem) (p l v : Nat) : prv (set_next m p l v) = prv m := rfl

@[simp] theorem prv_set_prev (m : Mem) (p v : Nat) : prv (set_prev m p v) = setf (prv m) p v := by
  funext q
  by_cases hq : q = p <;> simp [prv, set_prev, set_tail, setf2, setf, hq]

/-- Redirecting the link that leaves the last node of a chain. -/
theorem seg_retarget (f : Ptr → Ptr) (d : Ptr) (P : List Ptr) :
    ∀ a c, Seg f a P c → (a :: P).Nodup → Seg (setf f (lastOr a P) d) a P d := by
  induction P with
  | nil => intro a c _ _; simp [Seg]
  | cons p P ih =>
    intro a c h hnd
    simp only [Seg] at h
    rw [List.nodup_cons] at hnd
    have hne : a ≠ lastOr a (p :: P) := by
      intro heq
      rcases lastOr_mem P p with h1 | h1
      · apply hnd.1; rw [heq]; simp [h1]
      · apply hnd.1; rw [heq]; simp [h1]
    refine ⟨?_, ih p c h.2 hnd.2⟩
    rw [lastOr_cons] at hne ⊢
    rw [setf_other _ _ _ _ hne]
    exact h.1

theorem seg_front (f : Ptr → Ptr) (xs ys : List Ptr) (a b : Ptr)
    (h : Seg f a (xs ++ ys) b) : Seg f a xs (headOr b ys) := by
  cases ys with
  | nil => simpa [headOr] using h
  | cons y ys => rw [seg_append] at h; exact h.1

/-- Linking a new node in behind the last node of a leading part of a chain. -/
theorem seg_link_in (f : Ptr → Ptr) (a b nn : Ptr) (P S : List Ptr)
    (h : Seg f a (P ++ S) b) (hnd : (a :: (P ++ S)).Nodup) (hnn : nn ∉ a :: (P ++ S)) :
    Seg (linkIn f nn (lastOr a P)) a (P ++ nn :: S) b := by
  have hu : lastOr a P ∈ a :: P := by
    rcases lastOr_mem P a with h1 | h1
    · rw [h1]; simp
    · exact List.mem_cons_of_mem _ h1
  have hnu : nn ≠ lastOr a P := by
    intro heq; apply hnn; rw [heq]
    rcases List.mem_cons.1 hu with h1 | h1
    · rw [h1]; simp
    · simp [h1]
  have hndP : (a :: P).Nodup := by
    have : (a :: P ++ S).Nodup := hnd
    exact (List.nodup_append.1 (by simpa using this)).1
  rw [seg_append]
  constructor
  · have h1 : Seg (setf f nn (f (lastOr a P))) a P (headOr b S) := by
      rw [seg_congr f _ P a _ (fun p hp => setf_other _ _ _ _ (by
        intro heq; apply hnn; rw [← heq]
        rcases List.mem_cons.1 hp with h2 | h2
        · rw [h2]; simp
        · simp [h2]))]
      exact seg_front f P S a b h
    exact seg_retarget _ nn P a _ h1 hndP
  · have hval : linkIn f nn (lastOr a P) nn = headOr b S := by
      unfold linkIn
      rw [setf_other _ _ _ _ hnu, setf_same]
      exact seg_split_last f P S a b h
    cases S with
    | nil => simpa [Seg, headOr] using hval
    | cons s S =>
      rw [seg_append] at h
      refine ⟨by simpa [headOr] using hval, ?_⟩
      rw [seg_congr f _ S s b]
      · exact h.2
      · intro p hp
        have hp' : p ∈ s :: S := hp
        have hpn : p ≠ nn := by
          intro heq; apply hnn; rw [← heq]; simp [hp']
        have hpu : p ≠ lastOr a P := by
          intro heq
          have hd : List.Disjoint (a :: P) (s :: S) := by
            have : (a :: P ++ s :: S).Nodup := hnd
            exact (List.nodup_append.1 (by simpa using this)).2.2
          exact hd (heq ▸ hu) hp'
        unfold linkIn
        rw [setf_other _ _ _ _ hpu, setf_other _ _ _ _ hpn]

/-- Cutting the middle part `M` out of a chain. -/
theorem seg_cut (f : Ptr → Ptr) (a b : Ptr) (P M S : List Ptr)
    (h : Seg f a (P ++ M ++ S) b) (hnd : (a :: (P ++ M ++ S)).Nodup) :
    Seg (setf f (lastOr a P) (f (lastOr a (P ++ M)))) a (P ++ S) b := by
  have hv : f (lastOr a (P ++ M)) = headOr b S := seg_split_last f (P ++ M) S a b h
  rw [hv]
  have hP : Seg f a P (headOr b (M ++ S)) := by
    rw [List.append_assoc] at h; exact seg_front f P (M ++ S) a b h
  have hndP : (a :: P).Nodup := by
    have : (a :: P ++ (M ++ S)).Nodup := by simpa using hnd
    exact (List.nodup_append.1 this).1
  have h1 := seg_retarget f (headOr b S) P a _ hP hndP
  cases S with
  | nil => simpa [headOr] using h1
  | cons s S =>
    rw [seg_append]
    refine ⟨by simpa [headOr] using h1, ?_⟩
    rw [seg_append] at h
    rw [seg_congr f _ S s b]
    · exact h.2
    · intro p hp
      apply setf_other
      intro heq
      have hu : lastOr a P ∈ a :: P := by
        rcases lastOr_mem P a with h1 | h1
        · rw [h1]; simp
        · exact List.mem_cons_of_mem _ h1
      have hd : List.Disjoint (a :: (P ++ M)) (s :: S) := by
        have : (a :: (P ++ M) ++ s :: S).Nodup := by simpa using hnd
        exact (List.nodup_append.1 this).2.2
      have hu' : lastOr a P ∈ a :: (P ++ M) := by
        rcases List.mem_cons.1 hu with h2 | h2
        · rw [h2]; simp
        · simp [h2]
      exact hd hu' (heq ▸ hp)

theorem lastOr_reverse (a : Ptr) (S : List Ptr) : lastOr a S.reverse = headOr a S := by
  cases S with
  | nil => rfl
  | cons s S => simp [headOr]

theorem headOr_reverse (a : Ptr) (P : List Ptr) : headOr a P.reverse = lastOr a P := by
  induction P generalizing a with
  | nil => rfl
  | cons p P ih =>
    rw [lastOr_cons, ← ih p]
    cases h : P.reverse with
    | nil => simp [h, headOr]
    | cons x xs => simp [h, headOr]

/-! ## The effect of the loops -/

theorem linksOnly_refl (m : Mem) : LinksOnly m m := ⟨rfl, rfl, rfl, rfl, rfl, rfl⟩

theorem linksOnly_set_next (m' m : Mem) (p l v : Nat) (h : LinksOnly m' m) :
    LinksOnly (set_next m' p l v) m := h

theorem linksOnly_trans {a b c : Mem} (h1 : LinksOnly a b) (h2 : LinksOnly b c) :
    LinksOnly a c := by
  obtain ⟨a1, a2, a3, a4, a5, a6⟩ := h1
  obtain ⟨b1, b2, b3, b4, b5, b6⟩ := h2
  exact ⟨a1.trans b1, a2.trans b2, a3.trans b3, a4.trans b4, a5.trans b5, a6.trans b6⟩

theorem prv_of_linksOnly {m' m : Mem} (h : LinksOnly m' m) : prv m' = prv m := by
  funext q; simp [prv, h.1]

theorem init_loop_next (hd : Ptr) (n : Nat) :
    ∀ (i : Nat) (m : Mem) (p L : Nat), (init_loop hd n i m).m_next p L =
      if p = hd ∧ i ≤ L ∧ L < i + n then hd else m.m_next p L := by
  induction n with
  | zero =>
    intro i m p L
    rw [init_loop, if_neg]
    rintro ⟨_, h2, h3⟩
    omega
  | succ n ih =>
    intro i m p L
    rw [init_loop, ih]
    by_cases hp : p = hd
    · by_cases hL : L = i
      · subst hL; simp [hp, set_next, setf2]
      · have e : (set_next (set_tail m hd i hd) hd i hd).m_next p L = m.m_next p L := by
          simp [set_next, setf2, set_tail, hL]
        rw [e]
        have : (p = hd ∧ i + 1 ≤ L ∧ L < i + 1 + n) ↔ (p = hd ∧ i ≤ L ∧ L < i + (n + 1)) := by
          constructor <;> rintro ⟨h1, h2, h3⟩ <;> refine ⟨h1, ?_, ?_⟩ <;> omega
        simp only [this]
    · simp [hp, set_next, setf2, set_tail]

theorem init_loop_tail (hd : Ptr) (n : Nat) :
    ∀ (i : Nat) (m : Mem) (p L : Nat), (init_loop hd n i m).m_tail p L =
      if p = hd ∧ i ≤ L ∧ L < i + n then hd else m.m_tail p L := by
  induction n with
  | zero =>
    intro i m p L
    rw [init_loop, if_neg]
    rintro ⟨_, h2, h3⟩
    omega
  | succ n ih =>
    intro i m p L
    rw [init_loop, ih]
    by_cases hp : p = hd
    · by_cases hL : L = i
      · subst hL; simp [hp, set_next, setf2, set_tail]
      · have e : (set_next (set_tail m hd i hd) hd i hd).m_tail p L = m.m_tail p L := by
          simp [set_next, setf2, set_tail, hL]
        rw [e]
        have : (p = hd ∧ i + 1 ≤ L ∧ L < i + 1 + n) ↔ (p = hd ∧ i ≤ L ∧ L < i + (n + 1)) := by
          constructor <;> rintro ⟨h1, h2, h3⟩ <;> refine ⟨h1, ?_, ?_⟩ <;> omega
        simp only [this]
    · simp [hp, set_next, setf2, set_tail]

theorem init_next (m : Mem) (hd p L : Nat) :
    (init m hd).m_next p L = if p = hd ∧ L ≤ MAX_ADDITIONAL_LEVELS then hd else m.m_next p L := by
  simp only [init, init_loop_next]
  have : (p = hd ∧ 0 ≤ L ∧ L < 0 + (MAX_ADDITIONAL_LEVELS + 1)) ↔
      (p = hd ∧ L ≤ MAX_ADDITIONAL_LEVELS) := by
    constructor <;> rintro ⟨h1, h2⟩ <;> refine ⟨h1, ?_⟩ <;> omega
  simp only [this]

theorem init_tail (m : Mem) (hd p L : Nat) :
    (init m hd).m_tail p L = if p = hd ∧ L ≤ MAX_ADDITIONAL_LEVELS then hd else m.m_tail p L := by
  simp only [init, init_loop_tail]
  have : (p = hd ∧ 0 ≤ L ∧ L < 0 + (MAX_ADDITIONAL_LEVELS + 1)) ↔
      (p = hd ∧ L ≤ MAX_ADDITIONAL_LEVELS) := by
    constructor <;> rintro ⟨h1, h2⟩ <;> refine ⟨h1, ?_⟩ <;> omega
  simp only [this]

theorem init_height (m : Mem) (hd : Nat) : (init m hd).m_height hd = 0 := by
  simp [init]

/-- The freshly initialised structure satisfies the invariant, with empty chains. -/
theorem init_inv (m : Mem) (hd : Ptr) : Inv (init m hd) hd (fun _ => []) := by
  refine ⟨by simp [init_height], ?_, by simp, by simp, ?_⟩
  · intro L hL
    refine ⟨?_, by simp, by simp [KeySorted]⟩
    simp [Seg, nxt, init_next, hL]
  · simp [Seg, prv, init_tail]

theorem insert_raise_spec (hd lh : Nat) (lvl : Nat) :
    ∀ (m : Mem) (update : Nat → Ptr),
      insert_raise hd lh lvl m update =
        ({ m with m_height := setf m.m_height hd (m.m_height hd + (lvl - lh)) },
          fun L => if lh < L ∧ L ≤ lvl then hd else update L) := by
  induction lvl with
  | zero =>
    intro m update
    rw [insert_raise]
    congr 1
    · cases m; simp only [Mem.mk.injEq, true_and, and_true]; funext j
      by_cases hj : j = hd <;> simp [setf, hj]
    · funext L
      have : ¬ (lh < L ∧ L ≤ 0) := by omega
      rw [if_neg this]
  | succ lvl ih =>
    intro m update
    rw [insert_raise]
    by_cases h : lvl + 1 > lh
    · rw [if_pos h, ih]
      congr 1
      · cases m; simp only [Mem.mk.injEq, true_and, and_true]; funext j
        by_cases hj : j = hd
        · subst hj; simp only [setf_same]; omega
        · simp [setf, hj]
      · funext L
        by_cases h1 : L = lvl + 1
        · subst h1; simp [setf, h]
        · have : (lh < L ∧ L ≤ lvl) ↔ (lh < L ∧ L ≤ lvl + 1) := by
            constructor <;> rintro ⟨a, b⟩ <;> refine ⟨a, ?_⟩ <;> omega
          simp [setf, h1, this]
    · rw [if_neg h]
      have e : lvl + 1 - lh = 0 := by omega
      congr 1
      · cases m; simp only [Mem.mk.injEq, true_and, and_true]; funext j
        by_cases hj : j = hd <;> simp [setf, hj, e]
      · funext L
        have : ¬ (lh < L ∧ L ≤ lvl + 1) := by omega
        rw [if_neg this]

theorem insert_links_only (nn : Ptr) (update : Nat → Ptr) (n : Nat) :
    ∀ (lvl : Nat) (m : Mem), LinksOnly (insert_links nn update n lvl m) m := by
  induction n with
  | zero => intro lvl m; exact linksOnly_refl m
  | succ n ih =>
    intro lvl m
    rw [insert_links]
    exact linksOnly_trans (ih _ _) (linksOnly_refl m)

theorem insert_links_nxt (nn : Ptr) (update : Nat → Ptr) (n : Nat) :
    ∀ (lvl : Nat) (m : Mem), lvl + n ≤ MAX_ADDITIONAL_LEVELS + 1 → ∀ L,
      nxt (insert_links nn update n lvl m) L =
        if lvl ≤ L ∧ L < lvl + n then linkIn (nxt m L) nn (update L) else nxt m L := by
  induction n with
  | zero =>
    intro lvl m _ L
    rw [insert_links, if_neg]
    omega
  | succ n ih =>
    intro lvl m hb L
    have hb' : lvl + (n + 1) ≤ 11 := hb
    have hl : lvl ≤ MAX_ADDITIONAL_LEVELS := show lvl ≤ 10 by omega
    rw [insert_links, ih (lvl + 1) _ (show lvl + 1 + n ≤ 11 by omega)]
    by_cases h1 : L = lvl
    · subst h1
      have c1 : ¬ (L + 1 ≤ L ∧ L < L + 1 + n) := by omega
      have c2 : L ≤ L ∧ L < L + (n + 1) := by omega
      rw [if_neg c1, if_pos c2, nxt_set_next_same, nxt_set_next_same, get_next_eq m _ hl]
      rfl
    · have e : nxt (set_next (set_next m nn lvl (get_next m (update lvl) lvl)) (update lvl)
          lvl nn) L = nxt m L := by
        rw [nxt_set_next_other _ _ _ _ _ h1, nxt_set_next_other _ _ _ _ _ h1]
      rw [e]
      have : (lvl + 1 ≤ L ∧ L < lvl + 1 + n) ↔ (lvl ≤ L ∧ L < lvl + (n + 1)) := by
        constructor <;> rintro ⟨a, b⟩ <;> constructor <;> omega
      simp only [this]

theorem insert_node_nxt (m : Mem) (hd nn h : Nat) (update : Nat → Ptr)
    (hh : h ≤ MAX_ADDITIONAL_LEVELS) (L : Nat) :
    nxt (insert_node m hd nn h update) L =
      if L ≤ h then linkIn (nxt m L) nn (raised m hd h update L) else nxt m L := by
  have hb : 1 + h ≤ MAX_ADDITIONAL_LEVELS + 1 := by omega
  simp only [insert_node, insert_raise_spec]
  rw [insert_links_nxt _ _ _ _ _ hb]
  by_cases h0 : L = 0
  · subst h0
    have c : ¬ (1 ≤ 0 ∧ 0 < 1 + h) := by omega
    rw [if_neg c, if_pos (Nat.zero_le _)]
    simp only [nxt_set_next_same, nxt_set_prev, get_prev, set_prev, set_tail, setf2]
    simp only [linkIn, nxt, raised, set_next, setf2]
    have c2 : ¬ (m.m_height hd < 0 ∧ 0 ≤ h) := by omega
    simp only [if_neg c2]
    funext q
    by_cases h1 : q = update 0 <;> by_cases h2 : q = nn <;> simp [setf, nxt, setf2, h1, h2]
  · have c : (1 ≤ L ∧ L < 1 + h) ↔ L ≤ h := by omega
    simp only [c]
    have e : ∀ (a : Mem) (p v : Nat), nxt (set_next a p 0 v) L = nxt a L :=
      fun a p v => nxt_set_next_other a p 0 v L h0
    simp only [e, nxt_set_prev]
    rfl

theorem insert_node_prv (m : Mem) (hd nn h : Nat) (update : Nat → Ptr) :
    prv (insert_node m hd nn h update) =
      setf (setf (prv m) (m.m_next (raised m hd h update 0) 0) nn) nn
        (raised m hd h update 0) := by
  simp only [insert_node, insert_raise_spec]
  rw [prv_of_linksOnly (insert_links_only _ _ _ _ _)]
  simp only [prv_set_next, prv_set_prev]
  have c2 : ¬ (m.m_height hd < 0 ∧ 0 ≤ h) := by omega
  simp only [set_next, setf2, raised, if_neg c2, and_self, if_true]
  rfl

theorem insert_node_key (m : Mem) (hd nn h : Nat) (update : Nat → Ptr) :
    (insert_node m hd nn h update).key = m.key := by
  simp only [insert_node, insert_raise_spec]
  rw [(insert_links_only _ _ _ _ _).2.1]
  rfl

theorem insert_node_height (m : Mem) (hd nn h : Nat) (update : Nat → Ptr) :
    (insert_node m hd nn h update).m_height hd = m.m_height hd + (h - m.m_height hd) := by
  simp only [insert_node, insert_raise_spec]
  rw [(insert_links_only _ _ _ _ _).2.2.2.2.1]
  simp [set_next, set_prev, set_tail]

theorem insert_node_length (m : Mem) (hd nn h : Nat) (update : Nat → Ptr) :
    (insert_node m hd nn h update).m_length = m.m_length := by
  simp only [insert_node, insert_raise_spec]
  rw [(insert_links_only _ _ _ _ _).2.2.2.1]
  rfl

/-! ## Sorted chains -/

theorem keySorted_nodup (m : Mem) (ns : List Ptr) (h : KeySorted m ns) : ns.Nodup := by
  unfold KeySorted at h
  exact h.imp (fun {a b} hab heq => by rw [heq] at hab; exact lt_irrefl _ hab)

theorem keySorted_congr (m m' : Mem) (ns : List Ptr) (h : ∀ n ∈ ns, m'.key n = m.key n) :
    KeySorted m' ns ↔ KeySorted m ns := by
  unfold KeySorted
  constructor
  · intro hs
    exact hs.imp_of_mem (fun {a b} ha hb hab => by rw [← h a ha, ← h b hb]; exact hab)
  · intro hs
    exact hs.imp_of_mem (fun {a b} ha hb hab => by rw [h a ha, h b hb]; exact hab)

theorem below_congr (m m' : Mem) (key : Nat) (ns : List Ptr)
    (h : ∀ n ∈ ns, m'.key n = m.key n) : below m' key ns = below m key ns := by
  induction ns with
  | nil => rfl
  | cons x xs ih =>
    have hx := h x (by simp)
    have := ih (fun n hn => h n (List.mem_cons_of_mem _ hn))
    simp only [below] at this ⊢
    simp only [List.takeWhile_cons, hx, this]

theorem notBelow_congr (m m' : Mem) (key : Nat) (ns : List Ptr)
    (h : ∀ n ∈ ns, m'.key n = m.key n) : notBelow m' key ns = notBelow m key ns := by
  induction ns with
  | nil => rfl
  | cons x xs ih =>
    have hx := h x (by simp)
    have := ih (fun n hn => h n (List.mem_cons_of_mem _ hn))
    simp only [notBelow] at this ⊢
    simp only [List.dropWhile_cons, hx, this]

theorem lastBelow_congr (m m' : Mem) (hd : Ptr) (key : Nat) (ns : List Ptr)
    (h : ∀ n ∈ ns, m'.key n = m.key n) : lastBelow m' hd key ns = lastBelow m hd key ns := by
  unfold lastBelow; rw [below_congr m m' key ns h]

theorem notBelow_sublist (m : Mem) (key : Nat) (ns : List Ptr) :
    (notBelow m key ns).Sublist ns := List.dropWhile_sublist _

theorem below_sublist (m : Mem) (key : Nat) (ns : List Ptr) :
    (below m key ns).Sublist ns := List.takeWhile_sublist _

theorem mem_notBelow (m : Mem) (key : Nat) (ns : List Ptr) (hs : KeySorted m ns)
    (q : Ptr) (hq : q ∈ notBelow m key ns) : key ≤ m.key q := by
  induction ns with
  | nil => simp [notBelow] at hq
  | cons x xs ih =>
    unfold KeySorted at hs
    rw [List.pairwise_cons] at hs
    by_cases hx : less (m.key x) key = true
    · have e : notBelow m key (x :: xs) = notBelow m key xs := by
        simp [notBelow, List.dropWhile_cons, hx]
      rw [e] at hq
      exact ih hs.2 hq
    · have e : notBelow m key (x :: xs) = x :: xs := by
        simp [notBelow, List.dropWhile_cons, hx]
      rw [e] at hq
      have hxk : key ≤ m.key x := by
        simp only [less_iff] at hx; omega
      rcases List.mem_cons.1 hq with rfl | hmem
      · exact hxk
      · have := hs.1 q hmem; omega

theorem keySorted_sublist (m : Mem) (l ns : List Ptr) (h : l.Sublist ns)
    (hs : KeySorted m ns) : KeySorted m l :=
  List.Pairwise.sublist h hs

/-- A sorted chain stays sorted when a node with a new key is put at the place of its key. -/
theorem keySorted_inserted (m : Mem) (key : Nat) (nn : Ptr) (ns : List Ptr)
    (hs : KeySorted m ns) (habs : ∀ n ∈ ns, m.key n ≠ key) (hk : m.key nn = key) :
    KeySorted m (below m key ns ++ nn :: notBelow m key ns) := by
  unfold KeySorted
  rw [List.pairwise_append, List.pairwise_cons]
  refine ⟨keySorted_sublist m _ ns (below_sublist m key ns) hs, ⟨?_, ?_⟩, ?_⟩
  · intro q hq
    have h1 := mem_notBelow m key ns hs q hq
    have h2 := habs q ((notBelow_sublist m key ns).subset hq)
    omega
  · exact keySorted_sublist m _ ns (notBelow_sublist m key ns) hs
  · intro p hp q hq
    have h1 := (mem_below m key ns p hp).2
    rcases List.mem_cons.1 hq with rfl | hq
    · omega
    · have h2 := mem_notBelow m key ns hs q hq
      omega

theorem Inv.mem_zero {m : Mem} {hd : Ptr} {ch : Nat → List Ptr} (hinv : Inv m hd ch) :
    ∀ L, L ≤ MAX_ADDITIONAL_LEVELS → ∀ n ∈ ch L, n ∈ ch 0 := by
  intro L
  induction L with
  | zero => intro _ n hn; exact hn
  | succ L ih =>
    intro hL n hn
    exact ih (by omega) n (hinv.nested L (by omega) n hn)

theorem Inv.wellFormed {m : Mem} {hd : Ptr} {ch : Nat → List Ptr} (hinv : Inv m hd ch) :
    WellFormed m hd ch :=
  ⟨hinv.height_le, fun L hL => hinv.levels L (le_trans hL hinv.height_le),
    fun L hL => hinv.nested L (lt_of_lt_of_le hL hinv.height_le)⟩

theorem level_nodup {m : Mem} {hd : Ptr} {L : Nat} {ns : List Ptr} (h : Level m hd L ns) :
    (hd :: ns).Nodup :=
  List.nodup_cons.2 ⟨h.2.1, keySorted_nodup m ns h.2.2⟩

/-- Creating a node at an address that is in no chain keeps the invariant. -/
theorem create_node_inv (m : Mem) (hd : Ptr) (ch : Nat → List Ptr) (nn key : Nat)
    (val : String) (hinv : Inv m hd ch) (hfresh : nn ∉ ch 0) :
    Inv (create_node m nn key val) hd ch := by
  have hk : ∀ L, L ≤ MAX_ADDITIONAL_LEVELS → ∀ n ∈ ch L, (create_node m nn key val).key n =
      m.key n := by
    intro L hL n hn
    have : n ≠ nn := fun h => hfresh (h ▸ hinv.mem_zero L hL n hn)
    simp [create_node, setf, this]
  refine ⟨hinv.height_le, ?_, hinv.nested, hinv.above, hinv.back⟩
  intro L hL
  obtain ⟨h1, h2, h3⟩ := hinv.levels L hL
  exact ⟨h1, h2, (keySorted_congr m _ (ch L) (hk L hL)).2 h3⟩

theorem mem_insertedChains (m : Mem) (key nn h : Nat) (ch : Nat → List Ptr) (L n : Nat)
    (hn : n ∈ ch L) : n ∈ insertedChains m key nn h ch L := by
  unfold insertedChains
  by_cases hL : L ≤ h
  · rw [if_pos hL]
    rw [← below_append_notBelow m key (ch L)] at hn
    rcases List.mem_append.1 hn with h1 | h1
    · exact List.mem_append_left _ h1
    · exact List.mem_append_right _ (List.mem_cons_of_mem _ h1)
  · rw [if_neg hL]; exact hn

theorem headOr_mem (b : Ptr) (S : List Ptr) : headOr b S = b ∨ headOr b S ∈ S := by
  cases S with
  | nil => left; rfl
  | cons s S => right; simp [headOr]

/-- Linking a new node in at the place of its key keeps the invariant. -/
theorem insert_node_inv (m : Mem) (hd : Ptr) (ch : Nat → List Ptr) (key nn h : Nat)
    (update : Nat → Ptr) (hinv : Inv m hd ch) (hkey : m.key nn = key) (hnn : nn ≠ hd)
    (hfresh : nn ∉ ch 0) (hh : h ≤ MAX_ADDITIONAL_LEVELS)
    (habs : ∀ n ∈ ch 0, m.key n ≠ key)
    (hupd : ∀ L, L ≤ m.m_height hd → update L = lastBelow m hd key (ch L)) :
    Inv (insert_node m hd nn h update) hd (insertedChains m key nn h ch) := by
  have hr : ∀ L, L ≤ h → raised m hd h update L = lastBelow m hd key (ch L) := by
    intro L hL
    have hL10 : L ≤ MAX_ADDITIONAL_LEVELS := le_trans hL hh
    unfold raised
    by_cases c : m.m_height hd < L
    · rw [if_pos ⟨c, hL⟩, hinv.above L c hL10]; rfl
    · rw [if_neg (fun hc => c hc.1)]
      exact hupd L (by omega)
  have hkeys : (insert_node m hd nn h update).key = m.key := insert_node_key m hd nn h update
  have hfreshL : ∀ L, L ≤ MAX_ADDITIONAL_LEVELS → nn ∉ ch L :=
    fun L hL hmem => hfresh (hinv.mem_zero L hL nn hmem)
  refine ⟨?_, ?_, ?_, ?_, ?_⟩
  · rw [insert_node_height]
    have := hinv.height_le
    omega
  · intro L hL
    obtain ⟨hseg, hhd, hsorted⟩ := hinv.levels L hL
    by_cases c : L ≤ h
    · have e : insertedChains m key nn h ch L =
          below m key (ch L) ++ nn :: notBelow m key (ch L) := by
        unfold insertedChains; rw [if_pos c]
      rw [e]
      refine ⟨?_, ?_, ?_⟩
      · rw [insert_node_nxt m hd nn h update hh L, if_pos c, hr L c]
        apply seg_link_in
        · rw [below_append_notBelow]; exact hseg
        · rw [below_append_notBelow]; exact level_nodup (hinv.levels L hL)
        · rw [below_append_notBelow]
          intro hmem
          rcases List.mem_cons.1 hmem with h1 | h1
          · exact hnn h1
          · exact hfreshL L hL h1
      · intro hmem
        rcases List.mem_append.1 hmem with h1 | h1
        · exact hhd ((below_sublist m key (ch L)).subset h1)
        · rcases List.mem_cons.1 h1 with h2 | h2
          · exact hnn h2.symm
          · exact hhd ((notBelow_sublist m key (ch L)).subset h2)
      · rw [keySorted_congr m _ _ (fun n _ => by rw [hkeys])]
        exact keySorted_inserted m key nn (ch L) hsorted
          (fun n hn => habs n (hinv.mem_zero L hL n hn)) hkey
    · have e : insertedChains m key nn h ch L = ch L := by
        unfold insertedChains; rw [if_neg c]
      rw [e]
      refine ⟨?_, hhd, ?_⟩
      · rw [insert_node_nxt m hd nn h update hh L, if_neg c]; exact hseg
      · rw [keySorted_congr m _ _ (fun n _ => by rw [hkeys])]; exact hsorted
  · intro L hL n hn
    by_cases c : L + 1 ≤ h
    · have e : insertedChains m key nn h ch (L + 1) =
          below m key (ch (L + 1)) ++ nn :: notBelow m key (ch (L + 1)) := by
        unfold insertedChains; rw [if_pos c]
      rw [e] at hn
      have hmem : n = nn ∨ n ∈ ch (L + 1) := by
        rcases List.mem_append.1 hn with h1 | h1
        · exact Or.inr ((below_sublist m key _).subset h1)
        · rcases List.mem_cons.1 h1 with h2 | h2
          · exact Or.inl h2
          · exact Or.inr ((notBelow_sublist m key _).subset h2)
      rcases hmem with rfl | h1
      · unfold insertedChains
        rw [if_pos (by omega)]
        simp
      · exact mem_insertedChains m key nn h ch L n (hinv.nested L hL n h1)
    · have e : insertedChains m key nn h ch (L + 1) = ch (L + 1) := by
        unfold insertedChains; rw [if_neg c]
      rw [e] at hn
      exact mem_insertedChains m key nn h ch L n (hinv.nested L hL n hn)
  · intro L hL hL10
    rw [insert_node_height] at hL
    have e : insertedChains m key nn h ch L = ch L := by
      unfold insertedChains; rw [if_neg (by omega)]
    rw [e]
    exact hinv.above L (by omega) hL10
  · have e : insertedChains m key nn h ch 0 =
        below m key (ch 0) ++ nn :: notBelow m key (ch 0) := by
      unfold insertedChains; rw [if_pos (Nat.zero_le _)]
    rw [e, insert_node_prv, hr 0 (Nat.zero_le _)]
    have hseg0 := (hinv.levels 0 (Nat.zero_le _)).1
    have hs : m.m_next (lastBelow m hd key (ch 0)) 0 = headOr hd (notBelow m key (ch 0)) := by
      rw [next_lastBelow m hd key 0 (ch 0) hseg0, headOr_notBelow]
    rw [hs]
    have hback := hinv.back
    rw [← below_append_notBelow m key (ch 0), List.reverse_append] at hback
    have hnd : (hd :: ch 0).Nodup := level_nodup (hinv.levels 0 (Nat.zero_le _))
    have hnd' : (hd :: ((notBelow m key (ch 0)).reverse ++ (below m key (ch 0)).reverse)).Nodup := by
      rw [← List.reverse_append, below_append_notBelow]
      rw [List.nodup_cons] at hnd ⊢
      exact ⟨by simpa using hnd.1, List.nodup_reverse.2 hnd.2⟩
    have hnn' : nn ∉ hd :: ((notBelow m key (ch 0)).reverse ++ (below m key (ch 0)).reverse) := by
      rw [← List.reverse_append, below_append_notBelow]
      intro hmem
      rcases List.mem_cons.1 hmem with h1 | h1
      · exact hnn h1
      · exact hfresh (List.mem_reverse.1 h1)
    have hl := seg_link_in (prv m) hd hd nn _ _ hback hnd' hnn'
    have hu : prv m (headOr hd (notBelow m key (ch 0))) = lastBelow m hd key (ch 0) := by
      have := seg_split_last (prv m) _ _ hd hd hback
      rw [lastOr_reverse, headOr_reverse] at this
      exact this
    have hsn : headOr hd (notBelow m key (ch 0)) ≠ nn := by
      intro heq
      rcases headOr_mem hd (notBelow m key (ch 0)) with h1 | h1
      · exact hnn (heq ▸ h1)
      · exact hfresh (heq ▸ (notBelow_sublist m key (ch 0)).subset h1)
    have hfun : setf (setf (prv m) (headOr hd (notBelow m key (ch 0))) nn) nn
        (lastBelow m hd key (ch 0)) =
        linkIn (prv m) nn (lastOr hd (notBelow m key (ch 0)).reverse) := by
      rw [lastOr_reverse]
      unfold linkIn
      rw [hu]
      funext q
      by_cases h1 : q = nn
      · subst h1; simp [setf, Ne.symm hsn]
      · simp [setf, h1]
    rw [hfun]
    simpa using hl

theorem firstNotLess_mem (m : Mem) (hd : Ptr) (key : Nat) (ns : List Ptr) :
    firstNotLess m hd key ns = hd ∨ firstNotLess m hd key ns ∈ ns := by
  rw [← headOr_notBelow]
  rcases headOr_mem hd (notBelow m key ns) with h | h
  · exact Or.inl h
  · exact Or.inr ((notBelow_sublist m key ns).subset h)

theorem equals_false_of_ne (a b : Nat) (h : a ≠ b) : equals a b = false := by
  cases hq : equals a b with
  | false => rfl
  | true => exact absurd ((equals_iff a b).1 hq) h

theorem insertedChains_congr (m m' : Mem) (key nn h : Nat) (ch : Nat → List Ptr)
    (hk : ∀ L, L ≤ h → ∀ n ∈ ch L, m'.key n = m.key n) :
    insertedChains m' key nn h ch = insertedChains m key nn h ch := by
  funext L
  unfold insertedChains
  by_cases c : L ≤ h
  · rw [if_pos c, if_pos c, below_congr m m' key _ (hk L c), notBelow_congr m m' key _ (hk L c)]
  · rw [if_neg c, if_neg c]

/-- Inserting a key that is not in the structure: the search, then `insert_node`. -/
theorem do_insert_new (m : Mem) (hd : Ptr) (ch : Nat → List Ptr) (key : Nat) (val : String)
    (nn h : Nat) (hinv : Inv m hd ch) (hnn : nn ≠ hd) (hfresh : nn ∉ ch 0)
    (hh : h ≤ MAX_ADDITIONAL_LEVELS) (habs : ∀ n ∈ ch 0, m.key n ≠ key) :
    ∃ m', (∀ fuel, (∀ L, L ≤ m.m_height hd → (ch L).length < fuel) →
        do_insert m hd key val nn h fuel = some ((nn, true), m')) ∧
      Inv m' hd (insertedChains m key nn h ch) ∧ m'.key = setf m.key nn key ∧
      m'.m_length = m.m_length := by
  have hcond : firstNotLess m hd key (ch 0) = hd ∨
      equals (m.key (firstNotLess m hd key (ch 0))) key = false := by
    rcases firstNotLess_mem m hd key (ch 0) with h1 | h1
    · exact Or.inl h1
    · exact Or.inr (equals_false_of_ne _ _ (habs _ h1))
  refine ⟨insert_node (create_node m nn key val) hd nn h (updateOf m hd key ch), ?_, ?_, ?_, ?_⟩
  · intro fuel hfuel
    simp only [do_insert, find_node_returns m hd key ch hinv.wellFormed fuel hfuel, if_pos hcond]
  · have hk : ∀ L, L ≤ MAX_ADDITIONAL_LEVELS → ∀ n ∈ ch L,
        (create_node m nn key val).key n = m.key n := by
      intro L hL n hn
      have : n ≠ nn := fun h => hfresh (h ▸ hinv.mem_zero L hL n hn)
      simp [create_node, setf, this]
    rw [← insertedChains_congr m (create_node m nn key val) key nn h ch
      (fun L hL => hk L (le_trans hL hh))]
    apply insert_node_inv _ hd ch key nn h _ (create_node_inv m hd ch nn key val hinv hfresh)
      (by simp [create_node]) hnn hfresh hh
    · intro n hn; rw [hk 0 (Nat.zero_le _) n hn]; exact habs n hn
    · intro L hL
      have hL' : L ≤ m.m_height hd := hL
      rw [updateOf_spec m hd key ch L hL',
        lastBelow_congr m _ hd key _ (hk L (le_trans hL' hinv.height_le))]
  · rw [insert_node_key]; rfl
  · rw [insert_node_length]; rfl

/-- Inserting a key that is in the structure changes nothing. -/
theorem do_insert_old (m : Mem) (hd : Ptr) (ch : Nat → List Ptr) (key : Nat) (val : String)
    (nn h : Nat) (hwf : WellFormed m hd ch) (n : Ptr) (hn : n ∈ ch 0)
    (hk : equals (m.key n) key = true) (fuel : Nat)
    (hfuel : ∀ L, L ≤ m.m_height hd → (ch L).length < fuel) :
    do_insert m hd key val nn h fuel = some ((n, false), m) := by
  obtain ⟨u, hu, _⟩ := find_node_spec m hd key ch hwf fuel hfuel
  have hlev := hwf.levels 0 (Nat.zero_le _)
  have hkey : m.key n = key := (equals_iff _ _).1 hk
  have hpos : firstNotLess m hd key (ch 0) = n := by
    rw [← hkey]; exact firstNotLess_of_mem m hd (ch 0) hlev.2.2 n hn
  have hne : n ≠ hd := fun h => hlev.2.1 (h ▸ hn)
  have hcond : ¬ (n = hd ∨ equals (m.key n) key = false) := by
    rintro (h1 | h1)
    · exact hne h1
    · rw [hk] at h1; exact absurd h1 (by decide)
  simp only [do_insert, hu, hpos, if_neg hcond]

/-- The level-0 chain after inserting a key that is not in a well-formed structure. -/
theorem do_insert_level0 (m : Mem) (hd : Ptr) (ch : Nat → List Ptr) (key : Nat)
    (val : String) (nn h : Nat) (hwf : WellFormed m hd ch) (hnn : nn ≠ hd)
    (hfresh : nn ∉ ch 0) (hh : h ≤ MAX_ADDITIONAL_LEVELS)
    (habs : ∀ n ∈ ch 0, m.key n ≠ key) :
    ∃ m', (∀ fuel, (∀ L, L ≤ m.m_height hd → (ch L).length < fuel) →
        do_insert m hd key val nn h fuel = some ((nn, true), m')) ∧
      Level m' hd 0 (below m key (ch 0) ++ nn :: notBelow m key (ch 0)) ∧
      m'.key = setf m.key nn key := by
  have hcond : firstNotLess m hd key (ch 0) = hd ∨
      equals (m.key (firstNotLess m hd key (ch 0))) key = false := by
    rcases firstNotLess_mem m hd key (ch 0) with h1 | h1
    · exact Or.inl h1
    · exact Or.inr (equals_false_of_ne _ _ (habs _ h1))
  obtain ⟨hseg, hhd, hsorted⟩ := hwf.levels 0 (Nat.zero_le _)
  have hkeys : (insert_node (create_node m nn key val) hd nn h (updateOf m hd key ch)).key =
      setf m.key nn key := by
    rw [insert_node_key]; rfl
  refine ⟨insert_node (create_node m nn key val) hd nn h (updateOf m hd key ch), ?_,
    ⟨?_, ?_, ?_⟩, hkeys⟩
  · intro fuel hfuel
    simp only [do_insert, find_node_returns m hd key ch hwf fuel hfuel, if_pos hcond]
  · rw [insert_node_nxt _ hd nn h _ hh 0, if_pos (Nat.zero_le _)]
    have e : raised (create_node m nn key val) hd h (updateOf m hd key ch) 0 =
        lastBelow m hd key (ch 0) := by
      unfold raised
      rw [if_neg (by omega)]
      exact updateOf_spec m hd key ch 0 (Nat.zero_le _)
    rw [e]
    have e2 : nxt (create_node m nn key val) 0 = nxt m 0 := rfl
    rw [e2]
    apply seg_link_in
    · rw [below_append_notBelow]; exact hseg
    · rw [below_append_notBelow]; exact level_nodup (hwf.levels 0 (Nat.zero_le _))
    · rw [below_append_notBelow]
      intro hmem
      rcases List.mem_cons.1 hmem with h1 | h1
      · exact hnn h1
      · exact hfresh h1
  · intro hmem
    rcases List.mem_append.1 hmem with h1 | h1
    · exact hhd ((below_sublist m key (ch 0)).subset h1)
    · rcases List.mem_cons.1 h1 with h2 | h2
      · exact hnn h2.symm
      · exact hhd ((notBelow_sublist m key (ch 0)).subset h2)
  · have hk : ∀ n ∈ ch 0, (create_node m nn key val).key n = m.key n := by
      intro n hn
      have : n ≠ nn := fun h => hfresh (h ▸ hn)
      simp [create_node, setf, this]
    have hs1 : KeySorted (create_node m nn key val) (ch 0) :=
      (keySorted_congr m _ (ch 0) hk).2 hsorted
    have := keySorted_inserted (create_node m nn key val) key nn (ch 0) hs1
      (fun n hn => by rw [hk n hn]; exact habs n hn) (by simp [create_node])
    rw [below_congr m _ key _ hk, notBelow_congr m _ key _ hk] at this
    rw [keySorted_congr (create_node m nn key val) _ _ (fun n _ => by
      rw [insert_node_key])]
    exact this

theorem map_key_inserted (m : Mem) (key nn : Nat) (ns : List Ptr) (hnn : nn ∉ ns) :
    (below m key ns ++ nn :: notBelow m key ns).map (setf m.key nn key) =
      List.orderedInsert (· ≤ ·) key (ns.map m.key) := by
  have hk : ∀ l : List Ptr, l.Sublist ns → l.map (setf m.key nn key) = l.map m.key := by
    intro l hl
    apply List.map_congr_left
    intro n hn
    have : n ≠ nn := fun h => hnn (h ▸ hl.subset hn)
    simp [setf, this]
  rw [List.map_append, List.map_cons, hk _ (below_sublist m key ns),
    hk _ (notBelow_sublist m key ns), setf_same, List.orderedInsert_eq_take_drop,
    List.takeWhile_map, List.dropWhile_map]
  have hf : ((fun b => decide ¬key ≤ b) ∘ m.key) = (fun n => less (m.key n) key) := by
    funext n
    simp [less]
  rw [hf]
  rfl

theorem below_below (m : Mem) (kb ke : Nat) (hk : kb ≤ ke) (ns : List Ptr) :
    below m ke ns = below m kb ns ++ below m ke (notBelow m kb ns) := by
  induction ns with
  | nil => rfl
  | cons x xs ih =>
    by_cases hx : less (m.key x) kb = true
    · have hx' : less (m.key x) ke = true := by
        rw [less_iff] at hx ⊢; omega
      simp only [below, notBelow] at ih ⊢
      simp only [List.takeWhile_cons, List.dropWhile_cons, hx, hx', if_true, List.cons_append]
      rw [ih]
    · simp only [below, notBelow]
      simp [List.takeWhile_cons, List.dropWhile_cons, hx]

theorem notBelow_all (m : Mem) (key : Nat) (ns : List Ptr) (h : ∀ n ∈ ns, key ≤ m.key n) :
    notBelow m key ns = ns := by
  cases ns with
  | nil => rfl
  | cons x xs =>
    have hx : ¬ (less (m.key x) key = true) := by
      rw [less_iff]; have := h x (by simp); omega
    simp [notBelow, List.dropWhile_cons, hx]

theorem below_none (m : Mem) (key : Nat) (ns : List Ptr) (h : ∀ n ∈ ns, key ≤ m.key n) :
    below m key ns = [] := by
  cases ns with
  | nil => rfl
  | cons x xs =>
    have hx : ¬ (less (m.key x) key = true) := by
      rw [less_iff]; have := h x (by simp); omega
    simp [below, List.takeWhile_cons, hx]

theorem without_all (m : Mem) (kb ke : Nat) (ns : List Ptr)
    (h : ∀ n ∈ ns, ¬ (kb ≤ m.key n ∧ m.key n < ke)) : without m kb ke ns = ns := by
  unfold without
  rw [List.filter_eq_self]
  intro n hn
  have := h n hn
  simp only [Bool.not_eq_true', Bool.and_eq_false_imp, decide_eq_true_eq, decide_eq_false_iff_not]
  intro h1 h2
  exact this ⟨h1, h2⟩

/-- On a sorted chain, dropping the keys of `[kb, ke)` leaves the nodes below `kb` followed
by the nodes not below `ke`. -/
theorem without_eq (m : Mem) (kb ke : Nat) (hk : kb ≤ ke) (ns : List Ptr)
    (hs : KeySorted m ns) : without m kb ke ns = below m kb ns ++ notBelow m ke ns := by
  induction ns with
  | nil => rfl
  | cons x xs ih =>
    unfold KeySorted at hs
    rw [List.pairwise_cons] at hs
    have ih' := ih hs.2
    by_cases hx : m.key x < kb
    · have h1 : less (m.key x) kb = true := (less_iff _ _).2 hx
      have h2 : less (m.key x) ke = true := (less_iff _ _).2 (by omega)
      have e1 : below m kb (x :: xs) = x :: below m kb xs := by
        simp [below, List.takeWhile_cons, h1]
      have e2 : notBelow m ke (x :: xs) = notBelow m ke xs := by
        simp [notBelow, List.dropWhile_cons, h2]
      have e3 : without m kb ke (x :: xs) = x :: without m kb ke xs := by
        unfold without
        rw [List.filter_cons]
        have : (!(decide (kb ≤ m.key x) && decide (m.key x < ke))) = true := by
          simp; omega
        rw [if_pos this]
      rw [e1, e2, e3, ih']; rfl
    · have hall : ∀ n ∈ xs, kb ≤ m.key n := fun n hn => by
        have := hs.1 n hn; omega
      have e1 : below m kb (x :: xs) = [] := below_none m kb _ (by
        intro n hn
        rcases List.mem_cons.1 hn with rfl | h
        · omega
        · exact hall n h)
      rw [e1, List.nil_append]
      by_cases hx2 : m.key x < ke
      · have h2 : less (m.key x) ke = true := (less_iff _ _).2 hx2
        have e2 : notBelow m ke (x :: xs) = notBelow m ke xs := by
          simp [notBelow, List.dropWhile_cons, h2]
        have e3 : without m kb ke (x :: xs) = without m kb ke xs := by
          unfold without
          rw [List.filter_cons]
          have : ¬ ((!(decide (kb ≤ m.key x) && decide (m.key x < ke))) = true) := by
            simp; omega
          rw [if_neg this]
        rw [e2, e3, ih', below_none m kb xs hall, List.nil_append]
      · have hall2 : ∀ n ∈ x :: xs, ke ≤ m.key n := by
          intro n hn
          rcases List.mem_cons.1 hn with rfl | h
          · omega
          · have := hs.1 n h; omega
        rw [notBelow_all m ke _ hall2]
        exact without_all m kb ke _ (fun n hn => by have := hall2 n hn; omega)

theorem without_sublist (m : Mem) (kb ke : Nat) (ns : List Ptr) :
    (without m kb ke ns).Sublist ns := List.filter_sublist _

theorem mem_without (m : Mem) (kb ke : Nat) (ns : List Ptr) (n : Ptr) :
    n ∈ without m kb ke ns ↔ n ∈ ns ∧ ¬ (kb ≤ m.key n ∧ m.key n < ke) := by
  unfold without
  rw [List.mem_filter]
  simp only [Bool.not_eq_true', Bool.and_eq_false_imp, decide_eq_true_eq,
    decide_eq_false_iff_not, not_and]

/-- The three parts of a chain around the keys of `[kb, ke)`. -/
theorem chain_parts (m : Mem) (kb ke : Nat) (hk : kb ≤ ke) (ns : List Ptr) :
    below m kb ns ++ below m ke (notBelow m kb ns) ++ notBelow m ke ns = ns := by
  rw [← below_below m kb ke hk ns, below_append_notBelow]

/-- Redirecting the link of the last node below `kb` to the first node not below `ke` cuts
the keys of `[kb, ke)` out of a level. -/
theorem level_cut (m m' : Mem) (hd : Ptr) (L : Nat) (ns : List Ptr) (kb ke : Nat)
    (hk : kb ≤ ke) (hlev : Level m hd L ns) (hkey : m'.key = m.key)
    (hnxt : nxt m' L = setf (nxt m L) (lastBelow m hd kb ns)
      (nxt m L (lastBelow m hd ke ns))) :
    Level m' hd L (without m kb ke ns) := by
  obtain ⟨hseg, hhd, hsorted⟩ := hlev
  refine ⟨?_, fun h => hhd ((without_sublist m kb ke ns).subset h), ?_⟩
  · rw [hnxt, without_eq m kb ke hk ns hsorted]
    have h1 := hseg
    rw [← chain_parts m kb ke hk ns] at h1
    have hnd : (hd :: (below m kb ns ++ below m ke (notBelow m kb ns) ++
        notBelow m ke ns)).Nodup := by
      rw [chain_parts m kb ke hk ns]
      exact List.nodup_cons.2 ⟨hhd, keySorted_nodup m ns hsorted⟩
    have := seg_cut (nxt m L) hd hd _ _ _ h1 hnd
    rw [← below_below m kb ke hk ns] at this
    exact this
  · rw [keySorted_congr m m' _ (fun n _ => by rw [hkey])]
    exact keySorted_sublist m _ ns (without_sublist m kb ke ns) hsorted

/-- The backward links after the same cut. -/
theorem back_cut (m : Mem) (hd : Ptr) (ns : List Ptr) (kb ke : Nat) (hk : kb ≤ ke)
    (hlev : Level m hd 0 ns) (hback : Seg (prv m) hd ns.reverse hd) :
    Seg (setf (prv m) (firstNotLess m hd ke ns) (lastBelow m hd kb ns)) hd
      (without m kb ke ns).reverse hd := by
  obtain ⟨_, hhd, hsorted⟩ := hlev
  rw [without_eq m kb ke hk ns hsorted, List.reverse_append]
  have h1 := hback
  rw [← chain_parts m kb ke hk ns, List.reverse_append, List.reverse_append,
    ← List.append_assoc] at h1
  have hnd : (hd :: ((notBelow m ke ns).reverse ++ (below m ke (notBelow m kb ns)).reverse ++
      (below m kb ns).reverse)).Nodup := by
    have e : (notBelow m ke ns).reverse ++ (below m ke (notBelow m kb ns)).reverse ++
        (below m kb ns).reverse = ns.reverse := by
      rw [← List.reverse_append, ← List.reverse_append, ← List.append_assoc,
        chain_parts m kb ke hk ns]
    rw [e]
    exact List.nodup_cons.2 ⟨by simpa using hhd,
      List.nodup_reverse.2 (keySorted_nodup m ns hsorted)⟩
  have h2 := seg_cut (prv m) hd hd _ _ _ h1 hnd
  have e1 : lastOr hd (notBelow m ke ns).reverse = firstNotLess m hd ke ns := by
    rw [lastOr_reverse, headOr_notBelow]
  have e2 : prv m (lastOr hd ((notBelow m ke ns).reverse ++
      (below m ke (notBelow m kb ns)).reverse)) = lastBelow m hd kb ns := by
    have := seg_split_last (prv m) _ _ hd hd h1
    rw [headOr_reverse] at this
    exact this
  rw [e1, e2] at h2
  exact h2

/-! ## A node inside a sorted chain -/

theorem below_at_member (m : Mem) (pre post : List Ptr) (nod : Ptr)
    (hs : KeySorted m (pre ++ nod :: post)) :
    below m (m.key nod) (pre ++ nod :: post) = pre ∧
      below m (m.key nod + 1) (pre ++ nod :: post) = pre ++ [nod] := by
  have h1 := List.pairwise_append.1 hs
  have hpre : ∀ x ∈ pre, m.key x < m.key nod := fun x hx => h1.2.2 x hx nod (by simp)
  have hpost : ∀ x ∈ post, m.key nod < m.key x := by
    have := List.pairwise_cons.1 h1.2.1
    exact this.1
  constructor
  · rw [below_append_of_all m _ pre _ hpre, below_none m _ (nod :: post), List.append_nil]
    intro n hn
    rcases List.mem_cons.1 hn with rfl | h
    · exact le_refl _
    · exact le_of_lt (hpost n h)
  · have e : pre ++ nod :: post = (pre ++ [nod]) ++ post := by simp
    rw [e, below_append_of_all m _ (pre ++ [nod]) post, below_none m _ post, List.append_nil]
    · intro n hn; have := hpost n hn; omega
    · intro x hx
      rcases List.mem_append.1 hx with h | h
      · have := hpre x h; omega
      · simp at h; rw [h]; omega

theorem lastBelow_succ_of_mem (m : Mem) (hd : Ptr) (ns : List Ptr) (hs : KeySorted m ns)
    (nod : Ptr) (hn : nod ∈ ns) : lastBelow m hd (m.key nod + 1) ns = nod := by
  obtain ⟨pre, post, rfl⟩ := List.append_of_mem hn
  unfold lastBelow
  rw [(below_at_member m pre post nod hs).2, lastOr_append]
  rfl

/-- The backward link of a node of level 0 leads to the last node with a smaller key. -/
theorem prv_of_mem (m : Mem) (hd : Ptr) (ns : List Ptr) (hs : KeySorted m ns)
    (hback : Seg (prv m) hd ns.reverse hd) (nod : Ptr) (hn : nod ∈ ns) :
    prv m nod = lastBelow m hd (m.key nod) ns := by
  obtain ⟨pre, post, rfl⟩ := List.append_of_mem hn
  unfold lastBelow
  rw [(below_at_member m pre post nod hs).1]
  have e : (pre ++ nod :: post).reverse = post.reverse ++ nod :: pre.reverse := by simp
  rw [e, seg_append] at hback
  have := seg_front (prv m) [] pre.reverse nod hd (by simpa using hback.2)
  simp only [Seg] at this
  rw [this, headOr_reverse]

theorem key_inj_of_sorted (m : Mem) (ns : List Ptr) (hs : KeySorted m ns) (a b : Ptr)
    (ha : a ∈ ns) (hb : b ∈ ns) (h : m.key a = m.key b) : a = b := by
  have h1 := firstNotLess_of_mem m 0 ns hs a ha
  have h2 := firstNotLess_of_mem m 0 ns hs b hb
  rw [h] at h1
  exact h1.symm.trans h2

/-! ## The effect of the removal loops -/

theorem remove_links_only (hd nod : Ptr) (update : Nat → Ptr) (n : Nat) :
    ∀ (lvl : Nat) (m : Mem), LinksOnly (remove_links hd nod update n lvl m) m := by
  induction n with
  | zero => intro lvl m; exact linksOnly_refl m
  | succ n ih =>
    intro lvl m
    rw [remove_links]
    split
    · exact linksOnly_trans (ih _ _) (linksOnly_refl m)
    · exact linksOnly_refl m

/-- Each level is left alone or has the link of `update[L]` redirected past `nod`. -/
theorem remove_links_nxt (hd nod : Ptr) (update : Nat → Ptr) (n : Nat) :
    ∀ (lvl : Nat) (m : Mem), m.m_height hd ≤ MAX_ADDITIONAL_LEVELS → ∀ L,
      nxt (remove_links hd nod update n lvl m) L = nxt m L ∨
      (lvl ≤ L ∧ L ≤ m.m_height hd ∧ m.m_next (update L) L = nod ∧
        nxt (remove_links hd nod update n lvl m) L =
          setf (nxt m L) (update L) (m.m_next nod L)) := by
  induction n with
  | zero => intro lvl m _ L; left; rfl
  | succ n ih =>
    intro lvl m hh L
    rw [remove_links]
    by_cases c : lvl ≤ m.m_height hd ∧ get_next m (update lvl) lvl = nod
    · rw [if_pos c]
      have hl : lvl ≤ MAX_ADDITIONAL_LEVELS := le_trans c.1 hh
      have c2 := c.2
      rw [get_next_eq m _ hl] at c2
      rcases ih (lvl + 1) (set_next m (update lvl) lvl (get_next m nod lvl)) hh L with h1 | h1
      · by_cases hL : L = lvl
        · subst hL
          right
          refine ⟨le_refl _, c.1, c2, ?_⟩
          rw [h1, nxt_set_next_same, get_next_eq m _ hl]
        · left
          rw [h1, nxt_set_next_other _ _ _ _ _ hL]
      · obtain ⟨a1, a2, a3, a4⟩ := h1
        have hL : L ≠ lvl := by omega
        right
        have e : ∀ x, (set_next m (update lvl) lvl (get_next m nod lvl)).m_next x L =
            m.m_next x L := by
          intro x; simp [set_next, setf2, hL]
        rw [e] at a3
        rw [e, nxt_set_next_other _ _ _ _ _ hL] at a4
        exact ⟨by omega, a2, a3, a4⟩
    · rw [if_neg c]; left; rfl

/-- A level is handled when the loop condition holds at it and at all levels before it. -/
theorem remove_links_done (hd nod : Ptr) (update : Nat → Ptr) (n : Nat) :
    ∀ (lvl : Nat) (m : Mem), m.m_height hd ≤ MAX_ADDITIONAL_LEVELS → ∀ L, lvl ≤ L →
      L < lvl + n → L ≤ m.m_height hd →
      (∀ K, lvl ≤ K → K ≤ L → m.m_next (update K) K = nod) →
      nxt (remove_links hd nod update n lvl m) L =
        setf (nxt m L) (update L) (m.m_next nod L) := by
  induction n with
  | zero => intro lvl m _ L h1 h2; omega
  | succ n ih =>
    intro lvl m hh L h1 h2 h3 hall
    have hl : lvl ≤ MAX_ADDITIONAL_LEVELS := by
      have : lvl ≤ m.m_height hd := le_trans h1 h3
      exact le_trans this hh
    have c : lvl ≤ m.m_height hd ∧ get_next m (update lvl) lvl = nod :=
      ⟨le_trans h1 h3, by rw [get_next_eq m _ hl]; exact hall lvl (le_refl _) h1⟩
    rw [remove_links, if_pos c]
    by_cases hL : L = lvl
    · subst hL
      rcases remove_links_nxt hd nod update n (L + 1)
        (set_next m (update L) L (get_next m nod L)) hh L with h | h
      · rw [h, nxt_set_next_same, get_next_eq m _ hl]
      · omega
    · have e : ∀ x, (set_next m (update lvl) lvl (get_next m nod lvl)).m_next x L =
          m.m_next x L := by
        intro x; simp [set_next, setf2, hL]
      rw [ih (lvl + 1) (set_next m (update lvl) lvl (get_next m nod lvl)) hh L (by omega)
        (by omega) h3 (fun K hK1 hK2 => by
        have hK : K ≠ lvl := by omega
        have : (set_next m (update lvl) lvl (get_next m nod lvl)).m_next (update K) K =
            m.m_next (update K) K := by simp [set_next, setf2, hK]
        rw [this]; exact hall K (by omega) hK2)]
      rw [e, nxt_set_next_other _ _ _ _ _ hL]

theorem setf_self {α : Type} (f : Nat → α) (i : Nat) : setf f i (f i) = f := by
  funext j
  by_cases h : j = i
  · subst h; simp
  · simp [setf, h]

theorem setf_setf {α : Type} (f : Nat → α) (i : Nat) (a b : α) :
    setf (setf f i a) i b = setf f i b := by
  funext j
  by_cases h : j = i <;> simp [setf, h]

/-- The height after shrinking, and the levels that were dropped. -/
theorem shrink_height_spec (hd : Ptr) (n : Nat) :
    ∀ (m : Mem), m.m_height hd ≤ MAX_ADDITIONAL_LEVELS →
      ∃ h', h' ≤ m.m_height hd ∧
        shrink_height hd n m = { m with m_height := setf m.m_height hd h' } ∧
        ∀ L, h' < L → L ≤ m.m_height hd → m.m_next hd L = hd := by
  induction n with
  | zero =>
    intro m _
    refine ⟨m.m_height hd, le_refl _, ?_, fun L h1 h2 => by omega⟩
    rw [shrink_height, setf_self]
  | succ n ih =>
    intro m hh
    rw [shrink_height]
    by_cases c : m.m_height hd > 0 ∧ get_next m hd (m.m_height hd) = hd
    · rw [if_pos c]
      have c2 := c.2
      rw [get_next_eq m _ hh] at c2
      obtain ⟨h', a1, a2, a3⟩ := ih { m with m_height := setf m.m_height hd (m.m_height hd - 1) }
        (by simp only [setf_same]; omega)
      simp only [setf_same] at a1 a3
      refine ⟨h', by omega, ?_, ?_⟩
      · rw [a2]; simp only [setf_setf]
      · intro L h1 h2
        by_cases hL : L = m.m_height hd
        · rw [hL]; exact c2
        · exact a3 L h1 (by omega)
    · rw [if_neg c]
      refine ⟨m.m_height hd, le_refl _, ?_, fun L h1 h2 => by omega⟩
      rw [setf_self]

theorem range_links_only (u1 u2 : Nat → Ptr) (n : Nat) :
    ∀ (lvl : Nat) (m : Mem), LinksOnly (range_links u1 u2 n lvl m) m := by
  induction n with
  | zero => intro lvl m; exact linksOnly_refl m
  | succ n ih =>
    intro lvl m
    rw [range_links]
    exact linksOnly_trans (ih _ _) (linksOnly_refl m)

theorem range_links_nxt (u1 u2 : Nat → Ptr) (n : Nat) :
    ∀ (lvl : Nat) (m : Mem), lvl + n ≤ MAX_ADDITIONAL_LEVELS + 1 → ∀ L,
      nxt (range_links u1 u2 n lvl m) L =
        if lvl ≤ L ∧ L < lvl + n then setf (nxt m L) (u1 L) (m.m_next (u2 L) L)
        else nxt m L := by
  induction n with
  | zero =>
    intro lvl m _ L
    rw [range_links, if_neg]
    omega
  | succ n ih =>
    intro lvl m hb L
    have hb' : lvl + (n + 1) ≤ 11 := hb
    have hl : lvl ≤ MAX_ADDITIONAL_LEVELS := show lvl ≤ 10 by omega
    rw [range_links, ih (lvl + 1) _ (show lvl + 1 + n ≤ 11 by omega)]
    by_cases h1 : L = lvl
    · subst h1
      have c1 : ¬ (L + 1 ≤ L ∧ L < L + 1 + n) := by omega
      have c2 : L ≤ L ∧ L < L + (n + 1) := by omega
      rw [if_neg c1, if_pos c2, nxt_set_next_same, get_next_eq m _ hl]
    · have e : nxt (set_next m (u1 lvl) lvl (get_next m (u2 lvl) lvl)) L = nxt m L :=
        nxt_set_next_other _ _ _ _ _ h1
      have e2 : (set_next m (u1 lvl) lvl (get_next m (u2 lvl) lvl)).m_next (u2 L) L =
          m.m_next (u2 L) L := by simp [set_next, setf2, h1]
      rw [e, e2]
      have : (lvl + 1 ≤ L ∧ L < lvl + 1 + n) ↔ (lvl ≤ L ∧ L < lvl + (n + 1)) := by
        constructor <;> rintro ⟨a, b⟩ <;> constructor <;> omega
      simp only [this]

theorem releasedMem_nil (m : Mem) (hd : Ptr) : releasedMem m hd [] = m := by
  unfold releasedMem
  simp only [List.reverse_nil, List.nil_append, List.length_nil, dec_times, setf_self]

theorem releasedMem_cons (m : Mem) (hd x : Ptr) (M : List Ptr) :
    releasedMem { (delete_node m x) with
        m_length := setf (delete_node m x).m_length hd (size_dec ((delete_node m x).m_length hd)) }
      hd M = releasedMem m hd (x :: M) := by
  unfold releasedMem
  simp only [delete_node, setf_same, setf_setf, List.length_cons, dec_times, List.reverse_cons,
    List.append_assoc, List.singleton_append]

/-- The release loop walks the removed nodes up to `last`, releasing each of them and
decrementing the length once per node. -/
theorem release_loop_spec (hd last : Ptr) (f : Ptr → Ptr) (M : List Ptr) :
    ∀ (a : Ptr) (m : Mem) (fuel : Nat), Seg f a M last → (∀ x ∈ M, m.m_next x 0 = f x) →
      last ∉ M → M.length < fuel →
      release_loop hd last fuel (f a) m = some (last, releasedMem m hd M) := by
  induction M with
  | nil =>
    intro a m fuel hs _ _ hf
    cases fuel with
    | zero => simp at hf
    | succ fuel =>
      simp only [Seg] at hs
      rw [release_loop, hs, if_neg (by simp), releasedMem_nil]
  | cons x M ih =>
    intro a m fuel hs hnext hlast hf
    cases fuel with
    | zero => simp at hf
    | succ fuel =>
      simp only [Seg] at hs
      have hx : x ≠ last := fun h => hlast (by simp [h])
      have hne : f a ≠ last := by rw [hs.1]; exact hx
      have hfx : m.m_next x 0 = f x := hnext x (by simp)
      have hf' : M.length < fuel := by simpa using hf
      have := ih x
        { (delete_node m x) with
          m_length := setf (delete_node m x).m_length hd (size_dec ((delete_node m x).m_length hd)) }
        fuel hs.2 (fun y hy => hnext y (List.mem_cons_of_mem _ hy))
        (fun h => hlast (List.mem_cons_of_mem _ h)) hf'
      rw [releasedMem_cons] at this
      rw [release_loop, if_pos hne, hs.1, hfx]
      exact this

/-! ## Removal keeps the invariant -/

theorem level_congr (m m' : Mem) (hd : Ptr) (L : Nat) (ns : List Ptr)
    (h1 : nxt m' L = nxt m L) (h2 : m'.key = m.key) :
    Level m' hd L ns ↔ Level m hd L ns := by
  unfold Level
  rw [h1, keySorted_congr m m' ns (fun n _ => by rw [h2])]

theorem inv_congr (m m' : Mem) (hd : Ptr) (ch : Nat → List Ptr) (h1 : m'.m_next = m.m_next)
    (h2 : m'.m_tail = m.m_tail) (h3 : m'.key = m.key) (h4 : m'.m_height hd = m.m_height hd)
    (hinv : Inv m hd ch) : Inv m' hd ch := by
  have hn : ∀ L, nxt m' L = nxt m L := fun L => by funext q; simp [nxt, h1]
  have hp : prv m' = prv m := by funext q; simp [prv, h2]
  refine ⟨by rw [h4]; exact hinv.height_le, ?_, hinv.nested, ?_, by rw [hp]; exact hinv.back⟩
  · intro L hL
    exact (level_congr m m' hd L _ (hn L) h3).2 (hinv.levels L hL)
  · intro L hL hL10
    rw [h4] at hL
    exact hinv.above L hL hL10

theorem Inv.mem_down {m : Mem} {hd : Ptr} {ch : Nat → List Ptr} (hinv : Inv m hd ch)
    (n : Ptr) : ∀ L, L ≤ MAX_ADDITIONAL_LEVELS → n ∈ ch L → ∀ K, K ≤ L → n ∈ ch K := by
  intro L
  induction L with
  | zero =>
    intro _ hn K hK
    have : K = 0 := by omega
    subst this; exact hn
  | succ L ih =>
    intro hL hn K hK
    by_cases h : K = L + 1
    · subst h; exact hn
    · exact ih (by omega) (hinv.nested L (by omega) n hn) K (by omega)

theorem seg_nil_of_loop (f : Ptr → Ptr) (hd : Ptr) (ns : List Ptr) (h : Seg f hd ns hd)
    (hhd : hd ∉ ns) (hf : f hd = hd) : ns = [] := by
  cases ns with
  | nil => rfl
  | cons x xs =>
    simp only [Seg] at h
    exact absurd (by rw [← h.1, hf]; simp) hhd

theorem seg_middle (f : Ptr → Ptr) (P M S : List Ptr) :
    ∀ a b, Seg f a (P ++ M ++ S) b → Seg f (lastOr a P) M (headOr b S) := by
  induction P with
  | nil => intro a b h; exact seg_front f M S a b (by simpa using h)
  | cons p P ih =>
    intro a b h
    simp only [List.cons_append, Seg] at h
    exact ih p b h.2

/-- The successor of a node of a sorted level is the first node with a greater key. -/
theorem next_of_mem (m : Mem) (hd : Ptr) (L : Nat) (ns : List Ptr) (hlev : Level m hd L ns)
    (nod : Ptr) (hn : nod ∈ ns) :
    m.m_next nod L = firstNotLess m hd (m.key nod + 1) ns := by
  rw [← next_lastBelow m hd (m.key nod + 1) L ns hlev.1,
    lastBelow_succ_of_mem m hd ns hlev.2.2 nod hn]

/-- The link that the search leaves in `update[L]` leads to the node that is looked for. -/
theorem next_update_of_mem (m : Mem) (hd : Ptr) (L : Nat) (ns : List Ptr)
    (hlev : Level m hd L ns) (nod : Ptr) (hn : nod ∈ ns) :
    m.m_next (lastBelow m hd (m.key nod) ns) L = nod := by
  rw [next_lastBelow m hd (m.key nod) L ns hlev.1]
  exact firstNotLess_of_mem m hd ns hlev.2.2 nod hn

/-- Unlinking a node of the structure keeps the invariant; its key leaves every level. -/
theorem remove_node_inv (m : Mem) (hd : Ptr) (ch : Nat → List Ptr) (nod : Ptr)
    (update : Nat → Ptr) (hinv : Inv m hd ch) (hn : nod ∈ ch 0)
    (hupd : ∀ L, L ≤ m.m_height hd → update L = lastBelow m hd (m.key nod) (ch L)) :
    Inv (remove_node m hd nod update) hd
        (fun L => without m (m.key nod) (m.key nod + 1) (ch L)) ∧
      (remove_node m hd nod update).key = m.key ∧
      (remove_node m hd nod update).val = m.val ∧
      (remove_node m hd nod update).m_length = m.m_length ∧
      (remove_node m hd nod update).released = m.released := by
  have hlev0 := hinv.levels 0 (Nat.zero_le _)
  have hnod_hd : nod ≠ hd := fun h => hlev0.2.1 (h ▸ hn)
  have hk : m.key nod ≤ m.key nod + 1 := Nat.le_succ _
  -- the two writes at level 0
  have e1 : (set_next m (get_prev m nod) 0 (m.m_next nod 0)).m_next nod 0 = m.m_next nod 0 := by
    simp only [set_next, setf2]
    split <;> rfl
  have hprev : prv m nod = lastBelow m hd (m.key nod) (ch 0) :=
    prv_of_mem m hd (ch 0) hlev0.2.2 hinv.back nod hn
  let m2 := set_prev (set_next m (get_prev m nod) 0 (m.m_next nod 0)) (m.m_next nod 0)
    (get_prev m nod)
  have hm2 : remove_node m hd nod update =
      shrink_height hd ((remove_links hd nod update (m2.m_height hd) 1 m2).m_height hd)
        (remove_links hd nod update (m2.m_height hd) 1 m2) := by
    simp only [remove_node, e1]
    rfl
  have hm2h : m2.m_height = m.m_height := rfl
  have hm2k : m2.key = m.key := rfl
  have hm2n0 : nxt m2 0 = setf (nxt m 0) (lastBelow m hd (m.key nod) (ch 0))
      (nxt m 0 (lastBelow m hd (m.key nod + 1) (ch 0))) := by
    show nxt (set_next m (get_prev m nod) 0 (m.m_next nod 0)) 0 = _
    rw [nxt_set_next_same, lastBelow_succ_of_mem m hd (ch 0) hlev0.2.2 nod hn]
    show setf (nxt m 0) (prv m nod) (m.m_next nod 0) = _
    rw [hprev]; rfl
  have hm2n : ∀ L, L ≠ 0 → nxt m2 L = nxt m L := by
    intro L hL
    show nxt (set_next m (get_prev m nod) 0 (m.m_next nod 0)) L = _
    exact nxt_set_next_other _ _ _ _ _ hL
  have hm2p : prv m2 = setf (prv m) (firstNotLess m hd (m.key nod + 1) (ch 0))
      (lastBelow m hd (m.key nod) (ch 0)) := by
    show prv (set_prev _ _ _) = _
    rw [prv_set_prev, prv_set_next, next_of_mem m hd 0 (ch 0) hlev0 nod hn]
    show setf (prv m) _ (prv m nod) = _
    rw [hprev]
  have hm2hh : m2.m_height hd ≤ MAX_ADDITIONAL_LEVELS := hinv.height_le
  let m3 := remove_links hd nod update (m2.m_height hd) 1 m2
  have hm3only : LinksOnly m3 m2 := remove_links_only hd nod update _ 1 m2
  have hm3k : m3.key = m.key := hm3only.2.1
  have hm3h : m3.m_height = m.m_height := hm3only.2.2.2.2.1
  -- every level of `m3`
  have hlev3 : ∀ L, L ≤ MAX_ADDITIONAL_LEVELS →
      Level m3 hd L (without m (m.key nod) (m.key nod + 1) (ch L)) := by
    intro L hL
    have hlev := hinv.levels L hL
    by_cases h0 : L = 0
    · subst h0
      apply level_cut m m3 hd 0 (ch 0) _ _ hk hlev hm3k
      rcases remove_links_nxt hd nod update (m2.m_height hd) 1 m2 hm2hh 0 with h | h
      · rw [h, hm2n0]
      · omega
    · by_cases hmem : nod ∈ ch L
      · have hLh : L ≤ m.m_height hd := by
          by_contra hc
          rw [hinv.above L (by omega) hL] at hmem
          simp at hmem
        have hall : ∀ K, 1 ≤ K → K ≤ L → m2.m_next (update K) K = nod := by
          intro K hK1 hK2
          have hK0 : K ≠ 0 := by omega
          have hKh : K ≤ m.m_height hd := le_trans hK2 hLh
          have hK10 : K ≤ MAX_ADDITIONAL_LEVELS := le_trans hK2 hL
          have : m2.m_next (update K) K = nxt m2 K (update K) := rfl
          rw [this, hm2n K hK0, hupd K hKh]
          exact next_update_of_mem m hd K (ch K) (hinv.levels K hK10) nod
            (hinv.mem_down nod L hL hmem K hK2)
        have hdone := remove_links_done hd nod update (m2.m_height hd) 1 m2 hm2hh L
          (by omega) (by rw [hm2h]; omega) (by rw [hm2h]; exact hLh) hall
        apply level_cut m m3 hd L (ch L) _ _ hk hlev hm3k
        show nxt (remove_links hd nod update (m2.m_height hd) 1 m2) L = _
        rw [hdone, hm2n L h0, hupd L hLh, lastBelow_succ_of_mem m hd (ch L) hlev.2.2 nod hmem]
        have : m2.m_next nod L = nxt m2 L nod := rfl
        rw [this, hm2n L h0]
      · have hw : without m (m.key nod) (m.key nod + 1) (ch L) = ch L := by
          apply without_all
          intro n hnL hrange
          have hkey : m.key n = m.key nod := by omega
          have := key_inj_of_sorted m (ch 0) hlev0.2.2 n nod (hinv.mem_zero L hL n hnL) hn hkey
          exact hmem (this ▸ hnL)
        rw [hw]
        rcases remove_links_nxt hd nod update (m2.m_height hd) 1 m2 hm2hh L with h | h
        · exact (level_congr m m3 hd L (ch L) (by
            show nxt (remove_links hd nod update (m2.m_height hd) 1 m2) L = _
            rw [h, hm2n L h0]) hm3k).2 hlev
        · exfalso
          obtain ⟨_, a2, a3, _⟩ := h
          have : m2.m_next (update L) L = nxt m2 L (update L) := rfl
          rw [this, hm2n L h0, hupd L a2] at a3
          have hx : nxt m L (lastBelow m hd (m.key nod) (ch L)) =
              firstNotLess m hd (m.key nod) (ch L) :=
            next_lastBelow m hd (m.key nod) L (ch L) hlev.1
          rw [hx] at a3
          rcases firstNotLess_mem m hd (m.key nod) (ch L) with h1 | h1
          · exact hnod_hd (a3 ▸ h1)
          · exact hmem (a3 ▸ h1)
  -- the height
  obtain ⟨h', hh1, hh2, hh3⟩ := shrink_height_spec hd (m3.m_height hd) m3
    (by rw [hm3h]; exact hinv.height_le)
  have hres : remove_node m hd nod update = { m3 with m_height := setf m3.m_height hd h' } := by
    rw [hm2]; exact hh2
  rw [hres]
  refine ⟨⟨?_, ?_, ?_, ?_, ?_⟩, hm3k, hm3only.2.2.1, hm3only.2.2.2.1, hm3only.2.2.2.2.2⟩
  · simp only [setf_same]
    rw [hm3h] at hh1
    exact le_trans hh1 hinv.height_le
  · intro L hL
    exact (level_congr m3 _ hd L _ rfl rfl).2 (hlev3 L hL)
  · intro L hL n hnL
    rw [mem_without] at hnL ⊢
    exact ⟨hinv.nested L hL n hnL.1, hnL.2⟩
  · intro L hL hL10
    simp only [setf_same] at hL
    by_cases hc : L ≤ m.m_height hd
    · have hloop := hh3 L hL (by rw [hm3h]; exact hc)
      exact seg_nil_of_loop (nxt m3 L) hd _ (hlev3 L hL10).1 (hlev3 L hL10).2.1 hloop
    · rw [hinv.above L (by omega) hL10]; rfl
  · have hp3 : prv m3 = prv m2 := prv_of_linksOnly hm3only
    show Seg (prv m3) hd _ hd
    rw [hp3, hm2p]
    exact back_cut m hd (ch 0) _ _ hk hlev0 hinv.back

/-- Cutting the span `[first, last)` out of the structure keeps the invariant; the keys of
the span leave every level. -/
theorem remove_range_inv (m : Mem) (hd : Ptr) (ch : Nat → List Ptr) (first last : Ptr)
    (u1 u2 : Nat → Ptr) (hinv : Inv m hd ch) (hf : first ∈ ch 0) (hl : last ∈ ch 0)
    (hk : m.key first ≤ m.key last)
    (hu1 : ∀ L, L ≤ m.m_height hd → u1 L = lastBelow m hd (m.key first) (ch L))
    (hu2 : ∀ L, L ≤ m.m_height hd → u2 L = lastBelow m hd (m.key last) (ch L)) :
    Inv (remove_range m hd first last u1 u2) hd
        (fun L => without m (m.key first) (m.key last) (ch L)) ∧
      LinksOnly (remove_range m hd first last u1 u2) (set_prev m last (get_prev m first)) ∧
      nxt (remove_range m hd first last u1 u2) 0 =
        setf (nxt m 0) (lastBelow m hd (m.key first) (ch 0)) last := by
  have hlev0 := hinv.levels 0 (Nat.zero_le _)
  have hprev : prv m first = lastBelow m hd (m.key first) (ch 0) :=
    prv_of_mem m hd (ch 0) hlev0.2.2 hinv.back first hf
  have hlast : nxt m 0 (lastBelow m hd (m.key last) (ch 0)) = last :=
    next_update_of_mem m hd 0 (ch 0) hlev0 last hl
  have hlast' : firstNotLess m hd (m.key last) (ch 0) = last :=
    firstNotLess_of_mem m hd (ch 0) hlev0.2.2 last hl
  have e1 : get_prev (set_prev m last (get_prev m first)) first = prv m first := by
    simp only [get_prev, set_prev, set_tail, setf2, prv]
    split
    · rename_i h; rw [h.1]
    · rfl
  let m2 := set_next (set_prev m last (get_prev m first)) (prv m first) 0 last
  have hm2 : remove_range m hd first last u1 u2 =
      range_links u1 u2 (m2.m_height hd) 1 m2 := by
    simp only [remove_range, e1]
  have hm2h : m2.m_height = m.m_height := rfl
  have hm2n0 : nxt m2 0 = setf (nxt m 0) (lastBelow m hd (m.key first) (ch 0)) last := by
    show nxt (set_next _ _ 0 _) 0 = _
    rw [nxt_set_next_same, hprev]; rfl
  have hm2n : ∀ L, L ≠ 0 → nxt m2 L = nxt m L := by
    intro L hL
    show nxt (set_next _ _ 0 _) L = _
    rw [nxt_set_next_other _ _ _ _ _ hL]; rfl
  have hm2p : prv m2 = setf (prv m) (firstNotLess m hd (m.key last) (ch 0))
      (lastBelow m hd (m.key first) (ch 0)) := by
    show prv (set_next _ _ _ _) = _
    rw [prv_set_next, prv_set_prev, hlast']
    show setf (prv m) last (prv m first) = _
    rw [hprev]
  have hb : 1 + m2.m_height hd ≤ MAX_ADDITIONAL_LEVELS + 1 := by
    have := hinv.height_le
    rw [hm2h]; omega
  have honly : LinksOnly (range_links u1 u2 (m2.m_height hd) 1 m2) m2 :=
    range_links_only u1 u2 _ 1 m2
  have hn0 : nxt (range_links u1 u2 (m2.m_height hd) 1 m2) 0 = nxt m2 0 := by
    rw [range_links_nxt u1 u2 _ 1 m2 hb 0, if_neg (by omega)]
  rw [hm2]
  refine ⟨⟨?_, ?_, ?_, ?_, ?_⟩, ?_, ?_⟩
  · rw [honly.2.2.2.2.1]; exact hinv.height_le
  · intro L hL
    have hlev := hinv.levels L hL
    apply level_cut m _ hd L (ch L) _ _ hk hlev honly.2.1
    by_cases h0 : L = 0
    · subst h0
      rw [hn0, hm2n0, hlast]
    · rw [range_links_nxt u1 u2 _ 1 m2 hb L]
      by_cases hc : L ≤ m.m_height hd
      · rw [if_pos ⟨by omega, by rw [hm2h]; omega⟩, hm2n L h0, hu1 L hc, hu2 L hc]
        have : m2.m_next (lastBelow m hd (m.key last) (ch L)) L =
            nxt m2 L (lastBelow m hd (m.key last) (ch L)) := rfl
        rw [this, hm2n L h0]
      · rw [if_neg (by rw [hm2h]; omega), hm2n L h0, hinv.above L (by omega) hL]
        show nxt m L = setf (nxt m L) hd (nxt m L hd)
        rw [setf_self]
  · intro L hL n hnL
    rw [mem_without] at hnL ⊢
    exact ⟨hinv.nested L hL n hnL.1, hnL.2⟩
  · intro L hL hL10
    rw [honly.2.2.2.2.1] at hL
    rw [hinv.above L hL hL10]; rfl
  · rw [prv_of_linksOnly honly, hm2p]
    exact back_cut m hd (ch 0) _ _ hk hlev0 hinv.back
  · exact linksOnly_trans honly ⟨rfl, rfl, rfl, rfl, rfl, rfl⟩
  · rw [hn0, hm2n0]

/-! ## The operations of `map_base` on structures that satisfy the invariant -/

/-- Removing the key of a node of the structure. -/
theorem remove_key_present (m : Mem) (hd : Ptr) (ch : Nat → List Ptr) (nod : Ptr)
    (hinv : Inv m hd ch) (hn : nod ∈ ch 0) :
    ∃ m', (∀ fuel, (∀ L, L ≤ m.m_height hd → (ch L).length < fuel) →
        remove_key m hd (m.key nod) fuel = some (1, m')) ∧
      Inv m' hd (fun L => without m (m.key nod) (m.key nod + 1) (ch L)) ∧
      m'.key = m.key ∧ m'.val = m.val ∧ m'.m_length = m.m_length ∧
      m'.released = nod :: m.released := by
  have hlev0 := hinv.levels 0 (Nat.zero_le _)
  have hpos : firstNotLess m hd (m.key nod) (ch 0) = nod :=
    firstNotLess_of_mem m hd (ch 0) hlev0.2.2 nod hn
  have hne : nod ≠ hd := fun h => hlev0.2.1 (h ▸ hn)
  obtain ⟨a1, a2, a3, a4, a5⟩ := remove_node_inv m hd ch nod (updateOf m hd (m.key nod) ch)
    hinv hn (updateOf_spec m hd (m.key nod) ch)
  refine ⟨delete_node (remove_node m hd nod (updateOf m hd (m.key nod) ch)) nod,
    ?_, ?_, a2, a3, a4, ?_⟩
  · intro fuel hfuel
    simp only [remove_key, find_node_returns m hd (m.key nod) ch hinv.wellFormed fuel hfuel,
      hpos]
    rw [if_pos ⟨hne, (equals_iff _ _).2 rfl⟩]
  · exact inv_congr (remove_node m hd nod _) _ hd _ rfl rfl rfl rfl a1
  · show nod :: (remove_node m hd nod _).released = _
    rw [a5]

/-- Removing a key that is not in the structure changes nothing. -/
theorem remove_key_absent (m : Mem) (hd : Ptr) (ch : Nat → List Ptr) (key : Nat)
    (hwf : WellFormed m hd ch) (habs : ∀ n ∈ ch 0, m.key n ≠ key) (fuel : Nat)
    (hfuel : ∀ L, L ≤ m.m_height hd → (ch L).length < fuel) :
    remove_key m hd key fuel = some (0, m) := by
  have hcond : ¬ (firstNotLess m hd key (ch 0) ≠ hd ∧
      equals (m.key (firstNotLess m hd key (ch 0))) key = true) := by
    rintro ⟨h1, h2⟩
    rcases firstNotLess_mem m hd key (ch 0) with h | h
    · exact h1 h
    · exact habs _ h ((equals_iff _ _).1 h2)
  simp only [remove_key, find_node_returns m hd key ch hwf fuel hfuel]
  rw [if_neg hcond]

/-- Removing a node of the structure by reference. -/
theorem remove_at_live (m : Mem) (hd : Ptr) (ch : Nat → List Ptr) (nod : Ptr)
    (hinv : Inv m hd ch) (hn : nod ∈ ch 0) :
    ∃ m', (∀ fuel, (∀ L, L ≤ m.m_height hd → (ch L).length < fuel) →
        remove_at m hd nod fuel = some (m.m_next nod 0, m')) ∧
      Inv m' hd (fun L => without m (m.key nod) (m.key nod + 1) (ch L)) ∧
      m'.key = m.key ∧ m'.val = m.val ∧ m'.m_length = m.m_length ∧
      m'.released = nod :: m.released := by
  have hlev0 := hinv.levels 0 (Nat.zero_le _)
  have hpos : firstNotLess m hd (m.key nod) (ch 0) = nod :=
    firstNotLess_of_mem m hd (ch 0) hlev0.2.2 nod hn
  obtain ⟨a1, a2, a3, a4, a5⟩ := remove_node_inv m hd ch nod (updateOf m hd (m.key nod) ch)
    hinv hn (updateOf_spec m hd (m.key nod) ch)
  refine ⟨delete_node (remove_node m hd nod (updateOf m hd (m.key nod) ch)) nod,
    ?_, ?_, a2, a3, a4, ?_⟩
  · intro fuel hfuel
    simp only [remove_at, find_node_returns m hd (m.key nod) ch hinv.wellFormed fuel hfuel,
      hpos]
    rw [if_pos (by simp [equals_node])]
  · exact inv_congr (remove_node m hd nod _) _ hd _ rfl rfl rfl rfl a1
  · show nod :: (remove_node m hd nod _).released = _
    rw [a5]

theorem spanNodes_length (m : Mem) (kb ke : Nat) (ns : List Ptr) :
    (spanNodes m kb ke ns).length ≤ ns.length :=
  ((below_sublist m ke _).trans (notBelow_sublist m kb ns)).length_le

/-- Removing the span between two nodes of the structure, the first not after the last. -/
theorem remove_span_valid (m : Mem) (hd : Ptr) (ch : Nat → List Ptr) (first last : Ptr)
    (hinv : Inv m hd ch) (hf : first ∈ ch 0) (hl : last ∈ ch 0)
    (hk : m.key first ≤ m.key last) :
    ∃ m', (∀ fuel, (∀ L, L ≤ m.m_height hd → (ch L).length < fuel) →
        remove_span m hd first last fuel = some (last, m')) ∧
      Inv m' hd (fun L => without m (m.key first) (m.key last) (ch L)) ∧
      m'.key = m.key ∧ m'.val = m.val ∧ m'.m_height = m.m_height ∧
      m'.released = (spanNodes m (m.key first) (m.key last) (ch 0)).reverse ++ m.released ∧
      m'.m_length hd =
        dec_times (spanNodes m (m.key first) (m.key last) (ch 0)).length (m.m_length hd) := by
  have hlev0 := hinv.levels 0 (Nat.zero_le _)
  have hpos1 : firstNotLess m hd (m.key first) (ch 0) = first :=
    firstNotLess_of_mem m hd (ch 0) hlev0.2.2 first hf
  have hpos2 : firstNotLess m hd (m.key last) (ch 0) = last :=
    firstNotLess_of_mem m hd (ch 0) hlev0.2.2 last hl
  obtain ⟨a1, a2, a3⟩ := remove_range_inv m hd ch first last
    (updateOf m hd (m.key first) ch) (updateOf m hd (m.key last) ch) hinv hf hl hk
    (updateOf_spec m hd (m.key first) ch) (updateOf_spec m hd (m.key last) ch)
  -- the walk over the span
  have hparts := chain_parts m (m.key first) (m.key last) hk (ch 0)
  have hseg := hlev0.1
  rw [← hparts] at hseg
  have hmid := seg_middle (nxt m 0) _ _ _ hd hd hseg
  rw [headOr_notBelow, hpos2] at hmid
  have hnd : (hd :: (below m (m.key first) (ch 0) ++ spanNodes m (m.key first) (m.key last) (ch 0)
      ++ notBelow m (m.key last) (ch 0))).Nodup := by
    show (hd :: (below m (m.key first) (ch 0) ++ below m (m.key last)
      (notBelow m (m.key first) (ch 0)) ++ notBelow m (m.key last) (ch 0))).Nodup
    rw [hparts]; exact level_nodup hlev0
  have hnd2 := List.nodup_append.1 (show ((hd :: below m (m.key first) (ch 0)) ++
      (spanNodes m (m.key first) (m.key last) (ch 0) ++ notBelow m (m.key last) (ch 0))).Nodup by
    simpa using hnd)
  have ha_mem : lastBelow m hd (m.key first) (ch 0) ∈ hd :: below m (m.key first) (ch 0) := by
    unfold lastBelow
    rcases lastOr_mem (below m (m.key first) (ch 0)) hd with h | h
    · rw [h]; simp
    · exact List.mem_cons_of_mem _ h
  have hnext : ∀ x ∈ spanNodes m (m.key first) (m.key last) (ch 0),
      (remove_range m hd first last (updateOf m hd (m.key first) ch)
        (updateOf m hd (m.key last) ch)).m_next x 0 = nxt m 0 x := by
    intro x hx
    have : (remove_range m hd first last (updateOf m hd (m.key first) ch)
        (updateOf m hd (m.key last) ch)).m_next x 0 =
        nxt (remove_range m hd first last (updateOf m hd (m.key first) ch)
        (updateOf m hd (m.key last) ch)) 0 x := rfl
    rw [this, a3]
    apply setf_other
    intro heq
    exact hnd2.2.2 (heq ▸ ha_mem) (List.mem_append_left _ hx)
  have hlast_not : last ∉ spanNodes m (m.key first) (m.key last) (ch 0) := by
    intro hmem
    have hne : last ≠ hd := fun h => hlev0.2.1 (h ▸ hl)
    have hS : last ∈ notBelow m (m.key last) (ch 0) := by
      rcases headOr_mem hd (notBelow m (m.key last) (ch 0)) with h | h
      · rw [headOr_notBelow, hpos2] at h; exact absurd h hne
      · rw [headOr_notBelow, hpos2] at h; exact h
    have := (List.nodup_append.1 hnd2.2.1).2.2
    exact this hmem hS
  have hstart : nxt m 0 (lastBelow m hd (m.key first) (ch 0)) = first := by
    show m.m_next _ 0 = first
    rw [next_lastBelow m hd (m.key first) 0 (ch 0) hlev0.1, hpos1]
  refine ⟨releasedMem (remove_range m hd first last (updateOf m hd (m.key first) ch)
      (updateOf m hd (m.key last) ch)) hd (spanNodes m (m.key first) (m.key last) (ch 0)),
    ?_, ?_, ?_, ?_, ?_, ?_, ?_⟩
  · intro fuel hfuel
    have hlen : (spanNodes m (m.key first) (m.key last) (ch 0)).length < fuel :=
      lt_of_le_of_lt (spanNodes_length m _ _ (ch 0)) (hfuel 0 (Nat.zero_le _))
    have b1 := release_loop_spec hd last (nxt m 0)
      (spanNodes m (m.key first) (m.key last) (ch 0)) (lastBelow m hd (m.key first) (ch 0))
      (remove_range m hd first last (updateOf m hd (m.key first) ch)
        (updateOf m hd (m.key last) ch)) fuel hmid hnext hlast_not hlen
    rw [hstart] at b1
    simp only [remove_span, find_node_returns m hd _ ch hinv.wellFormed fuel hfuel, hpos1,
      hpos2]
    exact b1
  · exact inv_congr (remove_range m hd first last _ _) _ hd _ rfl rfl rfl rfl a1
  · show (remove_range m hd first last _ _).key = _
    rw [a2.2.1]; rfl
  · show (remove_range m hd first last _ _).val = _
    rw [a2.2.2.1]; rfl
  · show (remove_range m hd first last _ _).m_height = _
    rw [a2.2.2.2.2.1]; rfl
  · show _ ++ (remove_range m hd first last _ _).released = _
    rw [a2.2.2.2.2.2]; rfl
  · show setf (remove_range m hd first last _ _).m_length hd _ hd = _
    rw [setf_same, a2.2.2.2.1]; rfl

/-! ## Reachable structures -/

theorem returns_unique {α : Type} (f : Nat → Option α) (x y : α) (hx : Returns f x)
    (hy : Returns f y) : x = y := by
  obtain ⟨N, hN⟩ := hx
  obtain ⟨K, hK⟩ := hy
  have h1 := hN (max N K) (le_max_left _ _)
  have h2 := hK (max N K) (le_max_right _ _)
  rw [h1] at h2
  exact Option.some.inj h2

/-- A result that holds for every fuel above the chain lengths is returned. -/
theorem returns_of_fuel {α : Type} (f : Nat → Option α) (x : α) (ch : Nat → List Ptr)
    (h : Nat) (hf : ∀ fuel, (∀ L, L ≤ h → (ch L).length < fuel) → f fuel = some x) :
    Returns f x := by
  obtain ⟨N, hN⟩ := exists_fuel ch h
  exact ⟨N, fun fuel hfuel => hf fuel (fun L hL => lt_of_lt_of_le (hN L hL) hfuel)⟩

theorem seg_closed (f : Ptr → Ptr) (ns : List Ptr) :
    ∀ a b, Seg f a ns b → ∀ p ∈ a :: ns, f p ∈ b :: ns := by
  induction ns with
  | nil =>
    intro a b h p hp
    simp only [Seg] at h
    simp only [List.mem_singleton] at hp
    rw [hp, h]; simp
  | cons n ns ih =>
    intro a b h p hp
    simp only [Seg] at h
    rcases List.mem_cons.1 hp with rfl | hp
    · rw [h.1]; simp
    · have := ih n b h.2 p hp
      rcases List.mem_cons.1 this with h1 | h1
      · rw [h1]; simp
      · exact List.mem_cons_of_mem _ (List.mem_cons_of_mem _ h1)

theorem linked_mem (m : Mem) (hd : Ptr) (L : Nat) (ns : List Ptr)
    (h : Seg (nxt m L) hd ns hd) (p : Ptr) (hp : Linked m hd L p) : p ∈ hd :: ns := by
  induction hp with
  | head => simp
  | next q _ ih => exact seg_closed (nxt m L) ns hd hd h q ih

theorem linked_of_seg (m : Mem) (hd : Ptr) (L : Nat) (ns : List Ptr) :
    ∀ a, Linked m hd L a → ∀ b, Seg (nxt m L) a ns b → ∀ p ∈ ns, Linked m hd L p := by
  induction ns with
  | nil => intro a _ b _ p hp; simp at hp
  | cons n ns ih =>
    intro a ha b h p hp
    simp only [Seg, nxt] at h
    have hn : Linked m hd L n := h.1 ▸ Linked.next a ha
    rcases List.mem_cons.1 hp with rfl | hp
    · exact hn
    · exact ih n hn b h.2 p hp

theorem live_iff (m : Mem) (hd : Ptr) (ns : List Ptr) (h : Level m hd 0 ns) (p : Ptr) :
    Live m hd p ↔ p ∈ ns := by
  constructor
  · rintro ⟨h1, h2⟩
    rcases List.mem_cons.1 (linked_mem m hd 0 ns h.1 p h2) with h3 | h3
    · exact absurd h3 h1
    · exact h3
  · intro hp
    exact ⟨fun heq => h.2.1 (heq ▸ hp), linked_of_seg m hd 0 ns hd Linked.head hd h.1 p hp⟩

theorem fresh_of_not_linked (m : Mem) (hd : Ptr) (ns : List Ptr) (h : Level m hd 0 ns)
    (p : Ptr) (hp : ¬ Linked m hd 0 p) : p ≠ hd ∧ p ∉ ns :=
  ⟨fun heq => hp (heq ▸ Linked.head),
    fun hmem => hp (linked_of_seg m hd 0 ns hd Linked.head hd h.1 p hmem)⟩

/-- An insertion that returns keeps the invariant. -/
theorem insert_step_inv (m : Mem) (hd : Ptr) (ch : Nat → List Ptr) (key : Nat) (val : String)
    (nn h : Nat) (r : Ptr × Bool) (m' : Mem) (hinv : Inv m hd ch)
    (hfresh : ¬ Linked m hd 0 nn) (hh : h ≤ MAX_ADDITIONAL_LEVELS)
    (hret : Returns (do_insert m hd key val nn h) (r, m')) : ∃ ch', Inv m' hd ch' := by
  have hlev0 := hinv.levels 0 (Nat.zero_le _)
  obtain ⟨hnn, hnew⟩ := fresh_of_not_linked m hd (ch 0) hlev0 nn hfresh
  by_cases hex : ∃ n ∈ ch 0, m.key n = key
  · obtain ⟨n, hn, hkey⟩ := hex
    have := returns_of_fuel _ _ ch (m.m_height hd) (fun fuel hf =>
      do_insert_old m hd ch key val nn h hinv.wellFormed n hn ((equals_iff _ _).2 hkey) fuel hf)
    have e := returns_unique _ _ _ hret this
    have : m' = m := congrArg Prod.snd e
    rw [this]; exact ⟨ch, hinv⟩
  · have habs : ∀ n ∈ ch 0, m.key n ≠ key := fun n hn hk => hex ⟨n, hn, hk⟩
    obtain ⟨m2, a1, a2, _⟩ := do_insert_new m hd ch key val nn h hinv hnn hnew hh habs
    have := returns_of_fuel _ _ ch (m.m_height hd) a1
    have e := returns_unique _ _ _ hret this
    have : m' = m2 := congrArg Prod.snd e
    rw [this]; exact ⟨_, a2⟩

theorem remove_key_step_inv (m : Mem) (hd : Ptr) (ch : Nat → List Ptr) (key count : Nat)
    (m' : Mem) (hinv : Inv m hd ch) (hret : Returns (remove_key m hd key) (count, m')) :
    ∃ ch', Inv m' hd ch' := by
  by_cases hex : ∃ n ∈ ch 0, m.key n = key
  · obtain ⟨n, hn, hkey⟩ := hex
    subst hkey
    obtain ⟨m2, a1, a2, _⟩ := remove_key_present m hd ch n hinv hn
    have := returns_of_fuel _ _ ch (m.m_height hd) a1
    have e := returns_unique _ _ _ hret this
    have : m' = m2 := congrArg Prod.snd e
    rw [this]; exact ⟨_, a2⟩
  · have habs : ∀ n ∈ ch 0, m.key n ≠ key := fun n hn hk => hex ⟨n, hn, hk⟩
    have := returns_of_fuel _ _ ch (m.m_height hd) (fun fuel hf =>
      remove_key_absent m hd ch key hinv.wellFormed habs fuel hf)
    have e := returns_unique _ _ _ hret this
    have : m' = m := congrArg Prod.snd e
    rw [this]; exact ⟨ch, hinv⟩

/-- Every reachable structure satisfies the invariant, for some chains. -/
theorem reachable_inv (hd : Ptr) (m : Mem) (h : Reachable hd m) : ∃ ch, Inv m hd ch := by
  induction h with
  | empty m0 => exact ⟨_, init_inv m0 hd⟩
  | insert m key val nn h r m' _ hfresh hh hret ih =>
    obtain ⟨ch, hinv⟩ := ih
    exact insert_step_inv m hd ch key val nn h r m' hinv hfresh hh hret
  | remove_key m key count m' _ hret ih =>
    obtain ⟨ch, hinv⟩ := ih
    exact remove_key_step_inv m hd ch key count m' hinv hret
  | remove_at m node next m' _ hlive hret ih =>
    obtain ⟨ch, hinv⟩ := ih
    have hn := (live_iff m hd (ch 0) (hinv.levels 0 (Nat.zero_le _)) node).1 hlive
    obtain ⟨m2, a1, a2, _⟩ := remove_at_live m hd ch node hinv hn
    have := returns_of_fuel _ _ ch (m.m_height hd) a1
    have e := returns_unique _ _ _ hret this
    have : m' = m2 := congrArg Prod.snd e
    rw [this]; exact ⟨_, a2⟩
  | remove_span m b e r m' _ hb he hk hret ih =>
    obtain ⟨ch, hinv⟩ := ih
    have hlev0 := hinv.levels 0 (Nat.zero_le _)
    have hbm := (live_iff m hd (ch 0) hlev0 b).1 hb
    have hem := (live_iff m hd (ch 0) hlev0 e).1 he
    obtain ⟨m2, a1, a2, _⟩ := remove_span_valid m hd ch b e hinv hbm hem hk
    have := returns_of_fuel _ _ ch (m.m_height hd) a1
    have e' := returns_unique _ _ _ hret this
    have : m' = m2 := congrArg Prod.snd e'
    rw [this]; exact ⟨_, a2⟩

theorem built_reachable (hd : Ptr) (m : Mem) (h : Built hd m) : Reachable hd m := by
  induction h with
  | empty m0 => exact Reachable.empty m0
  | insert m key val nn h r m' _ hfresh hh hret ih =>
    exact Reachable.insert m key val nn h r m' ih hfresh hh hret

theorem built_inv (hd : Ptr) (m : Mem) (h : Built hd m) : ∃ ch, Inv m hd ch :=
  reachable_inv hd m (built_reachable hd m h)

/-- The traversal of a structure that satisfies the invariant returns its level-0 chain. -/
theorem traverse_returns (m : Mem) (hd : Ptr) (ns : List Ptr) (h : Level m hd 0 ns) :
    Returns (traverse m hd) ns :=
  ⟨ns.length + 1, fun fuel hf => traverse_level m hd ns h fuel (by omega)⟩

theorem traverse_keys_returns (m : Mem) (hd : Ptr) (ns : List Ptr) (h : Level m hd 0 ns) :
    Returns (traverse_keys m hd) (ns.map m.key) := by
  obtain ⟨N, hN⟩ := traverse_returns m hd ns h
  exact ⟨N, fun fuel hf => by unfold traverse_keys; rw [hN fuel hf]; rfl⟩

theorem map_key_without (m : Mem) (kb ke : Nat) (ns : List Ptr) :
    (without m kb ke ns).map m.key =
      (ns.map m.key).filter (fun x => !(decide (kb ≤ x) && decide (x < ke))) := by
  unfold without
  rw [List.filter_map]
  rfl

theorem map_key_without_one (m : Mem) (k : Nat) (ns : List Ptr) :
    (without m k (k + 1) ns).map m.key = (ns.map m.key).filter (fun x => x ≠ k) := by
  rw [map_key_without]
  apply List.filter_congr
  intro x _
  by_cases h : x = k
  · subst h; simp
  · have : ¬ (k ≤ x ∧ x < k + 1) := by omega
    simp [h]
    omega

/-- In a structure that satisfies the invariant, no link met from the head at a level leads
to a node outside the chain of that level. -/
theorem linked_next_ne (m : Mem) (hd : Ptr) (ch : Nat → List Ptr) (hinv : Inv m hd ch)
    (L : Nat) (hL : L ≤ MAX_ADDITIONAL_LEVELS) (p : Ptr) (hp : Linked m hd L p) (q : Ptr)
    (hq : q ∉ hd :: ch L) : m.m_next p L ≠ q := by
  intro heq
  have h1 := (hinv.levels L hL).1
  have h2 := linked_mem m hd L (ch L) h1 p hp
  exact hq (heq ▸ seg_closed (nxt m L) (ch L) hd hd h1 p h2)

theorem keys_sorted_of_level (m : Mem) (hd : Ptr) (L : Nat) (ns : List Ptr)
    (h : Level m hd L ns) : (ns.map m.key).Pairwise (· < ·) := by
  rw [List.pairwise_map]
  exact h.2.2

/-! ## Two small structures -/

/-- The first insertion into the empty structure, for any fuel. -/
theorem first_insert_returns :
    Returns (do_insert (empty 1) 1 5 "a" 10 1) ((10, true), afterFive) := by
  refine ⟨1, fun fuel hf => ?_⟩
  obtain ⟨f, rfl⟩ : ∃ f, fuel = f + 1 := ⟨fuel - 1, by omega⟩
  have h0 : (empty 1).m_height 1 = 0 := by decide
  have e1 : get_next (empty 1) 1 0 = 1 := by decide
  have e2 : (empty 1).m_next 1 0 = 1 := by decide
  simp [do_insert, find_node, find_loop, find_walk, h0, e1, e2]
  rfl

/-- The second insertion, for any fuel. -/
theorem second_insert_returns :
    Returns (do_insert afterFive 1 1 "" 11 0) ((11, true), afterFiveOne) := by
  refine ⟨1, fun fuel hf => ?_⟩
  obtain ⟨f, rfl⟩ : ∃ f, fuel = f + 1 := ⟨fuel - 1, by omega⟩
  have h0 : afterFive.m_height 1 = 1 := by decide
  have e1 : get_next afterFive 1 1 = 10 := by decide
  have e2 : get_next afterFive 1 0 = 10 := by decide
  have e3 : afterFive.key 10 = 5 := by decide
  have e4 : afterFive.m_next 1 0 = 10 := by decide
  simp [do_insert, find_node, find_loop, find_walk, h0, e1, e2, e3, e4, less, equals, greater]
  rfl

theorem not_linked_of_level (m : Mem) (hd : Ptr) (ns : List Ptr) (h : Level m hd 0 ns)
    (p : Ptr) (hp : p ∉ hd :: ns) : ¬ Linked m hd 0 p :=
  fun hl => hp (linked_mem m hd 0 ns h.1 p hl)

theorem built_afterFive : Built 1 afterFive :=
  Built.insert (empty 1) 5 "a" 10 1 (10, true) afterFive (Built.empty blank)
    (not_linked_of_level (empty 1) 1 [] (by decide) 10 (by decide)) (by decide)
    first_insert_returns

theorem built_afterFiveOne : Built 1 afterFiveOne :=
  Built.insert afterFive 1 "" 11 0 (11, true) afterFiveOne built_afterFive
    (not_linked_of_level afterFive 1 [10] (by decide) 11 (by decide)) (by decide)
    second_insert_returns

theorem wellFormed_afterFive : WellFormed afterFive 1 afterFiveChains := by
  have h1 : afterFive.m_height 1 = 1 := by decide
  refine ⟨by decide, ?_, ?_⟩
  · intro L hL
    rw [h1] at hL
    interval_cases L <;> decide
  · intro L hL
    rw [h1] at hL
    interval_cases L
    decide

theorem wellFormed_afterFiveOne : WellFormed afterFiveOne 1 afterFiveOneChains := by
  have h1 : afterFiveOne.m_height 1 = 1 := by decide
  refine ⟨by decide, ?_, ?_⟩
  · intro L hL
    rw [h1] at hL
    interval_cases L <;> decide
  · intro L hL
    rw [h1] at hL
    interval_cases L
    decide

theorem live_afterFiveOne_11 : Live afterFiveOne 1 11 :=
  (live_iff afterFiveOne 1 [11, 10] (by decide) 11).2 (by decide)

theorem live_afterFiveOne_10 : Live afterFiveOne 1 10 :=
  (live_iff afterFiveOne 1 [11, 10] (by decide) 10).2 (by decide)

/-! ## Stealing the nodes of another structure -/

/-- In a sorted chain the nodes before the first one that is not less than `key` are all
the nodes whose key is less than `key`. -/
theorem below_eq_filter (m : Mem) (key : Nat) (ns : List Ptr) (hs : KeySorted m ns) :
    below m key ns = ns.filter (fun n => less (m.key n) key) := by
  induction ns with
  | nil => rfl
  | cons a rest ih =>
    have hp := List.pairwise_cons.1 hs
    by_cases h : less (m.key a) key = true
    · have e := ih hp.2
      unfold below at e ⊢
      rw [List.takeWhile_cons, List.filter_cons, if_pos h, if_pos h, e]
    · have hall : ∀ x ∈ rest, ¬ (less (m.key x) key = true) := by
        intro x hx hlt
        have h1 := hp.1 x hx
        have h2 := (less_iff _ _).1 hlt
        exact h ((less_iff _ _).2 (lt_trans h1 h2))
      unfold below
      rw [List.takeWhile_cons, List.filter_cons, if_neg h, if_neg h]
      symm
      rw [List.filter_eq_nil_iff]
      exact hall

theorem lastOr_eq_getLast (ns : List Ptr) : ∀ a, lastOr a ns = ns.getLast?.getD a := by
  induction ns with
  | nil => intro a; rfl
  | cons n ns ih =>
    intro a
    rw [lastOr, ih n]
    cases ns with
    | nil => rfl
    | cons x xs => simp [List.getLast?_cons_cons, List.getLast?_eq_getLast]

/-- A traversal that meets a node whose level-0 link leads to itself never ends. -/
theorem walk_self_loop (m : Mem) (hd p : Ptr) (hp : p ≠ hd) (h : m.m_next p 0 = p) :
    ∀ fuel, walk m hd fuel p = none := by
  intro fuel
  induction fuel with
  | zero => rfl
  | succ f ih => rw [walk, if_neg hp, h, ih]

/-! ## The ceiling of the levels -/

theorem random_loop_le (RAND_MAX : Nat) (rand : Nat → Nat) (n : Nat) :
    ∀ res, res ≤ MAX_ADDITIONAL_LEVELS →
      random_loop RAND_MAX rand n res ≤ MAX_ADDITIONAL_LEVELS := by
  induction n with
  | zero => intro res h; exact h
  | succ n ih =>
    intro res h
    rw [random_loop]
    by_cases c : res < MAX_ADDITIONAL_LEVELS ∧ rand res < RAND_MAX / 2
    · rw [if_pos c]; exact ih (res + 1) c.1
    · rw [if_neg c]; exact h

/-- With enough rounds the loop of `random_level` stops because its condition is false. -/
theorem random_loop_exit (RAND_MAX : Nat) (rand : Nat → Nat) (n : Nat) :
    ∀ res, MAX_ADDITIONAL_LEVELS < res + n →
      ¬ (random_loop RAND_MAX rand n res < MAX_ADDITIONAL_LEVELS ∧
        rand (random_loop RAND_MAX rand n res) < RAND_MAX / 2) := by
  induction n with
  | zero =>
    intro res h
    rw [random_loop]
    have h' : 10 < res + 0 := h
    intro c
    have c1 : res < 10 := c.1
    omega
  | succ n ih =>
    intro res h
    rw [random_loop]
    by_cases c : res < MAX_ADDITIONAL_LEVELS ∧ rand res < RAND_MAX / 2
    · rw [if_pos c]
      have h' : 10 < res + (n + 1) := h
      exact ih (res + 1) (show 10 < res + 1 + n by omega)
    · rw [if_neg c]; exact c

theorem random_level_le (RAND_MAX : Nat) (rand : Nat → Nat) :
    random_level RAND_MAX rand ≤ MAX_ADDITIONAL_LEVELS :=
  random_loop_le RAND_MAX rand _ 0 (Nat.zero_le _)

theorem sameAbove_refl (m : Mem) : SameAbove m m := fun _ _ _ => ⟨rfl, rfl⟩

theorem sameAbove_trans {a b c : Mem} (h1 : SameAbove a b) (h2 : SameAbove b c) :
    SameAbove a c := fun p L hL =>
  ⟨(h1 p L hL).1.trans (h2 p L hL).1, (h1 p L hL).2.trans (h2 p L hL).2⟩

theorem sameAbove_of_eq (m' m : Mem) (h1 : m'.m_next = m.m_next) (h2 : m'.m_tail = m.m_tail) :
    SameAbove m' m := fun p L _ => ⟨by rw [h1], by rw [h2]⟩

theorem init_above (m : Mem) (hd : Ptr) : SameAbove (init m hd) m := by
  intro p L hL
  have hL' : ¬ (p = hd ∧ L ≤ MAX_ADDITIONAL_LEVELS) := fun c => absurd c.2 (not_le.2 hL)
  rw [init_next, init_tail, if_neg hL', if_neg hL']
  exact ⟨rfl, rfl⟩

/-- The method `insert_node` writes no tail slot other than those of level 0. -/
theorem insert_node_tail (m : Mem) (hd nn h : Nat) (update : Nat → Ptr) (p L : Nat)
    (hL : L ≠ 0) : (insert_node m hd nn h update).m_tail p L = m.m_tail p L := by
  simp only [insert_node, insert_raise_spec]
  rw [(insert_links_only _ _ _ _ _).1]
  simp [set_next, set_prev, set_tail, setf2, hL]

theorem insert_node_above (m : Mem) (hd nn h : Nat) (update : Nat → Ptr)
    (hh : h ≤ MAX_ADDITIONAL_LEVELS) : SameAbove (insert_node m hd nn h update) m := by
  intro p L hL
  have hL' : 10 < L := hL
  have hh' : h ≤ 10 := hh
  refine ⟨?_, insert_node_tail m hd nn h update p L (by omega)⟩
  have e := insert_node_nxt m hd nn h update hh L
  rw [if_neg (by omega)] at e
  exact congrFun e p

theorem remove_node_above (m : Mem) (hd pos : Ptr) (update : Nat → Ptr)
    (hh : m.m_height hd ≤ MAX_ADDITIONAL_LEVELS) :
    SameAbove (remove_node m hd pos update) m := by
  intro p L hL
  have hL' : 10 < L := hL
  have hh' : m.m_height hd ≤ 10 := hh
  have hL0 : L ≠ 0 := by omega
  let m1 := set_next m (get_prev m pos) 0 (m.m_next pos 0)
  let m2 := set_prev m1 (m1.m_next pos 0) (get_prev m1 pos)
  let m3 := remove_links hd pos update (m2.m_height hd) 1 m2
  have h2 : m2.m_height hd ≤ MAX_ADDITIONAL_LEVELS := hh
  have honly := remove_links_only hd pos update (m2.m_height hd) 1 m2
  have h3 : m3.m_height hd ≤ MAX_ADDITIONAL_LEVELS := by
    show (remove_links hd pos update (m2.m_height hd) 1 m2).m_height hd ≤ _
    rw [honly.2.2.2.2.1]; exact h2
  obtain ⟨h', _, e, _⟩ := shrink_height_spec hd (m3.m_height hd) m3 h3
  have er : remove_node m hd pos update = shrink_height hd (m3.m_height hd) m3 := rfl
  rw [er, e]
  have n3 : nxt m3 L = nxt m L := by
    rcases remove_links_nxt hd pos update (m2.m_height hd) 1 m2 h2 L with c | c
    · rw [show nxt m3 L = nxt m2 L from c]
      show nxt (set_prev m1 _ _) L = _
      rw [nxt_set_prev]
      exact nxt_set_next_other m _ 0 _ L hL0
    · have c2 : L ≤ m2.m_height hd := c.2.1
      have : m2.m_height hd ≤ 10 := hh
      omega
  have t3 : m3.m_tail p L = m.m_tail p L := by
    show (remove_links hd pos update (m2.m_height hd) 1 m2).m_tail p L = _
    rw [honly.1]
    simp [m2, m1, set_next, set_prev, set_tail, setf2, hL0]
  exact ⟨congrFun n3 p, t3⟩

theorem remove_range_above (m : Mem) (hd first last : Ptr) (u1 u2 : Nat → Ptr)
    (hh : m.m_height hd ≤ MAX_ADDITIONAL_LEVELS) :
    SameAbove (remove_range m hd first last u1 u2) m := by
  intro p L hL
  have hL' : 10 < L := hL
  have hh' : m.m_height hd ≤ 10 := hh
  have hL0 : L ≠ 0 := by omega
  let m1 := set_prev m last (get_prev m first)
  let m2 := set_next m1 (get_prev m1 first) 0 last
  have er : remove_range m hd first last u1 u2 = range_links u1 u2 (m2.m_height hd) 1 m2 := rfl
  have h2 : m2.m_height hd = m.m_height hd := rfl
  rw [er]
  constructor
  · have e := range_links_nxt u1 u2 (m2.m_height hd) 1 m2
      (show 1 + m2.m_height hd ≤ 10 + 1 by rw [h2]; omega) L
    rw [if_neg (by rw [h2]; omega)] at e
    have e2 : nxt m2 L = nxt m L := by
      show nxt (set_next m1 _ 0 _) L = _
      rw [nxt_set_next_other _ _ 0 _ L hL0]
      rfl
    exact congrFun (e.trans e2) p
  · rw [(range_links_only u1 u2 (m2.m_height hd) 1 m2).1]
    simp [m2, m1, set_next, set_prev, set_tail, setf2, hL0]

/-- The release loop changes no link and no tail pointer. -/
theorem release_loop_links (hd last : Ptr) (fuel : Nat) :
    ∀ (first : Ptr) (m : Mem) (r : Ptr) (m' : Mem),
      release_loop hd last fuel first m = some (r, m') →
      m'.m_next = m.m_next ∧ m'.m_tail = m.m_tail ∧ m'.m_height = m.m_height := by
  induction fuel with
  | zero => intro first m r m' h; simp [release_loop] at h
  | succ f ih =>
    intro first m r m' h
    rw [release_loop] at h
    by_cases c : first ≠ last
    · rw [if_pos c] at h
      exact ih (m.m_next first 0)
        { (delete_node m first) with
          m_length := setf (delete_node m first).m_length hd
            (size_dec ((delete_node m first).m_length hd)) } r m' h
    · rw [if_neg c] at h
      have := congrArg Prod.snd (Option.some.inj h)
      simp only at this
      rw [← this]
      exact ⟨rfl, rfl, rfl⟩

theorem do_insert_above (m : Mem) (hd : Ptr) (key : Nat) (val : String) (nn h fuel : Nat)
    (r : Ptr × Bool) (m' : Mem) (hh : h ≤ MAX_ADDITIONAL_LEVELS)
    (he : do_insert m hd key val nn h fuel = some (r, m')) : SameAbove m' m := by
  unfold do_insert at he
  cases hf : find_node m hd key fuel with
  | none => rw [hf] at he; simp at he
  | some pu =>
    obtain ⟨pos, update⟩ := pu
    rw [hf] at he
    simp only at he
    by_cases c : pos = hd ∨ equals (m.key pos) key = false
    · rw [if_pos c] at he
      have e := congrArg Prod.snd (Option.some.inj he)
      simp only at e
      rw [← e]
      exact sameAbove_trans (insert_node_above _ hd nn h update hh)
        (sameAbove_of_eq _ _ rfl rfl)
    · rw [if_neg c] at he
      have e := congrArg Prod.snd (Option.some.inj he)
      simp only at e
      rw [← e]
      exact sameAbove_refl m

theorem remove_key_above (m : Mem) (hd : Ptr) (key fuel count : Nat) (m' : Mem)
    (hh : m.m_height hd ≤ MAX_ADDITIONAL_LEVELS)
    (he : remove_key m hd key fuel = some (count, m')) : SameAbove m' m := by
  unfold remove_key at he
  cases hf : find_node m hd key fuel with
  | none => rw [hf] at he; simp at he
  | some pu =>
    obtain ⟨pos, update⟩ := pu
    rw [hf] at he
    simp only at he
    by_cases c : pos ≠ hd ∧ equals (m.key pos) key = true
    · rw [if_pos c] at he
      have e := congrArg Prod.snd (Option.some.inj he)
      simp only at e
      rw [← e]
      exact sameAbove_trans (sameAbove_of_eq _ _ rfl rfl) (remove_node_above m hd pos update hh)
    · rw [if_neg c] at he
      have e := congrArg Prod.snd (Option.some.inj he)
      simp only at e
      rw [← e]
      exact sameAbove_refl m

theorem remove_at_above (m : Mem) (hd node : Ptr) (fuel : Nat) (next : Ptr) (m' : Mem)
    (hh : m.m_height hd ≤ MAX_ADDITIONAL_LEVELS)
    (he : remove_at m hd node fuel = some (next, m')) : SameAbove m' m := by
  unfold remove_at at he
  cases hf : find_node m hd (m.key node) fuel with
  | none => rw [hf] at he; simp at he
  | some pu =>
    obtain ⟨pos, update⟩ := pu
    rw [hf] at he
    simp only at he
    by_cases c : equals_node m node pos = true
    · rw [if_pos c] at he
      have e := congrArg Prod.snd (Option.some.inj he)
      simp only at e
      rw [← e]
      exact sameAbove_trans (sameAbove_of_eq _ _ rfl rfl) (remove_node_above m hd pos update hh)
    · rw [if_neg c] at he
      have e := congrArg Prod.snd (Option.some.inj he)
      simp only at e
      rw [← e]
      exact sameAbove_refl m

theorem remove_span_above (m : Mem) (hd b e : Ptr) (fuel : Nat) (r : Ptr) (m' : Mem)
    (hh : m.m_height hd ≤ MAX_ADDITIONAL_LEVELS)
    (he : remove_span m hd b e fuel = some (r, m')) : SameAbove m' m := by
  unfold remove_span at he
  cases hf : find_node m hd (m.key b) fuel with
  | none => rw [hf] at he; simp at he
  | some pu =>
    obtain ⟨first, u1⟩ := pu
    rw [hf] at he
    simp only at he
    cases hf2 : find_node m hd (m.key e) fuel with
    | none => rw [hf2] at he; simp at he
    | some pu2 =>
      obtain ⟨last, u2⟩ := pu2
      rw [hf2] at he
      simp only at he
      by_cases c : (first = b ∧ last = e) ∨
          (equals_node m b first = true ∧ equals_node m e last = true)
      · rw [if_pos c] at he
        obtain ⟨a1, a2, _⟩ := release_loop_links hd last fuel first _ r m' he
        exact sameAbove_trans (sameAbove_of_eq _ _ a1 a2)
          (remove_range_above m hd first last u1 u2 hh)
      · rw [if_neg c] at he
        have e := congrArg Prod.snd (Option.some.inj he)
        simp only at e
        rw [← e]
        exact sameAbove_refl m

theorem grown_reachable (hd : Ptr) (RAND_MAX : Nat) (m0 m : Mem)
    (h : Grown hd RAND_MAX m0 m) : Reachable hd m := by
  induction h with
  | empty => exact Reachable.empty m0
  | insert m key val nn rand r m' _ hfresh hret ih =>
    exact Reachable.insert m key val nn _ r m' ih hfresh (random_level_le RAND_MAX rand) hret
  | remove_key m key count m' _ hret ih => exact Reachable.remove_key m key count m' ih hret
  | remove_at m node next m' _ hl hret ih => exact Reachable.remove_at m node next m' ih hl hret
  | remove_span m b e r m' _ hb he hk hret ih =>
    exact Reachable.remove_span m b e r m' ih hb he hk hret

/-- No operation on the way from the empty structure writes a slot above the ceiling. -/
theorem grown_above (hd : Ptr) (RAND_MAX : Nat) (m0 m : Mem)
    (h : Grown hd RAND_MAX m0 m) : SameAbove m m0 := by
  induction h with
  | empty => exact init_above m0 hd
  | insert m key val nn rand r m' hg _ hret ih =>
    obtain ⟨N, hN⟩ := hret
    exact sameAbove_trans
      (do_insert_above m hd key val nn _ N r m' (random_level_le RAND_MAX rand) (hN N (le_refl _)))
      ih
  | remove_key m key count m' hg hret ih =>
    obtain ⟨ch, hinv⟩ := reachable_inv hd m (grown_reachable hd RAND_MAX m0 m hg)
    obtain ⟨N, hN⟩ := hret
    exact sameAbove_trans (remove_key_above m hd key N count m' hinv.height_le (hN N (le_refl _)))
      ih
  | remove_at m node next m' hg _ hret ih =>
    obtain ⟨ch, hinv⟩ := reachable_inv hd m (grown_reachable hd RAND_MAX m0 m hg)
    obtain ⟨N, hN⟩ := hret
    exact sameAbove_trans (remove_at_above m hd node N next m' hinv.height_le (hN N (le_refl _)))
      ih
  | remove_span m b e r m' hg _ _ _ hret ih =>
    obtain ⟨ch, hinv⟩ := reachable_inv hd m (grown_reachable hd RAND_MAX m0 m hg)
    obtain ⟨N, hN⟩ := hret
    exact sameAbove_trans (remove_span_above m hd b e N r m' hinv.height_le (hN N (le_refl _)))
      ih

/-! ## Appending -/

theorem append_links_spec (hd nn : Ptr) (n : Nat) :
    ∀ (lvl : Nat) (m : Mem), 1 ≤ lvl →
      (∀ L, nxt (append_links hd nn n lvl m) L =
        if lvl ≤ L ∧ L < lvl + n then setf (setf (nxt m L) (m.m_tail hd L) nn) nn hd
        else nxt m L) ∧
      (∀ p L, (append_links hd nn n lvl m).m_tail p L =
        if p = hd ∧ lvl ≤ L ∧ L < lvl + n then nn else m.m_tail p L) ∧
      (append_links hd nn n lvl m).key = m.key ∧
      (append_links hd nn n lvl m).m_height = m.m_height := by
  induction n with
  | zero =>
    intro lvl m _
    refine ⟨fun L => ?_, fun p L => ?_, rfl, rfl⟩
    · rw [append_links, if_neg (by omega)]
    · rw [append_links, if_neg (by omega)]
  | succ n ih =>
    intro lvl m hl
    rw [append_links]
    obtain ⟨a1, a2, a3, a4⟩ := ih (lvl + 1)
      (set_tail (set_next (set_next m (m.m_tail hd lvl) lvl nn) nn lvl hd) hd lvl nn)
      (by omega)
    refine ⟨fun L => ?_, fun p L => ?_, ?_, ?_⟩
    · rw [a1 L]
      by_cases h1 : L = lvl
      · subst h1
        rw [if_neg (by omega), if_pos (by omega)]
        simp only [nxt_set_tail, nxt_set_next_same]
      · have e : nxt (set_tail (set_next (set_next m (m.m_tail hd lvl) lvl nn) nn lvl hd)
            hd lvl nn) L = nxt m L := by
          rw [nxt_set_tail, nxt_set_next_other _ _ _ _ _ h1, nxt_set_next_other _ _ _ _ _ h1]
        have t : (set_tail (set_next (set_next m (m.m_tail hd lvl) lvl nn) nn lvl hd)
            hd lvl nn).m_tail hd L = m.m_tail hd L := by
          simp [set_tail, set_next, setf2, h1]
        rw [e, t]
        have : (lvl + 1 ≤ L ∧ L < lvl + 1 + n) ↔ (lvl ≤ L ∧ L < lvl + (n + 1)) := by
          constructor <;> rintro ⟨a, b⟩ <;> constructor <;> omega
        simp only [this]
    · rw [a2 p L]
      by_cases h1 : L = lvl
      · subst h1
        by_cases hp : p = hd
        · subst hp
          rw [if_neg (by omega), if_pos ⟨rfl, by omega, by omega⟩]
          simp [set_tail, setf2]
        · rw [if_neg (fun c => hp c.1), if_neg (fun c => hp c.1)]
          simp [set_tail, set_next, setf2, hp]
      · have t : (set_tail (set_next (set_next m (m.m_tail hd lvl) lvl nn) nn lvl hd)
            hd lvl nn).m_tail p L = m.m_tail p L := by
          simp [set_tail, set_next, setf2, h1]
        rw [t]
        have : (p = hd ∧ lvl + 1 ≤ L ∧ L < lvl + 1 + n) ↔
            (p = hd ∧ lvl ≤ L ∧ L < lvl + (n + 1)) := by
          constructor <;> rintro ⟨a, b, c⟩ <;> refine ⟨a, ?_, ?_⟩ <;> omega
        simp only [this]
    · rw [a3]; rfl
    · rw [a4]; rfl

theorem append_node_nxt (m : Mem) (hd nn h : Nat) (L : Nat) :
    nxt (append_node m hd nn h) L =
      if L ≤ h then setf (setf (nxt m L) (m.m_tail hd L) nn) nn hd else nxt m L := by
  let m1 := set_next m (m.m_tail hd 0) 0 nn
  let m2 := set_prev m1 nn (m1.m_tail hd 0)
  let m3 := set_next m2 nn 0 hd
  let m4 := set_tail m3 hd 0 nn
  obtain ⟨a1, _, _, _⟩ := append_links_spec hd nn h 1 m4 (le_refl _)
  have e : nxt (append_node m hd nn h) L = nxt (append_links hd nn h 1 m4) L := by
    unfold append_node
    simp only []
    split <;> rfl
  rw [e, a1 L]
  by_cases h0 : L = 0
  · subst h0
    rw [if_neg (by omega), if_pos (Nat.zero_le _)]
    show nxt (set_tail (set_next (set_prev (set_next m _ 0 nn) nn _) nn 0 hd) hd 0 nn) 0 = _
    simp only [nxt_set_tail, nxt_set_next_same, nxt_set_prev]
  · have c : (1 ≤ L ∧ L < 1 + h) ↔ L ≤ h := by omega
    simp only [c]
    have e4 : nxt m4 L = nxt m L := by
      show nxt (set_tail (set_next (set_prev (set_next m _ 0 nn) nn _) nn 0 hd) hd 0 nn) L = _
      rw [nxt_set_tail, nxt_set_next_other _ _ _ _ _ h0, nxt_set_prev,
        nxt_set_next_other _ _ _ _ _ h0]
    have t4 : m4.m_tail hd L = m.m_tail hd L := by
      simp [m4, m3, m2, m1, set_tail, set_prev, set_next, setf2, h0]
    rw [e4, t4]

theorem append_node_tail (m : Mem) (hd nn h : Nat) (L : Nat) :
    (append_node m hd nn h).m_tail hd L = if L ≤ h then nn else m.m_tail hd L := by
  let m1 := set_next m (m.m_tail hd 0) 0 nn
  let m2 := set_prev m1 nn (m1.m_tail hd 0)
  let m3 := set_next m2 nn 0 hd
  let m4 := set_tail m3 hd 0 nn
  obtain ⟨_, a2, _, _⟩ := append_links_spec hd nn h 1 m4 (le_refl _)
  have e : (append_node m hd nn h).m_tail hd L = (append_links hd nn h 1 m4).m_tail hd L := by
    unfold append_node
    simp only []
    split <;> rfl
  rw [e, a2 hd L]
  by_cases h0 : L = 0
  · subst h0
    rw [if_neg (by omega), if_pos (Nat.zero_le _)]
    simp [m4, set_tail, setf2]
  · have t4 : m4.m_tail hd L = m.m_tail hd L := by
      simp [m4, m3, m2, m1, set_tail, set_prev, set_next, setf2, h0]
    rw [t4]
    by_cases c : L ≤ h
    · rw [if_pos c, if_pos ⟨rfl, by omega, by omega⟩]
    · rw [if_neg c, if_neg (fun a => c (by omega))]

theorem append_node_prv (m : Mem) (hd nn h : Nat) :
    prv (append_node m hd nn h) = setf (setf (prv m) nn (m.m_tail hd 0)) hd nn := by
  let m1 := set_next m (m.m_tail hd 0) 0 nn
  let m2 := set_prev m1 nn (m1.m_tail hd 0)
  let m3 := set_next m2 nn 0 hd
  let m4 := set_tail m3 hd 0 nn
  obtain ⟨_, a2, _, _⟩ := append_links_spec hd nn h 1 m4 (le_refl _)
  have e : prv (append_node m hd nn h) = prv (append_links hd nn h 1 m4) := by
    unfold append_node
    simp only []
    split <;> rfl
  rw [e]
  funext p
  show (append_links hd nn h 1 m4).m_tail p 0 = _
  rw [a2 p 0, if_neg (by omega)]
  by_cases h1 : p = hd <;> by_cases h2 : p = nn <;>
    simp [m4, m3, m2, m1, set_tail, set_prev, set_next, setf2, setf, prv, h1, h2]

theorem append_node_key (m : Mem) (hd nn h : Nat) : (append_node m hd nn h).key = m.key := by
  let m1 := set_next m (m.m_tail hd 0) 0 nn
  let m2 := set_prev m1 nn (m1.m_tail hd 0)
  let m3 := set_next m2 nn 0 hd
  let m4 := set_tail m3 hd 0 nn
  obtain ⟨_, _, a3, _⟩ := append_links_spec hd nn h 1 m4 (le_refl _)
  have e : (append_node m hd nn h).key = (append_links hd nn h 1 m4).key := by
    unfold append_node
    simp only []
    split <;> rfl
  rw [e, a3]
  rfl

theorem append_node_height (m : Mem) (hd nn h : Nat) :
    (append_node m hd nn h).m_height hd = m.m_height hd + (h - m.m_height hd) := by
  let m1 := set_next m (m.m_tail hd 0) 0 nn
  let m2 := set_prev m1 nn (m1.m_tail hd 0)
  let m3 := set_next m2 nn 0 hd
  let m4 := set_tail m3 hd 0 nn
  obtain ⟨_, _, _, a4⟩ := append_links_spec hd nn h 1 m4 (le_refl _)
  have e5 : (append_links hd nn h 1 m4).m_height hd = m.m_height hd := by rw [a4]; rfl
  unfold append_node
  simp only []
  split
  · next c =>
    have c' : h > m.m_height hd := by
      have := c
      rw [show (append_links hd nn h 1 (set_tail (set_next (set_prev (set_next m (m.m_tail hd 0)
        0 nn) nn ((set_next m (m.m_tail hd 0) 0 nn).m_tail hd 0)) nn 0 hd) hd 0 nn)).m_height hd
        = m.m_height hd from e5] at this
      exact this
    simp only [setf_same]
    omega
  · next c =>
    have c' : ¬ h > m.m_height hd := by
      intro hc
      apply c
      rw [show (append_links hd nn h 1 (set_tail (set_next (set_prev (set_next m (m.m_tail hd 0)
        0 nn) nn ((set_next m (m.m_tail hd 0) 0 nn).m_tail hd 0)) nn 0 hd) hd 0 nn)).m_height hd
        = m.m_height hd from e5]
      exact hc
    rw [show (append_links hd nn h 1 (set_tail (set_next (set_prev (set_next m (m.m_tail hd 0)
        0 nn) nn ((set_next m (m.m_tail hd 0) 0 nn).m_tail hd 0)) nn 0 hd) hd 0 nn)).m_height hd
        = m.m_height hd from e5]
    omega

theorem below_all (m : Mem) (key : Nat) (ns : List Ptr) (h : ∀ n ∈ ns, m.key n < key) :
    below m key ns = ns ∧ notBelow m key ns = [] := by
  have e1 : below m key ns = ns := by
    have := below_append_of_all m key ns [] h
    rw [List.append_nil] at this
    rw [this]
    exact List.append_nil ns
  refine ⟨e1, ?_⟩
  have e2 := below_append_notBelow m key ns
  rw [e1] at e2
  exact List.append_right_eq_self.1 e2

theorem Inv.length_le {m : Mem} {hd : Ptr} {ch : Nat → List Ptr} (hinv : Inv m hd ch)
    (L : Nat) (hL : L ≤ MAX_ADDITIONAL_LEVELS) : (ch L).length ≤ (ch 0).length := by
  have hnd : (ch L).Nodup := (List.nodup_cons.1 (level_nodup (hinv.levels L hL))).2
  exact (List.subperm_of_subset hnd (fun n hn => hinv.mem_zero L hL n hn)).length_le

/-- The memory after the insertion of a key that is not in the structure. -/
theorem do_insert_new_eq (m : Mem) (hd : Ptr) (ch : Nat → List Ptr) (key : Nat)
    (val : String) (nn h : Nat) (hwf : WellFormed m hd ch)
    (habs : ∀ n ∈ ch 0, m.key n ≠ key) (fuel : Nat)
    (hfuel : ∀ L, L ≤ m.m_height hd → (ch L).length < fuel) :
    do_insert m hd key val nn h fuel =
      some ((nn, true), insert_node (create_node m nn key val) hd nn h (updateOf m hd key ch)) := by
  have hcond : firstNotLess m hd key (ch 0) = hd ∨
      equals (m.key (firstNotLess m hd key (ch 0))) key = false := by
    rcases firstNotLess_mem m hd key (ch 0) with h1 | h1
    · exact Or.inl h1
    · exact Or.inr (equals_false_of_ne _ _ (habs _ h1))
  simp only [do_insert, find_node_returns m hd key ch hwf fuel hfuel, if_pos hcond]

theorem insert_new_inv (m : Mem) (hd : Ptr) (ch : Nat → List Ptr) (key : Nat) (val : String)
    (nn h : Nat) (hinv : Inv m hd ch) (hnn : nn ≠ hd) (hfresh : nn ∉ ch 0)
    (hh : h ≤ MAX_ADDITIONAL_LEVELS) (habs : ∀ n ∈ ch 0, m.key n ≠ key) :
    Inv (insert_node (create_node m nn key val) hd nn h (updateOf m hd key ch)) hd
      (insertedChains m key nn h ch) := by
  obtain ⟨m', a1, a2, _⟩ := do_insert_new m hd ch key val nn h hinv hnn hfresh hh habs
  obtain ⟨N, hN⟩ := exists_fuel ch (m.m_height hd)
  have e1 := a1 N hN
  rw [do_insert_new_eq m hd ch key val nn h hinv.wellFormed habs N hN] at e1
  have : insert_node (create_node m nn key val) hd nn h (updateOf m hd key ch) = m' :=
    congrArg Prod.snd (Option.some.inj e1)
  rw [this]; exact a2

theorem tracks_init (m0 : Mem) (hd : Ptr) : Tracks (init m0 hd) (init m0 hd) hd (fun _ => []) :=
  ⟨init_inv m0 hd, rfl, rfl, rfl, rfl, fun L hL => by
    rw [init_tail, if_pos ⟨rfl, hL⟩]; rfl⟩

/-- One step of the two builds: appending to `mA` and inserting into `mI` an element whose
key is greater than every key present keeps the relation, with the new node at the end of
every chain up to its height. -/
theorem tracks_step (mA mI : Mem) (hd : Ptr) (ch : Nat → List Ptr) (k : Nat) (v : String)
    (nn h : Nat) (ht : Tracks mA mI hd ch) (hnn : nn ≠ hd) (hfresh : nn ∉ ch 0)
    (hh : h ≤ MAX_ADDITIONAL_LEVELS) (hk : ∀ n ∈ ch 0, mI.key n < k) :
    Tracks (do_append mA hd k v nn h).2
      (insert_node (create_node mI nn k v) hd nn h (updateOf mI hd k ch)) hd
      (fun L => if L ≤ h then ch L ++ [nn] else ch L) := by
  have hinv := ht.inv
  have hh' : h ≤ 10 := hh
  have habs : ∀ n ∈ ch 0, mI.key n ≠ k := fun n hn => ne_of_lt (hk n hn)
  have hkL : ∀ L, L ≤ MAX_ADDITIONAL_LEVELS → ∀ n ∈ ch L, mI.key n < k :=
    fun L hL n hn => hk n (hinv.mem_zero L hL n hn)
  have hchains : insertedChains mI k nn h ch = fun L => if L ≤ h then ch L ++ [nn] else ch L := by
    funext L
    unfold insertedChains
    by_cases c : L ≤ h
    · obtain ⟨b1, b2⟩ := below_all mI k (ch L) (hkL L (le_trans c hh))
      rw [if_pos c, if_pos c, b1, b2]
    · rw [if_neg c, if_neg c]
  -- the update entry at each level up to the height of the node is the last node
  have hupd : ∀ L, L ≤ h →
      raised (create_node mI nn k v) hd h (updateOf mI hd k ch) L = lastOr hd (ch L) := by
    intro L hL
    unfold raised
    have hc : (create_node mI nn k v).m_height hd = mI.m_height hd := rfl
    rw [hc]
    by_cases c : mI.m_height hd < L ∧ L ≤ h
    · rw [if_pos c, hinv.above L c.1 (le_trans hL hh)]; rfl
    · rw [if_neg c]
      have hL2 : L ≤ mI.m_height hd := by
        by_contra hcon
        exact c ⟨by omega, hL⟩
      rw [updateOf_spec mI hd k ch L hL2, lastBelow,
        (below_all mI k (ch L) (hkL L (le_trans hL hh))).1]
  have hlast : ∀ L, L ≤ MAX_ADDITIONAL_LEVELS → mI.m_next (lastOr hd (ch L)) L = hd :=
    fun L hL => seg_last (nxt mI L) (ch L) hd hd (hinv.levels L hL).1
  have hne : ∀ L, L ≤ MAX_ADDITIONAL_LEVELS → nn ≠ lastOr hd (ch L) := by
    intro L hL heq
    rcases lastOr_mem (ch L) hd with h1 | h1
    · exact hnn (heq.trans h1)
    · exact hfresh (hinv.mem_zero L hL _ (heq ▸ h1))
  have hnextA : (create_node mA nn k v).m_next = mI.m_next := ht.next_eq
  have htailA : ∀ L, L ≤ MAX_ADDITIONAL_LEVELS →
      (create_node mA nn k v).m_tail hd L = lastOr hd (ch L) := ht.tails
  refine ⟨?_, ?_, ?_, ?_, ?_, ?_⟩
  · rw [← hchains]
    exact insert_new_inv mI hd ch k v nn h hinv hnn hfresh hh habs
  · funext p L
    have e1 := congrFun (append_node_nxt (create_node mA nn k v) hd nn h L) p
    have e2 := congrFun (insert_node_nxt (create_node mI nn k v) hd nn h
      (updateOf mI hd k ch) hh L) p
    show nxt (append_node (create_node mA nn k v) hd nn h) L p = nxt _ L p
    rw [e1, e2]
    by_cases c : L ≤ h
    · have hL : L ≤ MAX_ADDITIONAL_LEVELS := le_trans c hh
      rw [if_pos c, if_pos c, hupd L c, htailA L hL]
      have hl := hlast L hL
      have hn := hne L hL
      have e3 : nxt (create_node mA nn k v) L = nxt mI L := by
        unfold nxt; rw [hnextA]
      have e4 : nxt (create_node mI nn k v) L = nxt mI L := rfl
      rw [e3, e4]
      unfold linkIn
      have e5 : nxt mI L (lastOr hd (ch L)) = hd := hl
      rw [e5]
      by_cases h1 : p = nn
      · subst h1
        simp [setf, hn]
      · by_cases h2 : p = lastOr hd (ch L)
        · have hn' : ¬ lastOr hd (ch L) = nn := fun e => hn e.symm
          simp [setf, h1, h2, hn']
        · simp [setf, h1, h2]
    · rw [if_neg c, if_neg c]
      show (create_node mA nn k v).m_next p L = mI.m_next p L
      rw [hnextA]
  · show (append_node (create_node mA nn k v) hd nn h).key = _
    rw [append_node_key, insert_node_key]
    show setf mA.key nn k = setf mI.key nn k
    rw [ht.key_eq]
  · show (append_node (create_node mA nn k v) hd nn h).m_height hd = _
    rw [append_node_height, insert_node_height]
    show mA.m_height hd + (h - mA.m_height hd) = mI.m_height hd + (h - mI.m_height hd)
    rw [ht.height_eq]
  · show prv (append_node (create_node mA nn k v) hd nn h) = _
    rw [append_node_prv, insert_node_prv, hupd 0 (Nat.zero_le _), htailA 0 (Nat.zero_le _)]
    have e6 : (create_node mI nn k v).m_next (lastOr hd (ch 0)) 0 = hd := hlast 0 (Nat.zero_le _)
    rw [e6]
    have e7 : prv (create_node mA nn k v) = prv mI := ht.prev_eq
    have e8 : prv (create_node mI nn k v) = prv mI := rfl
    rw [e7, e8]
    funext p
    by_cases h1 : p = nn
    · subst h1
      simp [setf, hnn]
    · by_cases h2 : p = hd
      · have hnn' : ¬ hd = nn := fun e => hnn e.symm
        simp [setf, h1, h2, hnn']
      · simp [setf, h1, h2]
  · intro L hL
    show (append_node (create_node mA nn k v) hd nn h).m_tail hd L = _
    rw [append_node_tail]
    by_cases c : L ≤ h
    · rw [if_pos c]
      simp only [if_pos c]
      rw [lastOr_append]; rfl
    · rw [if_neg c]
      simp only [if_neg c]
      exact htailA L hL

/-- The two builds, started from related structures, end in related structures; the
level-0 chain gains the new nodes at its end, in the order of the elements. -/
theorem build_tracks (hd : Ptr) :
    ∀ (items : List Item) (mA mI : Mem) (ch : Nat → List Ptr), Tracks mA mI hd ch →
      (items.map Item.key).Pairwise (· < ·) →
      (∀ it ∈ items, ∀ n ∈ ch 0, mI.key n < it.key) →
      (items.map Item.node).Nodup →
      (∀ it ∈ items, it.node ≠ hd ∧ it.node ∉ ch 0) →
      (∀ it ∈ items, it.height ≤ MAX_ADDITIONAL_LEVELS) →
      ∃ mI' ch',
        (∀ fuel, (ch 0).length + items.length < fuel →
          insert_all hd fuel items mI = some mI') ∧
        Tracks (append_all hd items mA) mI' hd ch' ∧
        ch' 0 = ch 0 ++ items.map Item.node ∧
        (ch' 0).map mI'.key = (ch 0).map mI.key ++ items.map Item.key := by
  intro items
  induction items with
  | nil =>
    intro mA mI ch ht _ _ _ _ _
    refine ⟨mI, ch, fun fuel _ => rfl, ht, ?_, ?_⟩
    · simp
    · simp
  | cons it rest ih =>
    intro mA mI ch ht hkeys hold hnodes hfresh hheights
    have hinv := ht.inv
    have hit := hfresh it (List.mem_cons_self _ _)
    have hh := hheights it (List.mem_cons_self _ _)
    have hk := hold it (List.mem_cons_self _ _)
    have hstep := tracks_step mA mI hd ch it.key it.val it.node it.height ht hit.1 hit.2 hh hk
    have hkeys' := List.pairwise_cons.1 (by simpa using hkeys :
      ((it.key) :: rest.map Item.key).Pairwise (· < ·))
    have hnodes' := List.nodup_cons.1 (by simpa using hnodes :
      ((it.node) :: rest.map Item.node).Nodup)
    have hkeyI : (insert_node (create_node mI it.node it.key it.val) hd it.node it.height
        (updateOf mI hd it.key ch)).key = setf mI.key it.node it.key := by
      rw [insert_node_key]; rfl
    have hch0 : (fun L => if L ≤ it.height then ch L ++ [it.node] else ch L) 0 =
        ch 0 ++ [it.node] := by
      simp only [if_pos (Nat.zero_le _)]
    obtain ⟨mI', ch', b1, b2, b3, b4⟩ := ih (do_append mA hd it.key it.val it.node it.height).2
      (insert_node (create_node mI it.node it.key it.val) hd it.node it.height
        (updateOf mI hd it.key ch))
      (fun L => if L ≤ it.height then ch L ++ [it.node] else ch L) hstep hkeys'.2
      (by
        intro it' hit' n hn
        rw [hch0] at hn
        rw [hkeyI]
        have hlt : it.key < it'.key := hkeys'.1 _ (List.mem_map_of_mem Item.key hit')
        rcases List.mem_append.1 hn with h1 | h1
        · have hne : n ≠ it.node := fun e => hit.2 (e ▸ h1)
          rw [setf_other _ _ _ _ hne]
          exact lt_trans (hk n h1) hlt
        · rw [List.mem_singleton.1 h1, setf_same]
          exact hlt)
      hnodes'.2
      (by
        intro it' hit'
        refine ⟨(hfresh it' (List.mem_cons_of_mem _ hit')).1, ?_⟩
        rw [hch0]
        intro hmem
        rcases List.mem_append.1 hmem with h1 | h1
        · exact (hfresh it' (List.mem_cons_of_mem _ hit')).2 h1
        · exact hnodes'.1 (List.mem_singleton.1 h1 ▸ List.mem_map_of_mem Item.node hit'))
      (fun it' hit' => hheights it' (List.mem_cons_of_mem _ hit'))
    have hch0' : (if 0 ≤ it.height then ch 0 ++ [it.node] else ch 0) = ch 0 ++ [it.node] :=
      if_pos (Nat.zero_le _)
    rw [hch0'] at b1 b3 b4
    refine ⟨mI', ch', ?_, b2, ?_, ?_⟩
    · intro fuel hfuel
      have hfuel' : (ch 0).length + (rest.length + 1) < fuel := hfuel
      have hf : ∀ L, L ≤ mI.m_height hd → (ch L).length < fuel := by
        intro L hL
        have := hinv.length_le L (le_trans hL hinv.height_le)
        omega
      rw [insert_all, do_insert_new_eq mI hd ch it.key it.val it.node it.height hinv.wellFormed
        (fun n hn => ne_of_lt (hk n hn)) fuel hf]
      apply b1 fuel
      rw [List.length_append, List.length_singleton]
      omega
    · rw [b3]; simp
    · rw [b4, hkeyI, List.map_append, List.map_cons, List.map_nil, setf_same,
        List.map_cons, List.append_assoc, List.singleton_append]
      congr 1
      apply List.map_congr_left
      intro n hn
      exact setf_other _ _ _ _ (fun e => hit.2 (e ▸ hn))

/-- The structure `afterFive` is grown with `RAND_MAX = 4` and a random source that returns
0 and then 3: `random_level` draws the height 1. -/
theorem grown_afterFive : Grown 1 4 blank afterFive :=
  Grown.insert (empty 1) 5 "a" 10 (fun i => if i = 0 then 0 else 3) (10, true) afterFive
    Grown.empty (not_linked_of_level (empty 1) 1 [] (by decide) 10 (by decide))
    first_insert_returns

/-! ## The tail pointers above level 0 -/

theorem sameTails_refl (m : Mem) : SameTails m m := fun _ _ _ => rfl

theorem sameTails_trans {a b c : Mem} (h1 : SameTails a b) (h2 : SameTails b c) :
    SameTails a c := fun p L hL => (h1 p L hL).trans (h2 p L hL)

theorem sameTails_of_eq (m' m : Mem) (h : m'.m_tail = m.m_tail) : SameTails m' m :=
  fun p L _ => by rw [h]

/-- The method `remove_node` writes no tail slot other than those of level 0. -/
theorem remove_node_tails (m : Mem) (hd pos : Ptr) (update : Nat → Ptr)
    (hh : m.m_height hd ≤ MAX_ADDITIONAL_LEVELS) :
    SameTails (remove_node m hd pos update) m := by
  intro p L hL0
  let m1 := set_next m (get_prev m pos) 0 (m.m_next pos 0)
  let m2 := set_prev m1 (m1.m_next pos 0) (get_prev m1 pos)
  let m3 := remove_links hd pos update (m2.m_height hd) 1 m2
  have h2 : m2.m_height hd ≤ MAX_ADDITIONAL_LEVELS := hh
  have honly := remove_links_only hd pos update (m2.m_height hd) 1 m2
  have h3 : m3.m_height hd ≤ MAX_ADDITIONAL_LEVELS := by
    show (remove_links hd pos update (m2.m_height hd) 1 m2).m_height hd ≤ _
    rw [honly.2.2.2.2.1]; exact h2
  obtain ⟨h', _, e, _⟩ := shrink_height_spec hd (m3.m_height hd) m3 h3
  have er : remove_node m hd pos update = shrink_height hd (m3.m_height hd) m3 := rfl
  rw [er, e]
  show (remove_links hd pos update (m2.m_height hd) 1 m2).m_tail p L = _
  rw [honly.1]
  simp [m2, m1, set_next, set_prev, set_tail, setf2, hL0]

/-- The method `remove_range` writes no tail slot other than those of level 0. -/
theorem remove_range_tails (m : Mem) (hd first last : Ptr) (u1 u2 : Nat → Ptr) :
    SameTails (remove_range m hd first last u1 u2) m := by
  intro p L hL0
  let m1 := set_prev m last (get_prev m first)
  let m2 := set_next m1 (get_prev m1 first) 0 last
  have er : remove_range m hd first last u1 u2 = range_links u1 u2 (m2.m_height hd) 1 m2 := rfl
  rw [er, (range_links_only u1 u2 (m2.m_height hd) 1 m2).1]
  simp [m2, m1, set_next, set_prev, set_tail, setf2, hL0]

theorem do_insert_tails (m : Mem) (hd : Ptr) (key : Nat) (val : String) (nn h fuel : Nat)
    (r : Ptr × Bool) (m' : Mem) (he : do_insert m hd key val nn h fuel = some (r, m')) :
    SameTails m' m := by
  unfold do_insert at he
  cases hf : find_node m hd key fuel with
  | none => rw [hf] at he; simp at he
  | some pu =>
    obtain ⟨pos, update⟩ := pu
    rw [hf] at he
    simp only at he
    by_cases c : pos = hd ∨ equals (m.key pos) key = false
    · rw [if_pos c] at he
      have e := congrArg Prod.snd (Option.some.inj he)
      simp only at e
      rw [← e]
      intro p L hL0
      rw [insert_node_tail _ hd nn h update p L hL0]
      rfl
    · rw [if_neg c] at he
      have e := congrArg Prod.snd (Option.some.inj he)
      simp only at e
      rw [← e]
      exact sameTails_refl m

theorem remove_key_tails (m : Mem) (hd : Ptr) (key fuel count : Nat) (m' : Mem)
    (hh : m.m_height hd ≤ MAX_ADDITIONAL_LEVELS)
    (he : remove_key m hd key fuel = some (count, m')) : SameTails m' m := by
  unfold remove_key at he
  cases hf : find_node m hd key fuel with
  | none => rw [hf] at he; simp at he
  | some pu =>
    obtain ⟨pos, update⟩ := pu
    rw [hf] at he
    simp only at he
    by_cases c : pos ≠ hd ∧ equals (m.key pos) key = true
    · rw [if_pos c] at he
      have e := congrArg Prod.snd (Option.some.inj he)
      simp only at e
      rw [← e]
      exact sameTails_trans (sameTails_of_eq _ _ rfl) (remove_node_tails m hd pos update hh)
    · rw [if_neg c] at he
      have e := congrArg Prod.snd (Option.some.inj he)
      simp only at e
      rw [← e]
      exact sameTails_refl m

theorem remove_at_tails (m : Mem) (hd node : Ptr) (fuel : Nat) (next : Ptr) (m' : Mem)
    (hh : m.m_height hd ≤ MAX_ADDITIONAL_LEVELS)
    (he : remove_at m hd node fuel = some (next, m')) : SameTails m' m := by
  unfold remove_at at he
  cases hf : find_node m hd (m.key node) fuel with
  | none => rw [hf] at he; simp at he
  | some pu =>
    obtain ⟨pos, update⟩ := pu
    rw [hf] at he
    simp only at he
    by_cases c : equals_node m node pos = true
    · rw [if_pos c] at he
      have e := congrArg Prod.snd (Option.some.inj he)
      simp only at e
      rw [← e]
      exact sameTails_trans (sameTails_of_eq _ _ rfl) (remove_node_tails m hd pos update hh)
    · rw [if_neg c] at he
      have e := congrArg Prod.snd (Option.some.inj he)
      simp only at e
      rw [← e]
      exact sameTails_refl m

theorem remove_span_tails (m : Mem) (hd b e : Ptr) (fuel : Nat) (r : Ptr) (m' : Mem)
    (he : remove_span m hd b e fuel = some (r, m')) : SameTails m' m := by
  unfold remove_span at he
  cases hf : find_node m hd (m.key b) fuel with
  | none => rw [hf] at he; simp at he
  | some pu =>
    obtain ⟨first, u1⟩ := pu
    rw [hf] at he
    simp only at he
    cases hf2 : find_node m hd (m.key e) fuel with
    | none => rw [hf2] at he; simp at he
    | some pu2 =>
      obtain ⟨last, u2⟩ := pu2
      rw [hf2] at he
      simp only at he
      by_cases c : (first = b ∧ last = e) ∨
          (equals_node m b first = true ∧ equals_node m e last = true)
      · rw [if_pos c] at he
        obtain ⟨_, a2, _⟩ := release_loop_links hd last fuel first _ r m' he
        exact sameTails_trans (sameTails_of_eq _ _ a2)
          (remove_range_tails m hd first last u1 u2)
      · rw [if_neg c] at he
        have e := congrArg Prod.snd (Option.some.inj he)
        simp only at e
        rw [← e]
        exact sameTails_refl m

/-- In a structure reached by insertions and removals, the tail pointers of the levels
`1..=MAX_ADDITIONAL_LEVELS` refer to the head, as `init` left them: none of these
operations writes them. -/
theorem reachable_tail_upper (hd : Ptr) (m : Mem) (h : Reachable hd m) :
    ∀ L, 1 ≤ L → L ≤ MAX_ADDITIONAL_LEVELS → m.m_tail hd L = hd := by
  induction h with
  | empty m0 =>
    intro L _ h2
    rw [init_tail, if_pos ⟨rfl, h2⟩]
  | insert m key val nn h r m' _ _ _ hret ih =>
    intro L h1 h2
    obtain ⟨N, hN⟩ := hret
    rw [do_insert_tails m hd key val nn h N r m' (hN N (le_refl _)) hd L (by omega)]
    exact ih L h1 h2
  | remove_key m key count m' hr hret ih =>
    intro L h1 h2
    obtain ⟨ch, hinv⟩ := reachable_inv hd m hr
    obtain ⟨N, hN⟩ := hret
    rw [remove_key_tails m hd key N count m' hinv.height_le (hN N (le_refl _)) hd L (by omega)]
    exact ih L h1 h2
  | remove_at m node next m' hr _ hret ih =>
    intro L h1 h2
    obtain ⟨ch, hinv⟩ := reachable_inv hd m hr
    obtain ⟨N, hN⟩ := hret
    rw [remove_at_tails m hd node N next m' hinv.height_le (hN N (le_refl _)) hd L (by omega)]
    exact ih L h1 h2
  | remove_span m b e r m' _ _ _ _ hret ih =>
    intro L h1 h2
    obtain ⟨N, hN⟩ := hret
    rw [remove_span_tails m hd b e N r m' (hN N (le_refl _)) hd L (by omega)]
    exact ih L h1 h2

/-- The tail slots after the loop of `steal_nodes`: those of the destination head are
copies of the tail pointers of the source. -/
theorem steal_loop_tail (hd rval : Ptr) (hne : hd ≠ rval) (n : Nat) :
    ∀ (i : Nat) (m : Mem) (p L : Nat), (steal_loop hd rval n i m).m_tail p L =
      if p = hd ∧ i ≤ L ∧ L < i + n then m.m_tail rval L else m.m_tail p L := by
  induction n with
  | zero =>
    intro i m p L
    rw [steal_loop, if_neg (by omega)]
  | succ n ih =>
    intro i m p L
    rw [steal_loop, ih]
    have hr : rval ≠ hd := fun e => hne e.symm
    by_cases h1 : p = hd ∧ i + 1 ≤ L ∧ L < i + 1 + n
    · rw [if_pos h1, if_pos ⟨h1.1, by omega, by omega⟩]
      simp [set_next, set_tail, setf2, hr]
    · rw [if_neg h1]
      by_cases h2 : p = hd ∧ L = i
      · obtain ⟨rfl, rfl⟩ := h2
        rw [if_pos ⟨rfl, le_refl _, by omega⟩]
        simp [set_next, set_tail, setf2]
      · have h3 : ¬ (p = hd ∧ i ≤ L ∧ L < i + (n + 1)) := by
          rintro ⟨a, b, c⟩
          by_cases hLi : L = i
          · exact h2 ⟨a, hLi⟩
          · exact h1 ⟨a, by omega, by omega⟩
        rw [if_neg h3]
        simp only [set_next, set_tail, setf2]
        rw [if_neg h2]

/-- After `steal_nodes` the tail pointers of the destination at the levels above 0 are the
tail pointers that the source had. -/
theorem steal_nodes_tail_upper (m : Mem) (hd rval : Ptr) (hne : hd ≠ rval) (L : Nat)
    (h1 : 1 ≤ L) (h2 : L ≤ MAX_ADDITIONAL_LEVELS) :
    (steal_nodes m hd rval).m_tail hd L = m.m_tail rval L := by
  have h2' : L ≤ 10 := h2
  unfold steal_nodes
  simp only []
  rw [init_tail, if_neg (fun c => hne c.1)]
  have hL0 : L ≠ 0 := by omega
  have e : ∀ (a : Mem) (q v : Nat), (set_prev a q v).m_tail hd L = a.m_tail hd L := by
    intro a q v
    simp [set_prev, set_tail, setf2, hL0]
  rw [e, steal_loop_tail hd rval hne, if_pos ⟨rfl, Nat.zero_le _, by omega⟩]

/-- Stealing from a structure reached by insertions and removals leaves the tail pointers
of the destination at the levels `1..=MAX_ADDITIONAL_LEVELS` on the head of the source. -/
theorem steal_keeps_source_tail (hdA hdB : Ptr) (m : Mem) (hr : Reachable hdA m)
    (hne : hdB ≠ hdA) (L : Nat) (h1 : 1 ≤ L) (h2 : L ≤ MAX_ADDITIONAL_LEVELS) :
    (steal_nodes (init m hdB) hdB hdA).m_tail hdB L = hdA := by
  rw [steal_nodes_tail_upper _ hdB hdA hne L h1 h2, init_tail,
    if_neg (fun c => hne c.1.symm)]
  exact reachable_tail_upper hdA m hr L h1 h2

/-! ## The order of the keys on valid arguments -/

/-- The order of the keys on valid arguments: in every structure reached from the empty one
by insertions and by removals by key, of a live node, and of a span between two live nodes
of which the first is not after the second, the level-0 traversal from the sentinel yields
strictly increasing keys, so no key twice. -/
theorem traversal_strictly_increasing (hd : Ptr) (m : Mem) (hr : Reachable hd m) :
    ∃ ks, Returns (traverse_keys m hd) ks ∧ ks.Pairwise (· < ·) ∧ ks.Nodup := by
  obtain ⟨ch, hinv⟩ := reachable_inv hd m hr
  have hlev0 := hinv.levels 0 (Nat.zero_le _)
  have hs := keys_sorted_of_level m hd 0 (ch 0) hlev0
  exact ⟨_, traverse_keys_returns m hd (ch 0) hlev0, hs,
    hs.imp (fun {a b} hab heq => by rw [heq] at hab; exact lt_irrefl _ hab)⟩

/-- The order of the keys at the structure holding the keys 1 and 5. -/
theorem traversal_strictly_increasing_witness :
    Reachable 1 afterFiveOne ∧
    ∃ ks, Returns (traverse_keys afterFiveOne 1) ks ∧ ks.Pairwise (· < ·) ∧ ks.Nodup :=
  ⟨built_reachable 1 afterFiveOne built_afterFiveOne,
    traversal_strictly_increasing 1 afterFiveOne
      (built_reachable 1 afterFiveOne built_afterFiveOne)⟩

/-! # The claims -/

/-- C1 (as amended): on every well-formed structure, where each level's forward chain from
the sentinel is strictly increasing by key, returns to the sentinel and visits only nodes
of the level below, `find_node` returns the first node in level-0 order whose key is not
less than the target, and the sentinel when there is none. -/
theorem find_node_first_not_less (m : Mem) (hd : Ptr) (ch : Nat → List Ptr) (key : Nat)
    (hwf : WellFormed m hd ch) :
    Returns (traverse m hd) (ch 0) ∧
    Returns (fun fuel => (find_node m hd key fuel).map Prod.fst)
      (((ch 0).find? (fun n => !less (m.key n) key)).getD hd) ∧
    ((∀ n ∈ ch 0, less (m.key n) key = true) →
      Returns (fun fuel => (find_node m hd key fuel).map Prod.fst) hd) := by
  have hret : Returns (fun fuel => (find_node m hd key fuel).map Prod.fst)
      (firstNotLess m hd key (ch 0)) :=
    returns_of_fuel _ _ ch (m.m_height hd) (fun fuel hf => by
      show (find_node m hd key fuel).map Prod.fst = _
      rw [find_node_returns m hd key ch hwf fuel hf]; rfl)
  refine ⟨traverse_returns m hd (ch 0) (hwf.levels 0 (Nat.zero_le _)), hret, ?_⟩
  intro hall
  have : List.find? (fun n => !less (m.key n) key) (ch 0) = none := by
    rw [List.find?_eq_none]
    intro x hx
    simp [hall x hx]
  have e : firstNotLess m hd key (ch 0) = hd := by simp [firstNotLess, this]
  rw [e] at hret
  exact hret

/-- C1 (as amended), at the structure holding the keys 1 and 5 (nodes 11 and 10): the
search for 3 returns node 10, the node of key 5. -/
theorem find_node_first_not_less_witness :
    Returns (traverse afterFiveOne 1) [11, 10] ∧
    Returns (fun fuel => (find_node afterFiveOne 1 3 fuel).map Prod.fst) 10 ∧
    ((∀ n ∈ [11, 10], less (afterFiveOne.key n) 3 = true) →
      Returns (fun fuel => (find_node afterFiveOne 1 3 fuel).map Prod.fst) 1) :=
  find_node_first_not_less afterFiveOne 1 afterFiveOneChains 3 wellFormed_afterFiveOne

/-- C1 as stated fails: in the structure `unnested` every level's forward chain from the
sentinel is strictly increasing and returns to the sentinel, the first node in level-0
order whose key is not less than 7 is node 2 (key 10), and `find_node` never returns it (it
returns the sentinel, address 1). -/
theorem find_node_unnested_counterexample :
    ChainsSorted unnested 1 unnestedChains ∧
    traverse unnested 1 2 = some (unnestedChains 0) ∧
    ((unnestedChains 0).find? (fun n => !less (unnested.key n) 7)).getD 1 = 2 ∧
    (find_node unnested 1 7 2).map Prod.fst = some 1 ∧
    ∀ fuel, (find_node unnested 1 7 fuel).map Prod.fst ≠ some 2 := by
  refine ⟨⟨by decide, ?_⟩, by decide, by decide, by decide, ?_⟩
  · intro L hL
    have h1 : unnested.m_height 1 = 1 := by decide
    rw [h1] at hL
    interval_cases L
    · decide
    · decide
  · intro fuel
    match fuel with
    | 0 => decide
    | 1 => decide
    | fuel + 2 =>
      have h1 : unnested.m_height 1 = 1 := by decide
      have e1 : get_next unnested 1 1 = 3 := by decide
      have e2 : get_next unnested 3 1 = 1 := by decide
      have e3 : get_next unnested 3 0 = 1 := by decide
      have e4 : unnested.key 3 = 5 := by decide
      have e5 : unnested.m_next 3 0 = 1 := by decide
      simp [find_node, find_loop, find_walk, h1, e1, e2, e3, e4, e5, less]

/-- C2: on every well-formed structure, for every key that is not present and every node
height in `[0, MAX_ADDITIONAL_LEVELS]`, `do_insert` returns (new node, true) and afterwards
the level-0 traversal is the previous one with the key added at its sorted position.  The
new node is where the allocator puts it: not at the sentinel, not at a node of the
structure. -/
theorem do_insert_adds_key (m : Mem) (hd : Ptr) (ch : Nat → List Ptr) (key : Nat)
    (val : String) (new_node node_height : Nat) (hwf : WellFormed m hd ch)
    (habsent : ∀ n ∈ ch 0, m.key n ≠ key)
    (hnew : new_node ≠ hd ∧ new_node ∉ ch 0)
    (hheight : node_height ≤ MAX_ADDITIONAL_LEVELS) :
    ∃ m', Returns (traverse_keys m hd) ((ch 0).map m.key) ∧
      Returns (do_insert m hd key val new_node node_height) ((new_node, true), m') ∧
      Returns (traverse_keys m' hd) (List.orderedInsert (· ≤ ·) key ((ch 0).map m.key)) := by
  obtain ⟨m', h1, h2, h3⟩ := do_insert_level0 m hd ch key val new_node node_height hwf
    hnew.1 hnew.2 hheight habsent
  refine ⟨m', traverse_keys_returns m hd (ch 0) (hwf.levels 0 (Nat.zero_le _)),
    returns_of_fuel _ _ ch (m.m_height hd) h1, ?_⟩
  have := traverse_keys_returns m' hd _ h2
  rw [h3, map_key_inserted m key new_node (ch 0) hnew.2] at this
  exact this

/-- C2, scenario 1: after the insertions of 5 and 1, inserting 3 yields 1, 3, 5. -/
theorem do_insert_adds_key_witness :
    ∃ m', Returns (traverse_keys afterFiveOne 1) [1, 5] ∧
      Returns (do_insert afterFiveOne 1 3 "" 12 1) ((12, true), m') ∧
      Returns (traverse_keys m' 1) [1, 3, 5] :=
  do_insert_adds_key afterFiveOne 1 afterFiveOneChains 3 "" 12 1 wellFormed_afterFiveOne
    (by decide) (by decide) (by decide)

/-- C3: on every well-formed structure that holds a node whose key is neither less nor
greater than the key, `do_insert` returns (that node, false) and the memory is unchanged:
no node is created, no link, height, length or stored value changes. -/
theorem do_insert_duplicate_noop (m : Mem) (hd : Ptr) (ch : Nat → List Ptr) (key : Nat)
    (val : String) (new_node node_height : Nat) (hwf : WellFormed m hd ch) (n : Ptr)
    (hn : n ∈ ch 0)
    (hequal : less (m.key n) key = false ∧ greater (m.key n) key = false) :
    Returns (do_insert m hd key val new_node node_height) ((n, false), m) :=
  returns_of_fuel _ _ ch (m.m_height hd) (fun fuel hf =>
    do_insert_old m hd ch key val new_node node_height hwf n hn
      (by simp [equals, hequal.1, hequal.2]) fuel hf)

/-- C3, scenario 2: key 5 is held with value "a"; inserting 5 with "b" reports the node
of "a" and changes nothing. -/
theorem do_insert_duplicate_noop_witness :
    afterFive.val 10 = "a" ∧
    Returns (do_insert afterFive 1 5 "b" 11 0) ((10, false), afterFive) :=
  ⟨by decide, do_insert_duplicate_noop afterFive 1 afterFiveChains 5 "b" 11 0
    wellFormed_afterFive 10 (by decide) (by decide)⟩

/-- C4: in every structure built from the empty one by insertions, `remove_node(key)` of a
present key returns 1, the level-0 traversal afterwards is the previous one without the key,
and at no level does a link met from the sentinel refer to the removed node; for an absent
key it returns 0 and leaves the memory unchanged. -/
theorem remove_key_removes (hd : Ptr) (m : Mem) (key : Nat) (hb : Built hd m) :
    ∃ ns, Returns (traverse m hd) ns ∧
      (∀ nod ∈ ns, m.key nod = key →
        ∃ m', Returns (remove_key m hd key) (1, m') ∧
          Returns (traverse_keys m' hd) ((ns.map m.key).filter (fun k => k ≠ key)) ∧
          ∀ L, L ≤ MAX_ADDITIONAL_LEVELS → ∀ p, Linked m' hd L p → m'.m_next p L ≠ nod) ∧
      ((∀ nod ∈ ns, m.key nod ≠ key) → Returns (remove_key m hd key) (0, m)) := by
  obtain ⟨ch, hinv⟩ := built_inv hd m hb
  have hlev0 := hinv.levels 0 (Nat.zero_le _)
  refine ⟨ch 0, traverse_returns m hd (ch 0) hlev0, ?_, ?_⟩
  · intro nod hnod hkey
    subst hkey
    obtain ⟨m', a1, a2, a3, _⟩ := remove_key_present m hd ch nod hinv hnod
    refine ⟨m', returns_of_fuel _ _ ch (m.m_height hd) a1, ?_, ?_⟩
    · have := traverse_keys_returns m' hd _ (a2.levels 0 (Nat.zero_le _))
      rw [a3, map_key_without_one] at this
      exact this
    · intro L hL p hp
      apply linked_next_ne m' hd _ a2 L hL p hp
      intro hmem
      rcases List.mem_cons.1 hmem with h | h
      · exact hlev0.2.1 (h ▸ hnod)
      · have := ((mem_without m _ _ (ch L) nod).1 h).2
        omega
  · intro habs
    exact returns_of_fuel _ _ ch (m.m_height hd) (fun fuel hf =>
      remove_key_absent m hd ch key hinv.wellFormed habs fuel hf)

/-- C4, at the structure holding the keys 1 and 5, for the key 5. -/
theorem remove_key_removes_witness :
    Built 1 afterFiveOne ∧
    ∃ ns, Returns (traverse afterFiveOne 1) ns ∧
      (∀ nod ∈ ns, afterFiveOne.key nod = 5 →
        ∃ m', Returns (remove_key afterFiveOne 1 5) (1, m') ∧
          Returns (traverse_keys m' 1) ((ns.map afterFiveOne.key).filter (fun k => k ≠ 5)) ∧
          ∀ L, L ≤ MAX_ADDITIONAL_LEVELS → ∀ p, Linked m' 1 L p → m'.m_next p L ≠ nod) ∧
      ((∀ nod ∈ ns, afterFiveOne.key nod ≠ 5) → Returns (remove_key afterFiveOne 1 5) (0, afterFiveOne)) :=
  ⟨built_afterFiveOne, remove_key_removes 1 afterFiveOne 5 built_afterFiveOne⟩

/-- C5: in every structure built from the empty one by insertions, for two of its nodes
`begin` and `end` with `begin` not after `end` in key order, `remove_range(begin, end)`
returns `end`, and afterwards the level-0 traversal is the previous one without the keys
`k` with `key(begin) <= k < key(end)`. -/
theorem remove_span_removes_range (hd : Ptr) (m : Mem) (begin_ end_ : Ptr)
    (hb : Built hd m) (hbegin : Live m hd begin_) (hend : Live m hd end_)
    (horder : m.key begin_ ≤ m.key end_) :
    ∃ ns m', Returns (traverse m hd) ns ∧
      Returns (remove_span m hd begin_ end_) (end_, m') ∧
      Returns (traverse_keys m' hd)
        ((ns.map m.key).filter (fun k => ¬ (m.key begin_ ≤ k ∧ k < m.key end_))) := by
  obtain ⟨ch, hinv⟩ := built_inv hd m hb
  have hlev0 := hinv.levels 0 (Nat.zero_le _)
  have h1 := (live_iff m hd (ch 0) hlev0 begin_).1 hbegin
  have h2 := (live_iff m hd (ch 0) hlev0 end_).1 hend
  obtain ⟨m', a1, a2, a3, _⟩ := remove_span_valid m hd ch begin_ end_ hinv h1 h2 horder
  refine ⟨ch 0, m', traverse_returns m hd (ch 0) hlev0,
    returns_of_fuel _ _ ch (m.m_height hd) a1, ?_⟩
  have := traverse_keys_returns m' hd _ (a2.levels 0 (Nat.zero_le _))
  rw [a3, map_key_without] at this
  have e : (List.map m.key (ch 0)).filter
      (fun x => !(decide (m.key begin_ ≤ x) && decide (x < m.key end_))) =
      (List.map m.key (ch 0)).filter (fun k => ¬ (m.key begin_ ≤ k ∧ k < m.key end_)) := by
    apply List.filter_congr
    intro x _
    by_cases c1 : m.key begin_ ≤ x <;> by_cases c2 : x < m.key end_ <;> simp [c1, c2]
  rw [e] at this
  exact this

/-- C5, at the structure holding the keys 1 and 5: removing the span from the node of 1 to
the node of 5 returns the node of 5. -/
theorem remove_span_removes_range_witness :
    Built 1 afterFiveOne ∧ Live afterFiveOne 1 11 ∧ Live afterFiveOne 1 10 ∧
    afterFiveOne.key 11 ≤ afterFiveOne.key 10 ∧
    ∃ ns m', Returns (traverse afterFiveOne 1) ns ∧
      Returns (remove_span afterFiveOne 1 11 10) (10, m') ∧
      Returns (traverse_keys m' 1) ((ns.map afterFiveOne.key).filter
        (fun k => ¬ (afterFiveOne.key 11 ≤ k ∧ k < afterFiveOne.key 10))) :=
  ⟨built_afterFiveOne, live_afterFiveOne_11, live_afterFiveOne_10, by decide,
    remove_span_removes_range 1 afterFiveOne 11 10 built_afterFiveOne live_afterFiveOne_11
      live_afterFiveOne_10 (by decide)⟩

/-- C6 fails on the code: the sequence insert key 5, insert key 1, `remove_range(node of 5,
node of 1)` is made of insertions and of a removal by range between two live nodes; the
traversal before the removal yields the keys 1, 5.  The removal returns, and afterwards the
level-0 forward link of the sentinel leads to node 11 (key 1) and the link of node 11 leads
to node 11 again: the traversal from the sentinel yields the key 1 over and over, and never
returns to the sentinel. -/
theorem traversal_after_reversed_span :
    Reachable 1 afterFiveOne ∧ Live afterFiveOne 1 10 ∧ Live afterFiveOne 1 11 ∧
    traverse_keys afterFiveOne 1 4 = some [1, 5] ∧
    (remove_span afterFiveOne 1 10 11 4).isSome = true ∧
    afterReversedSpan.m_next 1 0 = 11 ∧ afterReversedSpan.key 11 = 1 ∧
    afterReversedSpan.key (afterReversedSpan.m_next 11 0) = 1 ∧
    afterReversedSpan.m_next 11 0 ≠ 1 ∧
    ∀ fuel, traverse_keys afterReversedSpan 1 fuel = none := by
  refine ⟨built_reachable 1 afterFiveOne built_afterFiveOne, live_afterFiveOne_10,
    live_afterFiveOne_11, by decide, by decide, by decide, by decide, by decide, by decide, ?_⟩
  intro fuel
  have e1 : afterReversedSpan.m_next 1 0 = 11 := by decide
  unfold traverse_keys traverse
  rw [e1, walk_self_loop afterReversedSpan 1 11 (by decide) (by decide) fuel]
  rfl

/-- C7 fails on the code: `do_insert` never changes `m_length`.  After inserting key 5 into
the empty structure the traversal meets one node and the length is still 0; and after
`remove_range` has released the one node of `[10, 11)` in a structure of two nodes, the
length, decremented from 0, is 2^64 - 1 while one node is left. -/
theorem length_not_counted :
    (do_insert (empty 1) 1 5 "a" 10 1 4).map
      (fun r => (r.1, r.2.m_length 1, traverse r.2 1 4)) = some ((10, true), 0, some [10]) ∧
    afterOneTwo.m_length 1 = 0 ∧ traverse afterOneTwo 1 4 = some [10, 11] ∧
    (remove_span afterOneTwo 1 10 11 4).map
      (fun r => (r.1, r.2.m_length 1, traverse r.2 1 4)) =
        some (11, 18446744073709551615, some [11]) := by
  decide

/-- C8 fails on the code: after append 1 (height 1), remove 1, append 2, append 5 (height
2), append 9, remove 5, insert 7, the traversal meets the nodes 11 and 13 (keys 2 and 9),
node 11 is not the last one, its forward link leads to 13, and the backward link of 13
leads to 14, the node of key 7 that the traversal does not meet. -/
theorem append_after_remove_breaks_symmetry :
    traverse afterStaleTail 1 4 = some [11, 13] ∧
    traverse_keys afterStaleTail 1 4 = some [2, 9] ∧
    afterStaleTail.m_next 11 0 = 13 ∧
    get_prev afterStaleTail (afterStaleTail.m_next 11 0) = 14 ∧
    afterStaleTail.key 14 = 7 := by
  decide

/-- C9 fails on the code: `remove_range` does not shrink the height.  After inserting key
1 with height 2 and key 2 with height 0 and removing the span `[1, 2)`, the height is
still 2 although only the node of key 2 is left, which takes part in level 0 only: the
sentinel's links of levels 1 and 2 refer to the sentinel. -/
theorem remove_span_keeps_height :
    (remove_span afterOneTwo 1 10 11 4).map Prod.fst = some 11 ∧
    traverse afterOneTwoCut 1 4 = some [11] ∧
    afterOneTwoCut.m_next 1 1 = 1 ∧ afterOneTwoCut.m_next 1 2 = 1 ∧
    afterOneTwoCut.m_height 1 = 2 := by
  decide

/-- C11, append is not a semantic difference from general insertion: for elements with
strictly increasing keys, with node heights in `[0, MAX_ADDITIONAL_LEVELS]`, at distinct
node addresses other than the head, building from the empty structure with `do_append` only
and building with `do_insert` (`find_node` + `insert_node`) only, which returns, give the
same level-0 traversal (the nodes of the elements in their order, carrying their keys), the
same forward links at every level and the same height. -/
theorem append_all_matches_insert_all (hd : Ptr) (m0 : Mem) (items : List Item)
    (hkeys : (items.map Item.key).Pairwise (· < ·))
    (hnodes : (hd :: items.map Item.node).Nodup)
    (hheights : ∀ it ∈ items, it.height ≤ MAX_ADDITIONAL_LEVELS) :
    ∃ mI, Returns (fun fuel => insert_all hd fuel items (init m0 hd)) mI ∧
      Returns (traverse (append_all hd items (init m0 hd)) hd) (items.map Item.node) ∧
      Returns (traverse mI hd) (items.map Item.node) ∧
      Returns (traverse_keys (append_all hd items (init m0 hd)) hd) (items.map Item.key) ∧
      Returns (traverse_keys mI hd) (items.map Item.key) ∧
      (append_all hd items (init m0 hd)).m_next = mI.m_next ∧
      (append_all hd items (init m0 hd)).m_height hd = mI.m_height hd := by
  have hnd := List.nodup_cons.1 hnodes
  obtain ⟨mI, ch, b1, b2, b3, b4⟩ := build_tracks hd items (init m0 hd) (init m0 hd)
    (fun _ => []) (tracks_init m0 hd) hkeys (fun _ _ n hn => absurd hn (List.not_mem_nil n))
    hnd.2
    (fun it hit => ⟨fun e => hnd.1 (e ▸ List.mem_map_of_mem Item.node hit),
      List.not_mem_nil _⟩)
    hheights
  rw [List.nil_append] at b3
  rw [List.map_nil, List.nil_append] at b4
  have hlevI : Level mI hd 0 (ch 0) := b2.inv.levels 0 (Nat.zero_le _)
  have hlevA : Level (append_all hd items (init m0 hd)) hd 0 (ch 0) :=
    (level_congr mI _ hd 0 (ch 0) (by unfold nxt; rw [b2.next_eq]) b2.key_eq).2 hlevI
  have kA := traverse_keys_returns _ hd (ch 0) hlevA
  have kI := traverse_keys_returns mI hd (ch 0) hlevI
  rw [b2.key_eq, b4] at kA
  rw [b4] at kI
  refine ⟨mI, ⟨items.length + 1, fun fuel hf => b1 fuel (by simpa using hf)⟩, ?_, ?_, kA, kI,
    b2.next_eq, b2.height_eq⟩
  · rw [← b3]; exact traverse_returns _ hd (ch 0) hlevA
  · rw [← b3]; exact traverse_returns mI hd (ch 0) hlevI

/-- C11, for the keys 1, 2, 3, 4 at the nodes 10, 11, 12, 13 with the heights 2, 0, 1, 3:
appending them equals inserting them. -/
theorem append_all_matches_insert_all_witness :
    ∃ mI, Returns (fun fuel => insert_all 1 fuel fourItems (empty 1)) mI ∧
      Returns (traverse (append_all 1 fourItems (empty 1)) 1) [10, 11, 12, 13] ∧
      Returns (traverse mI 1) [10, 11, 12, 13] ∧
      Returns (traverse_keys (append_all 1 fourItems (empty 1)) 1) [1, 2, 3, 4] ∧
      Returns (traverse_keys mI 1) [1, 2, 3, 4] ∧
      (append_all 1 fourItems (empty 1)).m_next = mI.m_next ∧
      (append_all 1 fourItems (empty 1)).m_height 1 = mI.m_height 1 :=
  append_all_matches_insert_all 1 blank fourItems (by decide) (by decide) (by decide)

/-- C12, idempotent removal: in a structure built from the empty structure by insertions,
removing the key of a live node returns the count 1, and removing the same key again right
after returns 0 (and changes nothing). -/
theorem remove_key_twice (hd : Ptr) (m : Mem) (k : Nat) (nod : Ptr) (hb : Built hd m)
    (hlive : Live m hd nod) (hk : m.key nod = k) :
    ∃ m', Returns (remove_key m hd k) (1, m') ∧ Returns (remove_key m' hd k) (0, m') := by
  obtain ⟨ch, hinv⟩ := built_inv hd m hb
  have hn := (live_iff m hd (ch 0) (hinv.levels 0 (Nat.zero_le _)) nod).1 hlive
  subst hk
  obtain ⟨m', a1, a2, a3, _⟩ := remove_key_present m hd ch nod hinv hn
  refine ⟨m', returns_of_fuel _ _ ch (m.m_height hd) a1, ?_⟩
  apply returns_of_fuel _ _ (fun L => without m (m.key nod) (m.key nod + 1) (ch L))
    (m'.m_height hd)
  intro fuel hf
  apply remove_key_absent m' hd _ (m.key nod) a2.wellFormed _ fuel hf
  intro n hn' heq
  have h1 := ((mem_without m (m.key nod) (m.key nod + 1) (ch 0) n).1 hn').2
  rw [a3] at heq
  exact h1 ⟨by omega, by omega⟩

/-- C12, at the structure holding the keys 1 and 5, for the key 5. -/
theorem remove_key_twice_witness :
    Built 1 afterFiveOne ∧ Live afterFiveOne 1 10 ∧ afterFiveOne.key 10 = 5 ∧
    ∃ m', Returns (remove_key afterFiveOne 1 5) (1, m') ∧ Returns (remove_key m' 1 5) (0, m') :=
  ⟨built_afterFiveOne, live_afterFiveOne_10, by decide,
    remove_key_twice 1 afterFiveOne 5 10 built_afterFiveOne live_afterFiveOne_10 (by decide)⟩

/-- C13 fails on the code, in the stale case in which the search lands on the sentinel: the
code compares the reference with the sentinel by `equals`, which reads a key from the
sentinel.  In the empty structure with head 1, for the node 10 that is not in the structure
and whose key is the value read from the sentinel, `remove_node(node*)` does not return 10
with the memory unchanged: it unlinks and releases the sentinel and returns it. -/
theorem remove_at_stale_releases_sentinel :
    traverse staleAtSentinel 1 1 = some [] ∧
    staleAtSentinel.key 10 = 1 ∧
    (find_node staleAtSentinel 1 (staleAtSentinel.key 10) 1).map Prod.fst = some 1 ∧
    staleAtSentinel.key 1 = staleAtSentinel.m_tail 1 1 ∧
    equals_node staleAtSentinel 10 1 = true ∧
    (remove_at staleAtSentinel 1 10 1).map (fun r => (r.1, r.2.released)) = some (1, [1]) := by
  decide

/-- C15 fails on the code: in the structure with key 1 at node 11 and key 5 at node 10,
`remove_range(10, 11)` (the end strictly precedes the beginning) does not return 10 with the
memory unchanged: it returns 11, releases node 10 and the sentinel 1, and leaves node 11
linked to itself at level 0, so that the traversal from the sentinel never ends. -/
theorem remove_span_reversed_corrupts :
    traverse afterFiveOne 1 4 = some [11, 10] ∧
    afterFiveOne.key 11 = 1 ∧ afterFiveOne.key 10 = 5 ∧
    (remove_span afterFiveOne 1 10 11 4).map Prod.fst = some 11 ∧
    afterReversedSpan.released = [1, 10] ∧
    afterReversedSpan.m_next 1 0 = 11 ∧ afterReversedSpan.m_next 11 0 = 11 ∧
    ∀ fuel, traverse afterReversedSpan 1 fuel = none := by
  refine ⟨by decide, by decide, by decide, by decide, by decide, by decide, by decide, ?_⟩
  intro fuel
  have e1 : afterReversedSpan.m_next 1 0 = 11 := by decide
  unfold traverse
  rw [e1]
  exact walk_self_loop afterReversedSpan 1 11 (by decide) (by decide) fuel

/-- C16 fails on the code above level 0.  After inserting key 5 with height 1,
`truncate_tail` at its node returns the sentinel and empties level 0, but the sentinel's
level-1 link still leads to the released node.  After inserting keys 1 and 2 with height 1,
`truncate_tail` at the node of key 2 returns the sentinel and leaves the traversal `[1]`,
but at level 1 the node of key 1 is linked to itself, so the level-1 chain does not return
to the sentinel. -/
theorem truncate_tail_breaks_upper_levels :
    traverse afterFive 1 4 = some [10] ∧
    (truncate_tail afterFive 1 10 4).map Prod.fst = some 1 ∧
    traverse afterFiveCut 1 4 = some [] ∧
    afterFiveCut.released = [10] ∧ afterFiveCut.m_height 1 = 1 ∧
    afterFiveCut.m_next 1 1 = 10 ∧
    traverse afterTwoTall 1 4 = some [10, 11] ∧
    (truncate_tail afterTwoTall 1 11 4).map Prod.fst = some 1 ∧
    traverse_keys afterTwoTallCut 1 4 = some [1] ∧
    afterTwoTallCut.m_height 1 = 1 ∧
    afterTwoTallCut.m_next 1 1 = 10 ∧ afterTwoTallCut.m_next 10 1 = 10 := by
  decide

/-- C17, hard ceiling: whatever values the random source returns, `random_level` returns a
height of at most `MAX_ADDITIONAL_LEVELS` (and its loop has ended: the loop condition is
false at the value returned); in every structure grown from the empty structure by
insertions with such heights and by removals, the height field is at most
`MAX_ADDITIONAL_LEVELS`, and every link slot and tail slot of a level above
`MAX_ADDITIONAL_LEVELS` still holds what it held before the structure was made: none was
written. -/
theorem height_ceiling (hd : Ptr) (RAND_MAX : Nat) (rand : Nat → Nat) (m0 m : Mem)
    (hg : Grown hd RAND_MAX m0 m) :
    random_level RAND_MAX rand ≤ MAX_ADDITIONAL_LEVELS ∧
    ¬ (random_level RAND_MAX rand < MAX_ADDITIONAL_LEVELS ∧
      rand (random_level RAND_MAX rand) < RAND_MAX / 2) ∧
    m.m_height hd ≤ MAX_ADDITIONAL_LEVELS ∧
    ∀ p L, MAX_ADDITIONAL_LEVELS < L →
      m.m_next p L = m0.m_next p L ∧ m.m_tail p L = m0.m_tail p L := by
  obtain ⟨ch, hinv⟩ := reachable_inv hd m (grown_reachable hd RAND_MAX m0 m hg)
  exact ⟨random_level_le RAND_MAX rand,
    random_loop_exit RAND_MAX rand _ 0 (by decide), hinv.height_le,
    grown_above hd RAND_MAX m0 m hg⟩

/-- C17, at the structure holding the key 5, grown with `RAND_MAX = 4`, and for the random
source that always returns 0 (every round of the loop succeeds). -/
theorem height_ceiling_witness :
    Grown 1 4 blank afterFive ∧
    random_level 4 (fun _ => 0) ≤ MAX_ADDITIONAL_LEVELS ∧
    ¬ (random_level 4 (fun _ => 0) < MAX_ADDITIONAL_LEVELS ∧
      (fun _ => 0) (random_level 4 (fun _ => 0)) < 4 / 2) ∧
    afterFive.m_height 1 ≤ MAX_ADDITIONAL_LEVELS ∧
    ∀ p L, MAX_ADDITIONAL_LEVELS < L →
      afterFive.m_next p L = blank.m_next p L ∧ afterFive.m_tail p L = blank.m_tail p L :=
  ⟨grown_afterFive, height_ceiling 1 4 (fun _ => 0) blank afterFive grown_afterFive⟩

/-- C18, update array: in a well-formed structure the search for a key returns, and it
leaves in every entry `update[L]`, `L` in `0..=height`, the last node of the level-`L` chain
whose key is strictly less than the target, or the sentinel when there is none; the node it
returns is the level-0 successor of `update[0]`. -/
theorem find_node_update_array (m : Mem) (hd : Ptr) (ch : Nat → List Ptr) (key : Nat)
    (hwf : WellFormed m hd ch) :
    ∃ pos update, Returns (find_node m hd key) (pos, update) ∧
      (∀ L, L ≤ m.m_height hd →
        update L = (((ch L).filter (fun n => less (m.key n) key)).getLast?).getD hd) ∧
      pos = m.m_next (update 0) 0 := by
  refine ⟨firstNotLess m hd key (ch 0), updateOf m hd key ch,
    returns_of_fuel _ _ ch (m.m_height hd)
      (fun fuel hf => find_node_returns m hd key ch hwf fuel hf), ?_, ?_⟩
  · intro L hL
    rw [updateOf_spec m hd key ch L hL, lastBelow, lastOr_eq_getLast,
      below_eq_filter m key (ch L) (hwf.levels L hL).2.2]
  · rw [updateOf_spec m hd key ch 0 (Nat.zero_le _)]
    exact (next_lastBelow m hd key 0 (ch 0) (hwf.levels 0 (Nat.zero_le _)).1).symm

/-- C18, at the structure holding the keys 1 and 5, for the target 3. -/
theorem find_node_update_array_witness :
    ∃ pos update, Returns (find_node afterFiveOne 1 3) (pos, update) ∧
      (∀ L, L ≤ afterFiveOne.m_height 1 →
        update L = (((afterFiveOneChains L).filter
          (fun n => less (afterFiveOne.key n) 3)).getLast?).getD 1) ∧
      pos = afterFiveOne.m_next (update 0) 0 :=
  find_node_update_array afterFiveOne 1 afterFiveOneChains 3 wellFormed_afterFiveOne

/-- C19 fails on the code when insertion and append are mixed: after inserting key 1 with
height 1 (node 10) the level-1 chain is `[10]`; appending key 2 with height 1 (node 11) then
leaves the level-1 chain `[11]`, although both nodes are live and were created with
height 1. -/
theorem append_after_insert_drops_level :
    Level (memOf (do_insert (empty 1) 1 1 "" 10 1 4)) 1 1 [10] ∧
    traverse afterInsertAppend 1 4 = some [10, 11] ∧
    traverse_keys afterInsertAppend 1 4 = some [1, 2] ∧
    afterInsertAppend.m_height 1 = 1 ∧
    Level afterInsertAppend 1 1 [11] ∧
    afterInsertAppend.m_next 1 1 = 11 ∧ afterInsertAppend.m_next 11 1 = 1 := by
  decide

/-- C20 fails on the code: after inserting key 5 with height 1 (node 10) into the
empty structure with head 1, node 10 is the last (and only) node of level 1, but the
sentinel's tail pointer of level 1 still refers to the sentinel; only the tail pointer of
level 0 was advanced. -/
theorem insert_node_leaves_tail :
    Level afterFive 1 0 [10] ∧ Level afterFive 1 1 [10] ∧ afterFive.m_height 1 = 1 ∧
    afterFive.m_tail 1 0 = 10 ∧ afterFive.m_tail 1 1 = 1 := by
  decide

/-- C21 fails on the code: after `steal_nodes` from the structure holding key 5 at node 10
with height 1 (head 1) into the empty head 2, the level-0 traversal from head 2 is `[10]`,
but at level 1 the chain from head 2 goes to node 10 and from there to head 1, and the tail
pointer of head 2 refers to head 1, not to node 10; at level 2, where no node participates,
the forward link and the tail pointer of head 2 both refer to head 1. -/
theorem steal_nodes_keeps_source_sentinel :
    Reachable 1 afterFive ∧
    traverse afterFive 1 4 = some [10] ∧ Level afterFive 1 1 [10] ∧
    traverse afterFiveStolen 2 4 = some [10] ∧
    afterFiveStolen.m_next 2 1 = 10 ∧ afterFiveStolen.m_next 10 1 = 1 ∧
    afterFiveStolen.m_tail 2 1 = 1 ∧
    afterFiveStolen.m_next 2 2 = 1 ∧ afterFiveStolen.m_tail 2 2 = 1 := by
  refine ⟨built_reachable 1 afterFive built_afterFive, ?_⟩
  decide

end isa
